import Mathlib

/-! Geode: metadata rendering, type-annotation parsing and slice types.

A shallow embedding of

* `llvm/ir/metadata/metadata.go` (textual identity of metadata nodes),
* `pkg/ast/parseType.go` (the type-annotation parser and its lookahead),
* `pkg/gtypes/slice.go` (the slice type),
* `pkg/ast/ForNode.go` (the lowering of a loop to basic blocks),
* `pkg/ast/AST.go` (the parser of function definitions),

followed by theorems about these definitions.

Go strings are immutable byte sequences; in the metadata package they are
modelled as lists of bytes (`GoString`), and `str` turns a source literal into
its UTF-8 bytes.  A `bytes.Buffer` is the byte list written so far, and
`WriteString` appends to it.  The text of a token is compared with literals
and ranged over rune by rune; it is a `String`, whose characters are the
runes.

The children of a metadata container are a Go slice.  Where only the
elements matter the slice is the list of its elements (`Metadata`).  For
`Metadata.Add`, whose `append` may write into a backing array that other
slices lie on, containers live in a `Store`: a container holds a slice header
(array, offset, length, capacity), a child container is held by address, and
the rendering methods read through the store.

A routine that may end the process (`log.Fatal`) returns an `Outcome`.  Loops
whose end depends on the input run on an iteration bound that the theorems
show to be large enough.
-/

set_option autoImplicit false

/-! ## Strings and buffers -/

/-- A Go `string`: a finite sequence of bytes. -/
abbrev GoString := List (Fin 256)

/-- The bytes of a Go string literal (Go source text is UTF-8). -/
def str (s : String) : GoString := s.toUTF8.data.toList.map (fun b => b.val)

/-- The method `(*bytes.Buffer).WriteString`: append to the buffer. -/
def WriteString (buf s : GoString) : GoString := buf ++ s

/-! ## Package `types` -/

namespace types

/-- Modelled from the spec: the package `llvm/ir/types` is not part of the
sources at hand.  A type is one of the LLVM IR types used here; every type has
a type name (its `String()` method). -/
inductive Typ where
  | Void
  | Label
  | Metadata
  | Int (bitSize : Nat)
  | Pointer (elem : Typ)
  | Struct (fields : List Typ)

mutual
/-- Modelled from the spec: the type name of a type (`String()`), in LLVM IR
syntax. -/
def Typ.String : Typ → GoString
  | .Void => str "void"
  | .Label => str "label"
  | .Metadata => str "metadata"
  | .Int n => str "i" ++ str (toString n)
  | .Pointer e => Typ.String e ++ str "*"
  | .Struct fs => str "\x7b " ++ Typ.fieldNames 0 fs ++ str " \x7d"
/-- The comma-separated type names of the fields of a struct type. -/
def Typ.fieldNames (i : Nat) : List Typ → GoString
  | [] => []
  | f :: fs => (if i != 0 then str ", " else []) ++ Typ.String f ++ Typ.fieldNames (i + 1) fs
end

/-- Modelled from the spec: `types.Equal(t, types.Metadata)`, the only use of
`types.Equal` in the metadata package: does `t` have the metadata type? -/
def EqualMetadata : Typ → Bool
  | .Metadata => true
  | _ => false

/-- Modelled from the spec: the type `types.I64`, the 64-bit integer type. -/
def I64 : Typ := .Int 64

/-- Modelled from the spec: the constructor `types.NewPointer`, the pointer
type to `elem`. -/
def NewPointer (elem : Typ) : Typ := .Pointer elem

/-- Modelled from the spec: the constructor `types.NewStruct`, the struct type
with the given fields in the given order. -/
def NewStruct (fields : List Typ) : Typ := .Struct fields

end types

/-! ## Package `enc` -/

namespace enc

/-- Modelled from the spec: `enc.Metadata` is not part of the sources at hand.
The spec calls its result "a short sigil-prefixed reference to that
identifier": the sigil `!` followed by the name. -/
def Metadata (name : GoString) : GoString := str "!" ++ name

/-- Modelled from the spec: the table of upper-case hexadecimal digits that
the model of `enc.EscapeString` writes. -/
def hextable : GoString := str "0123456789ABCDEF"

/-- Modelled from the spec: the hexadecimal digit for a value below 16. -/
def hexDigit (n : Nat) : Fin 256 := hextable.getD n 0

/-- Modelled from the spec: the value of a hexadecimal digit, if the byte is
one. -/
def unhex (b : Fin 256) : Option Nat :=
  if 48 ≤ b.val ∧ b.val ≤ 57 then some (b.val - 48)
  else if 65 ≤ b.val ∧ b.val ≤ 70 then some (b.val - 55)
  else if 97 ≤ b.val ∧ b.val ≤ 102 then some (b.val - 87)
  else none

/-- Modelled from the spec: the bytes a string literal may hold unescaped,
printable ASCII other than the double quote and the backslash. -/
def validStringByte (b : Fin 256) : Bool :=
  decide (32 ≤ b.val) && decide (b.val ≤ 126) && b != 34 && b != 92

/-- Modelled from the spec: `enc.EscapeString` is not part of the sources at
hand.  The spec asks for an "escaped quoted string" in which "embedded quote
and backslash characters" round-trip.  The model is the LLVM IR string escape:
a byte that may not stand in a string literal becomes a backslash and its two
upper-case hexadecimal digits, every other byte stands for itself. -/
def EscapeString : GoString → GoString
  | [] => []
  | b :: rest =>
    if validStringByte b then b :: EscapeString rest
    else 92 :: hexDigit (b.val / 16) :: hexDigit (b.val % 16) :: EscapeString rest

/-- Modelled from the spec: the unescaping that the round-trip property
speaks of.  A backslash followed by two hexadecimal digits is the byte with
that value; every other byte stands for itself. -/
def Unescape : GoString → GoString
  | [] => []
  | b :: h :: l :: rest =>
    if b = 92 then
      match unhex h, unhex l with
      | some x1, some x2 => Fin.ofNat (16 * x1 + x2) :: Unescape rest
      | _, _ => b :: Unescape (h :: l :: rest)
    else b :: Unescape (h :: l :: rest)
  | b :: tl => b :: Unescape tl

end enc

/-! ## Package `metadata` -/

/-- A metadata node (the interface `Node`), with the values that a `Value`
node may wrap.  `Metadata` is a container with an identifier (empty for a
metadata literal) and child nodes; `Raw` is the type `*Raw`, which has the
methods of the interface although the comment on `Node` does not list it;
`Other` is any other value, such as a `constant.Constant`, of which only
`Type()` and `Ident()` are observed. -/
inductive Node where
  | Metadata (ID : GoString) (Nodes : List Node)
  | String (Val : GoString)
  | Value (X : Node)
  | Raw (Val : GoString)
  | Other (typ : types.Typ) (ident : GoString)

/-- The method `Type` of a node: the four metadata variants have the metadata
type. -/
def Node.Type : Node → types.Typ
  | .Metadata _ _ => types.Typ.Metadata
  | .String _ => types.Typ.Metadata
  | .Value _ => types.Typ.Metadata
  | .Raw _ => types.Typ.Metadata
  | .Other typ _ => typ

mutual
/-- The method `Ident` of a node, by variant: `Metadata.Ident`,
`String.Ident`, `Value.Ident`, `Raw.Ident`. -/
def Node.Ident : Node → GoString
  | .Metadata ID Nodes =>
    if ID.length > 0 then enc.Metadata ID
    else WriteString (Node.defLoop (WriteString [] (str "!\x7b")) 0 Nodes) (str "\x7d")
  | .String Val => str "!\"" ++ enc.EscapeString Val ++ str "\""
  | .Value X => types.Typ.String X.Type ++ str " " ++ Node.Ident X
  | .Raw Val => str "!" ++ Val
  | .Other _ ident => ident
/-- The loop of `Metadata.Def` over the child nodes from index `i` on, with
the buffer written so far. -/
def Node.defLoop (buf : GoString) (i : Nat) : List Node → GoString
  | [] => buf
  | node :: rest =>
    let buf1 := if i != 0 then WriteString buf (str ", ") else buf
    let buf2 :=
      if !types.EqualMetadata node.Type then
        WriteString buf1 (types.Typ.String node.Type ++ str " ")
      else buf1
    Node.defLoop (WriteString buf2 (Node.Ident node)) (i + 1) rest
end

/-- The struct `Metadata`: a set of metadata nodes. -/
structure Metadata where
  ID : GoString
  Nodes : List Node

/-- A container as a node. -/
def Metadata.toNode (md : Metadata) : Node := .Metadata md.ID md.Nodes

/-- The method `Metadata.Def`. -/
def Metadata.Def (md : Metadata) : GoString :=
  WriteString (Node.defLoop (WriteString [] (str "!\x7b")) 0 md.Nodes) (str "\x7d")

/-- The method `Metadata.Ident`. -/
def Metadata.Ident (md : Metadata) : GoString :=
  if md.ID.length > 0 then enc.Metadata md.ID else md.Def

/-- The method `Metadata.Add`. -/
def Metadata.Add (md : Metadata) (n : Node) : Metadata :=
  { md with Nodes := md.Nodes ++ [n] }

/-- The type `[]*Metadata` of the members of a named collection. -/
abbrev MetadataSlice := List Metadata

/-- The struct `Named`: a named collection of metadata. -/
structure Named where
  Name : GoString
  Metadata : MetadataSlice

/-- The loop of `Named.Def` over the members from index `i` on. -/
def Named.defLoop (buf : GoString) (i : Nat) : MetadataSlice → GoString
  | [] => buf
  | metadata :: rest =>
    let buf1 := if i != 0 then WriteString buf (str ", ") else buf
    Named.defLoop (WriteString buf1 metadata.Ident) (i + 1) rest

/-- The method `Named.Def`. -/
def Named.Def (md : Named) : GoString :=
  WriteString (Named.defLoop (WriteString [] (str "!\x7b")) 0 md.Metadata) (str "\x7d")

/-- The method `Named.Ident`. -/
def Named.Ident (md : Named) : GoString := enc.Metadata md.Name

/-- The rendering of one child inside a container definition, as the spec
words it: the child's identity, preceded by its type name and a space unless
the child has the metadata type. -/
def childRendering (c : Node) : GoString :=
  if types.EqualMetadata c.Type then c.Ident
  else types.Typ.String c.Type ++ str " " ++ c.Ident

/-- The texts `xs`, each preceded by a comma and a blank. -/
def commaTail : List GoString → GoString
  | [] => []
  | x :: xs => str ", " ++ x ++ commaTail xs

/-- The texts `xs` joined by a comma and a blank: `x1, x2, ..., xn`. -/
def commaJoin : List GoString → GoString
  | [] => []
  | x :: xs => x ++ commaTail xs

/-- The rendering of one member inside the definition of a named collection:
the member's short reference when it has an identifier, its full literal
definition when it has none. -/
def memberRendering (m : Metadata) : GoString :=
  if m.ID.length > 0 then enc.Metadata m.ID else m.Def

/-- The container of the scenario: identifier `3`, one string child `hi`. -/
def scenarioContainer : Metadata := { ID := str "3", Nodes := [.String (str "hi")] }

/-- A container without identifier that holds one string child `hi`. -/
def anonymousMember : Metadata := { ID := [], Nodes := [.String (str "hi")] }

/-- A named collection `dbg` whose one member has no identifier. -/
def namedWithAnonymous : Named := { Name := str "dbg", Metadata := [anonymousMember] }

/-- The named collection of the scenario: `dbg` with members `1` and `2`. -/
def scenarioNamed : Named :=
  { Name := str "dbg",
    Metadata := [{ ID := str "1", Nodes := [.String (str "a")] }, { ID := str "2", Nodes := [] }] }

/-- Does `pat` occur as a contiguous run inside `s`? -/
def occursIn (pat s : GoString) : Bool := s.tails.any (fun t => pat.isPrefixOf t)

/-! ## Package `lexer` and the parser cursor -/

namespace lexer

/-- Modelled from the spec: the package `pkg/lexer` is not part of the sources
at hand.  The kinds of token that the type-annotation parser tells apart; the
first one is the kind of the zero-value token. -/
inductive TokenType where
  | TokError
  | TokType
  | TokIdent
  | TokOper
  | TokQuestionMark
  | TokOther (id : Nat)
  deriving DecidableEq, Repr

/-- Modelled from the spec: a token has a kind (the field `Type`) and a text
(the field `Value`).  The text is a sequence of characters, the runes that
`range` yields. -/
structure Token where
  Kind : TokenType
  Value : String
  deriving DecidableEq, Repr

/-- Modelled from the spec: the zero-value token, of the first kind and with
empty text. -/
def Token.zero : Token := { Kind := .TokError, Value := "" }

/-- Modelled from the spec: the method `Token.Is`, is the token of kind `t`? -/
def Token.Is (tok : Token) (t : TokenType) : Bool := tok.Kind == t

end lexer

/-- Modelled from the spec: the parser state that `parseType.go` works on is
declared outside the sources at hand.  It is the token stream, the position
in it and the current token (the field `token`). -/
structure Parser where
  tokens : List lexer.Token
  tokenIndex : Nat
  token : lexer.Token
  deriving DecidableEq, Repr

/-- Modelled from the spec: `Peek(offset)` is the token `offset` positions
after the current one, without consuming input; past the end of the stream
it is the zero-value token. -/
def Parser.Peek (p : Parser) (offset : Nat) : lexer.Token :=
  p.tokens.getD (p.tokenIndex + offset) lexer.Token.zero

/-- Modelled from the spec: `Next()` consumes the current token: the token
after it becomes the current one. -/
def Parser.Next (p : Parser) : Parser :=
  { p with tokenIndex := p.tokenIndex + 1, token := p.Peek 1 }

/-- Modelled from the spec: `parseName()` consumes the base name: the text of
the current token. -/
def Parser.parseName (p : Parser) : String × Parser := (p.token.Value, p.Next)

/-- What a parser routine comes to: a result, or a fatal error (`log.Fatal`
ends the process) with its format string and arguments.  `outOfFuel` is what a
loop of the embedding gives when its iteration bound is used up. -/
inductive Outcome (α : Type) where
  | ok (a : α)
  | fatal (format : String) (args : List String)
  | outOfFuel
  deriving DecidableEq, Repr

/-! ## `pkg/ast/parseType.go` -/

/-- Modelled from the spec: the tags of the `Modifiers` sequence. -/
inductive TypeModifier where
  | ModifierPointer
  | ModifierUnknown
  | ModifierSlice
  deriving DecidableEq, Repr

/-- Modelled from the spec: the struct `TypeNode`, a parsed type annotation.
`PointerLevel` is a Go `int`; it counts tokens of the input, so it stays far
below the range of the type and is a natural number here. -/
structure TypeNode where
  Name : String
  Modifiers : List TypeModifier
  PointerLevel : Nat
  Unknown : Bool
  deriving DecidableEq, Repr

/-- The variable `typeOperators`. -/
def typeOperators : List String := ["*", "?"]

/-- The function `validTypeInfoTokens`. -/
def validTypeInfoTokens (t : lexer.Token) : Bool :=
  typeOperators.any (fun op => op == t.Value)

/-- The loop of `atType`: advance `offset` over the tokens that
`validTypeInfoTokens` accepts. -/
def atTypeLoop : Nat → Parser → Nat → Outcome Nat
  | 0, _, _ => .outOfFuel
  | fuel + 1, p, offset =>
    if validTypeInfoTokens (p.Peek offset) then atTypeLoop fuel p (offset + 1)
    else .ok offset

/-- The method `Parser.atType`, with the parser state it leaves. -/
def Parser.atType (p : Parser) : Outcome (Bool × Parser) :=
  if !p.token.Is .TokType then .ok (false, p)
  else
    match atTypeLoop (p.tokens.length + 1) p 1 with
    | .ok offset =>
      if (p.Peek offset).Kind == .TokIdent then .ok (true, p) else .ok (false, p)
    | .fatal f a => .fatal f a
    | .outOfFuel => .outOfFuel

/-- The inner loop of `parseType` over the runes of an operator token. -/
def pointerRunes (t : TypeNode) : List Char → TypeNode
  | [] => t
  | c :: rest =>
    if c == '*' then
      pointerRunes { t with PointerLevel := t.PointerLevel + 1,
                            Modifiers := t.Modifiers ++ [.ModifierPointer] } rest
    else pointerRunes t rest

/-- The loop of `parseType`. -/
def parseTypeLoop : Nat → TypeNode → Parser → Outcome (TypeNode × Parser)
  | 0, _, _ => .outOfFuel
  | fuel + 1, t, p =>
    if p.token.Is .TokQuestionMark then
      if t.Unknown then
        .fatal "Multiple Unknown Type operators for %q used.\n" [t.Name]
      else
        parseTypeLoop fuel
          { t with Unknown := true, Modifiers := t.Modifiers ++ [.ModifierUnknown] } p.Next
    else if p.token.Is .TokOper && validTypeInfoTokens p.token then
      parseTypeLoop fuel (pointerRunes t p.token.Value.toList) p.Next
    else .ok (t, p)

/-- Modelled from the spec: `requires(t)` is a fatal error unless the current
token is of kind `t`.  The wording of its message is not in the sources at
hand; nothing below depends on it. -/
def Parser.requires (p : Parser) (t : lexer.TokenType) : Outcome Unit :=
  if p.token.Is t then .ok () else .fatal "unexpected token %q" [p.token.Value]

/-- The method `Parser.parseType`, with the parser state it leaves. -/
def Parser.parseType (p : Parser) : Outcome (TypeNode × Parser) :=
  match p.requires .TokType with
  | .fatal f a => .fatal f a
  | .outOfFuel => .outOfFuel
  | .ok () =>
    let (name, p1) := p.parseName
    let t : TypeNode := { Name := name, Modifiers := [], PointerLevel := 0, Unknown := false }
    parseTypeLoop (p1.tokens.length + 1) t p1

/-! ## `pkg/gtypes/slice.go` -/

/-- The struct `SliceType`: the element type and the embedded struct type. -/
structure SliceType where
  ElemType : types.Typ
  StructType : types.Typ

/-- The function `NewSlice`. -/
def NewSlice (elem : types.Typ) : SliceType :=
  let length := types.I64
  let typ := types.NewStruct [types.NewPointer elem, length]
  { ElemType := elem, StructType := typ }

/-- The method `SliceType.Underlying`. -/
def SliceType.Underlying (t : SliceType) : types.Typ := t.StructType

/-- The fields of a struct type (none for the other types). -/
def types.Typ.Fields : types.Typ → List types.Typ
  | .Struct fields => fields
  | _ => []

/-! ## Statement vocabulary for the parser -/

/-- A parser at position `pre.length` of a stream. -/
def Parser.positioned (pre : List lexer.Token) (tok : lexer.Token) (rest : List lexer.Token) : Parser :=
  { tokens := pre ++ tok :: rest, tokenIndex := pre.length, token := tok }

/-- A pointer-marker token: an operator token with the text `*`. -/
def isPointerMarker (tok : lexer.Token) : Bool :=
  tok.Is .TokOper && tok.Value == "*"

/-- An inference-marker token. -/
def isInferenceMarker (tok : lexer.Token) : Bool := tok.Is .TokQuestionMark

/-- The tokens that the loop of `parseType` consumes. -/
def isModifierToken (tok : lexer.Token) : Bool :=
  tok.Is .TokQuestionMark || (tok.Is .TokOper && validTypeInfoTokens tok)

/-- The tag that a consumed marker token adds to `Modifiers`. -/
def modifierTags : List lexer.Token → List TypeModifier
  | [] => []
  | tok :: rest =>
    if isInferenceMarker tok then .ModifierUnknown :: modifierTags rest
    else if isPointerMarker tok then .ModifierPointer :: modifierTags rest
    else modifierTags rest

/-- The parser at position `i` of the stream `ts`: its current token is the
one at that position, the zero-value token past the end. -/
def Parser.cursor (ts : List lexer.Token) (i : Nat) : Parser :=
  { tokens := ts, tokenIndex := i, token := ts.getD i lexer.Token.zero }

/-- What the markers `ms`, read in order, make of the annotation `t`: `none`
when an inference marker comes although `Unknown` is already set. -/
def applyMarkers : TypeNode → List lexer.Token → Option TypeNode
  | t, [] => some t
  | t, m :: ms =>
    if isInferenceMarker m then
      if t.Unknown then none
      else applyMarkers
        { t with Unknown := true, Modifiers := t.Modifiers ++ [.ModifierUnknown] } ms
    else
      applyMarkers
        { t with PointerLevel := t.PointerLevel + 1,
                 Modifiers := t.Modifiers ++ [.ModifierPointer] } ms

/-- The invariant of a type annotation: `PointerLevel` counts the `Pointer`
tags, the `Unknown` tag occurs at most once, and `Unknown` is set exactly when
that tag occurs. -/
def TypeNode.WellFormed (t : TypeNode) : Prop :=
  t.PointerLevel = t.Modifiers.count .ModifierPointer ∧
  t.Modifiers.count .ModifierUnknown ≤ 1 ∧
  (t.Unknown = true ↔ TypeModifier.ModifierUnknown ∈ t.Modifiers)

/-- The first token after the maximal run of tokens with the text `*` or `?`
that follows the current token, if the stream has one. -/
def tokenAfterModifiers (p : Parser) : Option lexer.Token :=
  ((p.tokens.drop (p.tokenIndex + 1)).dropWhile validTypeInfoTokens).head?

/-- The answer of the lookahead as the spec words it. -/
def beginsType (p : Parser) : Bool :=
  p.token.Is .TokType &&
    match tokenAfterModifiers p with
    | some tok => tok.Kind == .TokIdent
    | none => false

/-- A stream for the examples: `int * ? * x`. -/
def streamPointerInference : List lexer.Token :=
  [⟨.TokType, "int"⟩, ⟨.TokOper, "*"⟩, ⟨.TokQuestionMark, "?"⟩, ⟨.TokOper, "*"⟩,
   ⟨.TokIdent, "x"⟩]

/-- A stream for the examples: `int ** x`, the two stars being one operator
token. -/
def streamDoubleStar : List lexer.Token :=
  [⟨.TokType, "int"⟩, ⟨.TokOper, "**"⟩, ⟨.TokIdent, "x"⟩]

/-- A stream for the examples: `int ? x`, the question mark being a token of
the operator kind, not of the kind `TokQuestionMark`. -/
def streamQuestionOperator : List lexer.Token :=
  [⟨.TokType, "int"⟩, ⟨.TokOper, "?"⟩, ⟨.TokIdent, "x"⟩]

/-- A stream for the examples: `int ? x`, the question mark being of the kind
`TokQuestionMark`. -/
def streamInference : List lexer.Token :=
  [⟨.TokType, "int"⟩, ⟨.TokQuestionMark, "?"⟩, ⟨.TokIdent, "x"⟩]

/-! ## Containers behind pointers, slices and backing arrays -/

/-- A node as a container stores it: a child container is a pointer
(`*Metadata`), here the position of the container in the store; the other
variants are as in `Node`. -/
inductive StoredNode where
  | Container (addr : Nat)
  | String (Val : GoString)
  | Value (X : StoredNode)
  | Raw (Val : GoString)
  | Other (typ : types.Typ) (ident : GoString)

/-- The method `Type` of a stored node. -/
def StoredNode.Type : StoredNode → types.Typ
  | .Container _ => types.Typ.Metadata
  | .String _ => types.Typ.Metadata
  | .Value _ => types.Typ.Metadata
  | .Raw _ => types.Typ.Metadata
  | .Other typ _ => typ

/-- A slice value (`[]Node`): the backing array it lies on, the index in that
array of its first element, its length and its capacity.  Two slices may lie
on one array and overlap. -/
structure Slice where
  array : Nat
  offset : Nat
  len : Nat
  cap : Nat

/-- A container in the store: its identifier and the slice `Nodes`. -/
structure StoredMetadata where
  ID : GoString
  Nodes : Slice

/-- The memory: the containers by address and the backing arrays by address;
a cell of an array holds a node or nil. -/
structure Store where
  containers : List StoredMetadata
  arrays : List (List (Option StoredNode))

/-- The elements of the slice `s`: the `len` cells of its array from `offset`
on. -/
def Store.elems (h : Store) (s : Slice) : List (Option StoredNode) :=
  ((h.arrays.getD s.array []).drop s.offset).take s.len

/-- The builtin `append(s, n)` of Go for one value.  With spare capacity the
value is written in place into the cell of the backing array after the last
element, and the result is the slice one longer on the same array.  Without,
a new array is allocated that holds the elements and `n`, and the result is
a slice on it; `newCap` is the capacity that the runtime chooses, at least
the new length. -/
def Store.append (h : Store) (s : Slice) (n : StoredNode) (newCap : Nat) : Slice × Store :=
  if s.len < s.cap then
    ({ s with len := s.len + 1 },
     { h with
       arrays := h.arrays.set s.array
         ((h.arrays.getD s.array []).set (s.offset + s.len) (some n)) })
  else
    let cap := max newCap (s.len + 1)
    ({ array := h.arrays.length, offset := 0, len := s.len + 1, cap := cap },
     { h with
       arrays := h.arrays ++
         [h.elems s ++ [some n] ++ List.replicate (cap - (s.len + 1)) none] })

/-- The method `Metadata.Add` on the container at `addr`:
`md.Nodes = append(md.Nodes, n)`.  On a nil receiver the method panics;
nothing is written then. -/
def Store.Add (h : Store) (addr : Nat) (n : StoredNode) (newCap : Nat) : Store :=
  match h.containers[addr]? with
  | none => h
  | some md =>
    let r := h.append md.Nodes n newCap
    { r.2 with containers := r.2.containers.set addr { md with Nodes := r.1 } }

/-- The loop of `Metadata.Def` over the cells of the children from index `i`
on, with the buffer written so far; `ident` is the method `Ident` of a child.
A nil child has no method to call: the loop panics, which is `none`. -/
def Store.defLoop (ident : StoredNode → Option GoString) (buf : GoString) (i : Nat) :
    List (Option StoredNode) → Option GoString
  | [] => some buf
  | none :: _ => none
  | some node :: rest =>
    let buf1 := if i != 0 then WriteString buf (str ", ") else buf
    let buf2 :=
      if !types.EqualMetadata node.Type then
        WriteString buf1 (types.Typ.String node.Type ++ str " ")
      else buf1
    match ident node with
    | none => none
    | some id => Store.defLoop ident (WriteString buf2 id) (i + 1) rest

/-- The body of `Metadata.Def` over the cells of the children. -/
def Store.defOf (ident : StoredNode → Option GoString)
    (children : List (Option StoredNode)) : Option GoString :=
  match Store.defLoop ident (WriteString [] (str "!\x7b")) 0 children with
  | none => none
  | some buf => some (WriteString buf (str "\x7d"))

/-- The method `Ident` of a stored node in the store `h`, by variant, with at
most `fuel` nested calls; `none` when that depth does not suffice or the call
panics.  `Metadata.Ident` on a container with an identifier returns the
reference and reads no child. -/
def Store.Ident : Nat → Store → StoredNode → Option GoString
  | 0, _, _ => none
  | fuel + 1, h, .Container addr =>
    match h.containers[addr]? with
    | none => none
    | some md =>
      if md.ID.length > 0 then some (enc.Metadata md.ID)
      else Store.defOf (Store.Ident fuel h) (h.elems md.Nodes)
  | _ + 1, _, .String Val => some (str "!\"" ++ enc.EscapeString Val ++ str "\"")
  | fuel + 1, h, .Value X =>
    match Store.Ident fuel h X with
    | none => none
    | some id => some (types.Typ.String X.Type ++ str " " ++ id)
  | _ + 1, _, .Raw Val => some (str "!" ++ Val)
  | _ + 1, _, .Other _ ident => some ident

/-- The method `Metadata.Def` of the container at `addr` in the store `h`,
its children rendered with at most `fuel` nested calls each. -/
def Store.Def (fuel : Nat) (h : Store) (addr : Nat) : Option GoString :=
  match h.containers[addr]? with
  | none => none
  | some md => Store.defOf (Store.Ident fuel h) (h.elems md.Nodes)

/-- The stored node `n` contains the container at `addr`: it is a pointer to
it, or wraps or holds as a child, at any depth, a node that contains it. -/
inductive Store.Contains (h : Store) : StoredNode → Nat → Prop where
  | self (addr : Nat) : Store.Contains h (.Container addr) addr
  | child (parent addr : Nat) (md : StoredMetadata) (c : StoredNode) :
      h.containers[parent]? = some md → some c ∈ h.elems md.Nodes →
      Store.Contains h c addr → Store.Contains h (.Container parent) addr
  | wrapped (X : StoredNode) (addr : Nat) :
      Store.Contains h X addr → Store.Contains h (.Value X) addr

/-- The cell, as array and index, that `append` writes in place when `Add` is
called on the container at `addr`: the one after its last child, when its
slice has spare capacity; none when a new array is allocated. -/
def Store.writtenCell (h : Store) (addr : Nat) : Option (Nat × Nat) :=
  match h.containers[addr]? with
  | none => none
  | some md =>
    if md.Nodes.len < md.Nodes.cap then
      some (md.Nodes.array, md.Nodes.offset + md.Nodes.len)
    else none

/-- The cell is one of the elements of the slice. -/
def Slice.covers (s : Slice) (cell : Nat × Nat) : Prop :=
  s.array = cell.1 ∧ s.offset ≤ cell.2 ∧ cell.2 < s.offset + s.len

/-- Every slice of a container lies within an array that exists: its length
is at most its capacity, and its capacity, unless zero as for a nil slice,
ends within the array. -/
def Store.WellFormed (h : Store) : Prop :=
  ∀ md ∈ h.containers,
    md.Nodes.len ≤ md.Nodes.cap ∧
    (md.Nodes.cap = 0 ∨
      md.Nodes.offset + md.Nodes.cap ≤ (h.arrays.getD md.Nodes.array []).length)

/-- The node `c` is apart from what `Add` on the container at `addr` writes:
it does not contain that container, and no container that it contains has a
slice over the cell that `append` writes in place. -/
def Store.Apart (h : Store) (c : StoredNode) (addr : Nat) : Prop :=
  ¬ Store.Contains h c addr ∧
  ∀ (b : Nat) (md : StoredMetadata) (cell : Nat × Nat),
    Store.Contains h c b → h.containers[b]? = some md →
    h.writtenCell addr = some cell → ¬ md.Nodes.covers cell

/-- The rendering of a stored child inside a container definition, given its
identity: preceded by the type name and a space unless the child has the
metadata type. -/
def Store.childRendering (node : StoredNode) (id : GoString) : GoString :=
  if types.EqualMetadata node.Type then id
  else types.Typ.String node.Type ++ str " " ++ id

/-- A store for the examples, each container on an array of its own.
Container 0 is anonymous and holds the string `a`, with room for one more
child; container 1 has the identifier `7` and holds a constant; container 2
is anonymous and holds a pointer to container 0. -/
def exampleStore : Store :=
  { containers :=
      [{ ID := [], Nodes := ⟨0, 0, 1, 2⟩ },
       { ID := str "7", Nodes := ⟨1, 0, 1, 1⟩ },
       { ID := [], Nodes := ⟨2, 0, 1, 1⟩ }],
    arrays :=
      [[some (.String (str "a")), none],
       [some (.Other (.Int 32) (str "1"))],
       [some (.Container 0)]] }

/-- A store in which two containers lie on one backing array, as after
`base := []Node{a, b}` with `&Metadata{Nodes: base[:1]}` as container 0 and
`&Metadata{Nodes: base}` as container 1: container 0 holds the string `a` and
has capacity two, container 1 holds the strings `a` and `b`. -/
def sharedStore : Store :=
  { containers :=
      [{ ID := [], Nodes := ⟨0, 0, 1, 2⟩ },
       { ID := [], Nodes := ⟨0, 0, 2, 2⟩ }],
    arrays := [[some (.String (str "a")), some (.String (str "b"))]] }

/-- A store with a cycle through a container that has an identifier:
container 0 has the identifier `3` and holds a pointer to container 1;
container 1 is anonymous and holds a pointer to container 0; container 2 is
anonymous, lies on an array of its own and holds the string `s`, with room
for one more child. -/
def cyclicStore : Store :=
  { containers :=
      [{ ID := str "3", Nodes := ⟨0, 0, 1, 1⟩ },
       { ID := [], Nodes := ⟨1, 0, 1, 1⟩ },
       { ID := [], Nodes := ⟨2, 0, 1, 2⟩ }],
    arrays := [[some (.Container 1)], [some (.Container 0)], [some (.String (str "s")), none]] }

/-! ## Basic blocks and the program being lowered -/

namespace ir

/-- Modelled from the spec: a `value.Value` as far as the lowering of a loop
looks at it: nothing (`nil`), a pointer to a basic block (the address of the
block), or some other value. -/
inductive Value where
  | Nil
  | BlockRef (addr : Nat)
  | Named (ident : String)
  deriving DecidableEq, Repr

/-- Modelled from the spec: the control-transfer instruction that ends a
basic block. -/
inductive Terminator where
  | Br (target : Nat)
  | CondBr (cond : Value) (targetTrue targetFalse : Nat)
  | Ret (x : Value)
  deriving DecidableEq, Repr

/-- Modelled from the spec: a basic block, with its name, its instructions
and its optional single terminator. -/
structure Block where
  Name : String
  Insts : List String
  Term : Option Terminator
  deriving DecidableEq, Repr

/-- Modelled from the spec: the idempotent-terminator operation on one block,
an unconditional branch to `target` unless the block has a terminator. -/
def Block.BranchIfNoTerminator (blk : Block) (target : Nat) : Block :=
  if blk.Term.isNone then { blk with Term := some (.Br target) } else blk

end ir

/-- Modelled from the spec: a frame of the scope stack, with the frame below
it, the token that introduced it and its bindings. -/
structure ScopeFrame where
  Parent : Option Nat
  Tag : String
  Vars : List (String × String)
  deriving DecidableEq, Repr

/-- Modelled from the spec: the state that lowering works on, declared outside
the sources at hand.  `Blocks` are the basic blocks of the enclosing function
in the order of their creation, a `*ir.Block` being the position of the block;
`blockStack` is the compiler's stack of blocks, whose top is the current
block; `Scopes` are the scope frames that exist and `Scope` is the handle of
the active one (the field `prog.Scope`). -/
structure Program where
  Blocks : List ir.Block
  blockStack : List Nat
  Scopes : List ScopeFrame
  Scope : Nat
  deriving DecidableEq, Repr

/-- Modelled from the spec: `Compiler.CurrentBlock`, `nil` without a block. -/
def Program.CurrentBlock (prog : Program) : Option Nat := prog.blockStack.head?

/-- Modelled from the spec: `Compiler.PushBlock` makes `blk` the current
block. -/
def Program.PushBlock (prog : Program) (blk : Nat) : Program :=
  { prog with blockStack := blk :: prog.blockStack }

/-- Modelled from the spec: `Function.NewBlock` appends a block with the given
name, without instructions and without terminator, to the function and
returns it. -/
def Program.NewBlock (prog : Program) (name : String) : Nat × Program :=
  (prog.Blocks.length,
   { prog with Blocks := prog.Blocks ++ [{ Name := name, Insts := [], Term := none }] })

/-- A write to the block at `blk`. -/
def Program.updateBlock (prog : Program) (blk : Nat) (f : ir.Block → ir.Block) : Program :=
  match prog.Blocks[blk]? with
  | none => prog
  | some b => { prog with Blocks := prog.Blocks.set blk (f b) }

/-- Modelled from the spec: `Block.NewBr` sets the terminator of `blk` to an
unconditional branch. -/
def Program.NewBr (prog : Program) (blk target : Nat) : Program :=
  prog.updateBlock blk (fun b => { b with Term := some (.Br target) })

/-- Modelled from the spec: `Block.NewCondBr` sets the terminator of `blk` to
a conditional branch. -/
def Program.NewCondBr (prog : Program) (blk : Nat) (cond : ir.Value)
    (targetTrue targetFalse : Nat) : Program :=
  prog.updateBlock blk (fun b => { b with Term := some (.CondBr cond targetTrue targetFalse) })

/-- Modelled from the spec: `BranchIfNoTerminator(blk, target)`, the
idempotent-terminator operation on the block at `blk`. -/
def BranchIfNoTerminator (prog : Program) (blk target : Nat) : Program :=
  prog.updateBlock blk (fun b => b.BranchIfNoTerminator target)

/-- Modelled from the spec: `ScopeDown(token)` pushes a new frame, tagged
with the token, and makes it the active one. -/
def Program.ScopeDown (prog : Program) (token : String) : Program :=
  { prog with
    Scopes := prog.Scopes ++ [{ Parent := some prog.Scope, Tag := token, Vars := [] }],
    Scope := prog.Scopes.length }

/-- Modelled from the spec: `ScopeUp()` pops the active frame; it is an error
when there is no frame below it. -/
def Program.ScopeUp (prog : Program) : Option String × Program :=
  match prog.Scopes[prog.Scope]? with
  | some frame =>
    match frame.Parent with
    | some parent => (none, { prog with Scope := parent })
    | none => (some "attempt to step up from the root scope", prog)
  | none => (some "attempt to step up from the root scope", prog)

/-- Modelled from the spec: `Compiler.genInBlock(blk, fn)` saves the current
block, makes `blk` the current block, runs `fn` and restores what it saved,
whatever `fn` returns. -/
def Program.genInBlock {β : Type} (prog : Program) (blk : Nat)
    (fn : Program → β × Program) : β × Program :=
  let saved := prog.blockStack
  let (r, prog2) := fn (prog.PushBlock blk)
  (r, { prog2 with blockStack := saved })

/-- Modelled from the spec: the method `Codegen` of a sub-node of the loop,
whose nodes are declared outside the sources at hand: any function from the
program to the pair of a value and an error (`none` for `nil`), and the
program after. -/
abbrev Lowering := Program → (ir.Value × Option String) × Program

/-- Modelled from the spec: the function `createTypeCast(prog, value, type)`,
declared outside the sources at hand: any fallible cast. -/
abbrev TypeCast := Program → ir.Value → types.Typ → (ir.Value × Option String) × Program

/-- Modelled from the spec: the type `types.I1`, the 1-bit boolean type. -/
def types.I1 : types.Typ := .Int 1

/-! ## `pkg/ast/ForNode.go` -/

/-- The upper-case hexadecimal digit of a value below 16 (the verb `%X`). -/
def upperHexDigit (d : Nat) : Char := "0123456789ABCDEF".data.getD d '0'

/-- The hexadecimal digits of `n` in front of `acc`, most significant first;
`fuel` bounds the number of digits. -/
def upperHexCore : Nat → Nat → List Char → List Char
  | 0, _, acc => acc
  | fuel + 1, n, acc =>
    let acc2 := upperHexDigit (n % 16) :: acc
    if n / 16 = 0 then acc2 else upperHexCore fuel (n / 16) acc2

/-- The hexadecimal digits of a natural number, `0` for zero. -/
def upperHexNat (n : Nat) : List Char := upperHexCore (n + 1) n []

/-- What `fmt.Sprintf("%X", i)` gives for an integer: the upper-case
hexadecimal digits of its magnitude, after a minus sign when it is negative. -/
def formatUpperHex (i : Int) : String :=
  if i < 0 then String.mk ('-' :: upperHexNat i.natAbs) else String.mk (upperHexNat i.natAbs)

/-- What a step inside a block comes to: done, with the error that it
returns (`none` for `nil`), or a run-time panic. -/
inductive Exit where
  | done (err : Option String)
  | panic
  deriving DecidableEq, Repr

/-- What `Codegen` comes to: it returns a value and an error (`none` for
`nil`) and leaves the program `prog`, or it panics. -/
inductive Lowered where
  | returned (val : ir.Value) (err : Option String) (prog : Program)
  | panicked
  deriving DecidableEq, Repr

/-- The struct `ForNode`.  `Token` is the token of the embedded
`TokenReference`; the four sub-nodes are given by their lowerings. -/
structure ForNode where
  Token : String
  Index : Int
  Init : Lowering
  Cond : Lowering
  Step : Lowering
  Body : Lowering

/-- The variable `namePrefix` of `Codegen`. -/
def ForNode.namePrefix (n : ForNode) : String := "F" ++ formatUpperHex n.Index ++ "_"

/-- The function literal that `Codegen` runs in the cond block; its second
result is the variable `predicate` as the function leaves it. -/
def ForNode.condClosure (createTypeCast : TypeCast) (n : ForNode) (prog : Program) :
    (Option String × ir.Value) × Program :=
  let ((predicate, _), prog1) := n.Cond prog
  let ((c, err), prog2) := createTypeCast prog1 predicate types.I1
  match err with
  | some e => ((some e, predicate), prog2)
  | none => ((none, c), prog2)

/-- The function literal that `Codegen` runs in the body block.  The type
assertion `gen.(*ir.Block)` panics when the body did not return a block. -/
def ForNode.bodyClosure (n : ForNode) (bodyBlk stepBlk : Nat) (prog : Program) :
    Exit × Program :=
  let scp := prog.Scope
  let ((gen, err), prog1) := n.Body prog
  match err with
  | some e => (.done (some e), prog1)
  | none =>
    let prog2 := { prog1 with Scope := scp }
    match gen with
    | .BlockRef bodyGenBlk =>
      let prog3 := BranchIfNoTerminator prog2 bodyGenBlk stepBlk
      let prog4 := BranchIfNoTerminator prog3 bodyBlk stepBlk
      (.done none, prog4)
    | _ => (.panic, prog2)

/-- The function literal that `Codegen` runs in the step block. -/
def ForNode.stepClosure (n : ForNode) (prog : Program) : Option String × Program :=
  let scp := prog.Scope
  let ((_, err), prog1) := n.Step prog
  (err, { prog1 with Scope := scp })

/-- The method `ForNode.Codegen`.  Without a current block `parentBlock` is
`nil` and `parentBlock.Parent` panics. -/
def ForNode.Codegen (createTypeCast : TypeCast) (n : ForNode) (prog : Program) : Lowered :=
  let parentBlock := prog.CurrentBlock
  let prog1 := prog.ScopeDown n.Token
  match parentBlock with
  | none => .panicked
  | some parentBlock =>
    let (condBlk, prog2) := prog1.NewBlock ( n.namePrefix ++ "cond")
    let (_, prog3) := n.Init prog2
    let prog4 := prog3.NewBr parentBlock condBlk
    match prog4.genInBlock condBlk (n.condClosure createTypeCast) with
    | ((some e, _), prog5) => .returned .Nil (some e) prog5
    | ((none, predicate), prog5) =>
      let (bodyBlk, prog6) := prog5.NewBlock ( n.namePrefix ++ "body")
      let (stepBlk, prog7) := prog6.NewBlock ( n.namePrefix ++ "step")
      match prog7.genInBlock bodyBlk (n.bodyClosure bodyBlk stepBlk) with
      | (.panic, _) => .panicked
      | (.done (some e), prog8) => .returned .Nil (some e) prog8
      | (.done none, prog8) =>
        match prog8.genInBlock stepBlk n.stepClosure with
        | (some e, prog9) => .returned .Nil (some e) prog9
        | (none, prog9) =>
          let prog10 := BranchIfNoTerminator prog9 stepBlk condBlk
          let (endBlk, prog11) := prog10.NewBlock ( n.namePrefix ++ "end")
          let prog12 := prog11.PushBlock endBlk
          let prog13 := prog12.NewCondBr condBlk predicate bodyBlk endBlk
          match prog13.ScopeUp with
          | (some e, prog14) => .returned .Nil (some e) prog14
          | (none, prog14) => .returned (.BlockRef endBlk) none prog14

/-- The four block names that `Codegen` makes for the loop index `i`. -/
def loopBlockNames (i : Int) : List String :=
  [ "F" ++ formatUpperHex i ++ "_" ++ "cond", "F" ++ formatUpperHex i ++ "_" ++ "body",
    "F" ++ formatUpperHex i ++ "_" ++ "step", "F" ++ formatUpperHex i ++ "_" ++ "end"]

/-! ## Example lowerings -/

/-- A lowering that returns the value `v` and changes nothing. -/
def Lowering.value (v : ir.Value) : Lowering := fun prog => ((v, none), prog)

/-- A lowering that fails with the error `e` and changes nothing. -/
def Lowering.failing (e : String) : Lowering := fun prog => ((.Nil, some e), prog)

/-- A lowering of an empty block statement: it returns the current block (the
block at 0 when there is none) and changes nothing. -/
def Lowering.block : Lowering := fun prog =>
  ((.BlockRef (prog.CurrentBlock.getD 0), none), prog)

/-- A cast that succeeds and names its result after the type. -/
def TypeCast.succeeding : TypeCast := fun prog _ _ => ((.Named "cast", none), prog)

/-- A cast that fails. -/
def TypeCast.failing : TypeCast := fun prog _ _ => ((.Nil, some "invalid cast"), prog)

/-- A cast that fails on the nil value and succeeds on every other value. -/
def TypeCast.refusingNil : TypeCast := fun prog x _ =>
  match x with
  | .Nil => ((.Nil, some "invalid cast"), prog)
  | _ => ((.Named "cast", none), prog)

/-- A program with the entry block of a function as current block and the
root scope as active scope. -/
def exampleProgram : Program :=
  { Blocks := [{ Name := "entry", Insts := [], Term := none }],
    blockStack := [0],
    Scopes := [{ Parent := none, Tag := "root", Vars := [] }],
    Scope := 0 }

/-- The loop with index 5 whose sub-nodes all lower without error. -/
def exampleLoop : ForNode :=
  { Token := "for", Index := 5,
    Init := Lowering.value .Nil, Cond := Lowering.value (.Named "i < n"),
    Step := Lowering.value .Nil, Body := Lowering.block }

/-- The value of an upper-case hexadecimal digit (0 for any other
character). -/
def upperHexValue (c : Char) : Nat :=
  if '0' ≤ c ∧ c ≤ '9' then c.toNat - 48
  else if 'A' ≤ c ∧ c ≤ 'F' then c.toNat - 55
  else 0

/-- The number that a run of hexadecimal digits, most significant first,
stands for. -/
def decodeUpperHex (ds : List Char) : Nat :=
  ds.foldl (fun acc c => 16 * acc + upperHexValue c) 0

/-- The name that `Codegen` gives the block `suffix` of the loop with index
`i`. -/
def loopBlockName (i : Int) (suffix : String) : String :=
  "F" ++ formatUpperHex i ++ "_" ++ suffix

/-! ## `pkg/ast/AST.go` -/

namespace act

/-- Modelled from the spec: the token identifiers that `parser.GetTokenId`
gives for the names used in `AST.go`; `NONE` is the identifier 0 of the
zero-value token. -/
inductive TokenId where
  | NONE
  | WHITESPACE
  | COMMENT
  | ACT_DEFN
  | LEFT_PAREN
  | RIGHT_PAREN
  | TYPE
  | IDENTIFIER
  | COMMA
  | ACTARROW
  | LEFT_CURLY
  | RIGHT_CURLY
  | OTHER (id : Nat)
  deriving DecidableEq, Repr

/-- Modelled from the spec: a token of the package `act/pkg/parser`, with its
identifier (the field `Type`) and its text. -/
structure Token where
  Kind : TokenId
  Value : String
  deriving DecidableEq, Repr

/-- The zero-value token, which a receive on the closed channel gives. -/
def Token.zero : Token := { Kind := .NONE, Value := "" }

/-- The struct `Parser` of `AST.go`, as far as parsing a function definition
reads and writes it: the tokens still to come on the channel `tokens`, which
the lexer closes after the last one, and the current token. -/
structure Parser where
  tokens : List Token
  token : Token
  deriving DecidableEq, Repr

/-- The struct `variableNode`. -/
structure variableNode where
  typ : String
  name : String
  deriving DecidableEq, Repr

/-- The struct `blockNode`. -/
structure blockNode where
  deriving DecidableEq, Repr

/-- The struct `functionNode`. -/
structure functionNode where
  name : String
  args : List variableNode
  body : blockNode
  deriving DecidableEq, Repr

/-- The receives of `next`: the first token to come that is neither white
space nor a comment, and the tokens after it. -/
def receive : List Token → Token × List Token
  | [] => (Token.zero, [])
  | t :: rest =>
    if t.Kind == .WHITESPACE || t.Kind == .COMMENT then receive rest else (t, rest)

/-- The method `Parser.next`. -/
def Parser.next (p : Parser) : Parser :=
  { tokens := (receive p.tokens).2, token := (receive p.tokens).1 }

/-- The loop of `parseBlockStmt`. -/
def blockLoop : Nat → Parser → Outcome Parser
  | 0, _ => .outOfFuel
  | fuel + 1, p =>
    let p1 := p.next
    if p1.token.Kind == .RIGHT_CURLY then .ok p1 else blockLoop fuel p1

/-- The method `Parser.parseBlockStmt`, with the parser state it leaves. -/
def Parser.parseBlockStmt (p : Parser) : Outcome (blockNode × Parser) :=
  match blockLoop (p.tokens.length + 1) p with
  | .ok p1 => .ok ({}, p1.next)
  | .fatal f a => .fatal f a
  | .outOfFuel => .outOfFuel

/-- The function `Error`: it prints the message after `Token Error: ` and ends
the process. -/
def Error {α : Type} (format : String) (args : List String) : Outcome α :=
  .fatal ("Token Error: " ++ format) args

/-- The loop of `parseFnDefn` over the parameter list. -/
def paramLoop : Nat → Parser → functionNode → Outcome (Parser × functionNode)
  | 0, _, _ => .outOfFuel
  | fuel + 1, p, fn =>
    let p1 := p.next
    let entry : Outcome (Parser × functionNode) :=
      if p1.token.Kind == .TYPE then
        let p2 := p1.next
        if p2.token.Kind == .IDENTIFIER then
          .ok (p2, { fn with args := fn.args ++ [{ typ := p1.token.Value, name := p2.token.Value }] })
        else Error "Syntax error, invalid parameters to function %s\n" [fn.name]
      else .ok (p1, fn)
    match entry with
    | .ok (p3, fn3) =>
      let p4 := p3.next
      if p4.token.Kind != .COMMA || p4.token.Kind == .RIGHT_PAREN then .ok (p4, fn3)
      else paramLoop fuel p4 fn3
    | .fatal f a => .fatal f a
    | .outOfFuel => .outOfFuel

/-- The method `Parser.parseFnDefn`, with the parser state it leaves. -/
def Parser.parseFnDefn (p : Parser) : Outcome (functionNode × Parser) :=
  let p1 := p.next
  let fn : functionNode := { name := p1.token.Value, args := [], body := {} }
  let p2 := p1.next
  let params : Outcome (Parser × functionNode) :=
    if p2.token.Kind == .LEFT_PAREN then
      match paramLoop (p2.tokens.length + 1) p2 fn with
      | .ok (p3, fn3) => .ok (p3.next, fn3)
      | .fatal f a => .fatal f a
      | .outOfFuel => .outOfFuel
    else .ok (p2, fn)
  match params with
  | .fatal f a => .fatal f a
  | .outOfFuel => .outOfFuel
  | .ok (p4, fn4) =>
    if p4.token.Kind != .ACTARROW then
      Error "Syntax Error, function %s missing \x27->\x27\n" [fn4.name]
    else
      let p5 := p4.next
      if p5.token.Kind == .LEFT_CURLY then
        match p5.parseBlockStmt with
        | .ok (body, p6) => .ok ({ fn4 with body := body }, p6)
        | .fatal f a => .fatal f a
        | .outOfFuel => .outOfFuel
      else .ok (fn4, p5)

/-- The tokens of `func f ( x ) -> { }`: the one entry of the parameter list
is an identifier without a type. -/
def untypedParameter : List Token :=
  [⟨.IDENTIFIER, "f"⟩, ⟨.WHITESPACE, " "⟩, ⟨.LEFT_PAREN, "("⟩, ⟨.IDENTIFIER, "x"⟩,
   ⟨.RIGHT_PAREN, ")"⟩, ⟨.WHITESPACE, " "⟩, ⟨.ACTARROW, "->"⟩, ⟨.WHITESPACE, " "⟩,
   ⟨.LEFT_CURLY, "\x7b"⟩, ⟨.RIGHT_CURLY, "\x7d"⟩]

/-- The tokens of `func f ( int 5 ) -> { }`: a type that no identifier
follows. -/
def typeWithoutName : List Token :=
  [⟨.IDENTIFIER, "f"⟩, ⟨.LEFT_PAREN, "("⟩, ⟨.TYPE, "int"⟩, ⟨.OTHER 0, "5"⟩,
   ⟨.RIGHT_PAREN, ")"⟩, ⟨.ACTARROW, "->"⟩, ⟨.LEFT_CURLY, "\x7b"⟩, ⟨.RIGHT_CURLY, "\x7d"⟩]

end act

/-! ## Statement vocabulary for the lowering of a loop -/

/-- The names of the blocks of the function, in the order of their
creation. -/
def Program.names (s : Program) : List String := s.Blocks.map (fun b => b.Name)

/-- The terminator of the block at `i`, if the block is there and has one. -/
def Program.termAt (s : Program) (i : Nat) : Option ir.Terminator :=
  (s.Blocks[i]?).bind (fun b => b.Term)

/-- The name of the block at `i`, if the block is there. -/
def Program.nameAt (s : Program) (i : Nat) : Option String :=
  (s.Blocks[i]?).map (fun b => b.Name)

/-- From `s` to `s2` the blocks are kept: the blocks of `s` are still there
under their names, in front of the blocks added since, and a block that had a
terminator has one. -/
def Program.BlocksKept (s s2 : Program) : Prop :=
  s.names <+: s2.names ∧ ∀ i, (s.termAt i).isSome = true → (s2.termAt i).isSome = true

/-- From `s` to `s2` the scopes are kept: the active scope is the same, and
the frames of `s` are still there, each on the frame it was on. -/
def Program.ScopesKept (s s2 : Program) : Prop :=
  s2.Scope = s.Scope ∧
  ∀ (i : Nat) (f : ScopeFrame), s.Scopes[i]? = some f →
    ∃ f2 : ScopeFrame, s2.Scopes[i]? = some f2 ∧ f2.Parent = f.Parent

/-- A lowering that keeps the blocks and is balanced on the scope stack. -/
def Lowering.Keeps (l : Lowering) : Prop :=
  ∀ s, Program.BlocksKept s (l s).2 ∧ Program.ScopesKept s (l s).2

/-- A cast that keeps the blocks and the scopes. -/
def TypeCast.Keeps (c : TypeCast) : Prop :=
  ∀ s v t, Program.BlocksKept s (c s v t).2 ∧ Program.ScopesKept s (c s v t).2

/-- A lowering that adds no block to the function. -/
def Lowering.AddsNoBlock (l : Lowering) : Prop :=
  ∀ s, (l s).2.Blocks.length = s.Blocks.length

/-- A cast that adds no block to the function. -/
def TypeCast.AddsNoBlock (c : TypeCast) : Prop :=
  ∀ s v t, (c s v t).2.Blocks.length = s.Blocks.length

/-- The program that lowering the example loop leaves. -/
def exampleLowered : Program :=
  { Blocks :=
      [{ Name := "entry", Insts := [], Term := some (.Br 1) },
       { Name := "F5_cond", Insts := [], Term := some (.CondBr (.Named "cast") 2 4) },
       { Name := "F5_body", Insts := [], Term := some (.Br 3) },
       { Name := "F5_step", Insts := [], Term := some (.Br 1) },
       { Name := "F5_end", Insts := [], Term := none }],
    blockStack := [4, 0],
    Scopes := [{ Parent := none, Tag := "root", Vars := [] },
               { Parent := some 0, Tag := "for", Vars := [] }],
    Scope := 0 }

/-- The program that the example loop leaves when its lowering stops at an
error of the cast or of the body: the frame of the loop is the active
scope. -/
def exampleAborted (blocks : List ir.Block) : Program :=
  { Blocks := blocks,
    blockStack := [0],
    Scopes := [{ Parent := none, Tag := "root", Vars := [] },
               { Parent := some 0, Tag := "for", Vars := [] }],
    Scope := 1 }

/-- The program in which `Codegen` lowers the condition of the loop: the scope
of the loop entered, the cond block made, the initialisation lowered, the
branch from the parent block to the cond block written, and the cond block
made current by `genInBlock`. -/
def ForNode.condState (n : ForNode) (prog : Program) (parentBlock : Nat) : Program :=
  let prog1 := prog.ScopeDown n.Token
  let r2 := prog1.NewBlock ( n.namePrefix ++ "cond")
  let prog3 := (n.Init r2.2).2
  let prog4 := prog3.NewBr parentBlock r2.1
  prog4.PushBlock r2.1

/-- The program that `Codegen` has once the cond block is generated. -/
def ForNode.afterCond (cast : TypeCast) (n : ForNode) (prog : Program)
    (parentBlock : Nat) : Program :=
  let prog1 := prog.ScopeDown n.Token
  let r2 := prog1.NewBlock ( n.namePrefix ++ "cond")
  let prog3 := (n.Init r2.2).2
  let prog4 := prog3.NewBr parentBlock r2.1
  (prog4.genInBlock r2.1 (n.condClosure cast)).2

/-- The program in which `Codegen` lowers the body of the loop: after the
cond block is generated, the body block and the step block made, and the body
block made current by `genInBlock`. -/
def ForNode.bodyState (cast : TypeCast) (n : ForNode) (prog : Program)
    (parentBlock : Nat) : Program :=
  let r6 := (n.afterCond cast prog parentBlock).NewBlock ( n.namePrefix ++ "body")
  let r7 := r6.2.NewBlock ( n.namePrefix ++ "step")
  r7.2.PushBlock r6.1

/-- The program that `Codegen` has once the body block is generated. -/
def ForNode.afterBody (cast : TypeCast) (n : ForNode) (prog : Program)
    (parentBlock : Nat) : Program :=
  let r6 := (n.afterCond cast prog parentBlock).NewBlock ( n.namePrefix ++ "body")
  let r7 := r6.2.NewBlock ( n.namePrefix ++ "step")
  (r7.2.genInBlock r6.1 (n.bodyClosure r6.1 r7.1)).2

/-- The program in which `Codegen` lowers the step of the loop: after the
body block is generated, with the step block made current by `genInBlock`. -/
def ForNode.stepState (cast : TypeCast) (n : ForNode) (prog : Program)
    (parentBlock : Nat) : Program :=
  let r6 := (n.afterCond cast prog parentBlock).NewBlock ( n.namePrefix ++ "body")
  let r7 := r6.2.NewBlock ( n.namePrefix ++ "step")
  (n.afterBody cast prog parentBlock).PushBlock r7.1

/-- The calls whose failure `Codegen` reports succeed in the run from `prog`:
the cast of the lowered condition to `i1` returns no error, the body lowers
without error to a block, and the step lowers without error.  (The errors of
the initialisation and of the condition itself are not looked at by
`Codegen`.) -/
def ForNode.Succeeds (cast : TypeCast) (n : ForNode) (prog : Program)
    (parentBlock : Nat) : Prop :=
  (cast (n.Cond (n.condState prog parentBlock)).2
      (n.Cond (n.condState prog parentBlock)).1.1 types.I1).1.2 = none ∧
  (∃ g : Nat, (n.Body (n.bodyState cast prog parentBlock)).1 = (.BlockRef g, none)) ∧
  (n.Step (n.stepState cast prog parentBlock)).1.2 = none

/-- What a lowering of the loop `n` that returns without error leaves, from
the program `prog` to the program `final` with the value `v`: the four blocks
of the loop, made in this order after the blocks of `prog`, under their names;
their terminators; the current block and the active scope. -/
structure ForNode.Lowers (cast : TypeCast) (n : ForNode) (prog final : Program) (v : ir.Value)
    (condBlk bodyBlk stepBlk endBlk : Nat) (predicate : ir.Value) : Prop where
  value : v = .BlockRef endBlk
  condNew : prog.Blocks.length ≤ condBlk
  condBody : condBlk < bodyBlk
  bodyStep : bodyBlk < stepBlk
  stepEnd : stepBlk < endBlk
  endThere : endBlk < final.Blocks.length
  nameCond : final.nameAt condBlk = some ( n.namePrefix ++ "cond")
  nameBody : final.nameAt bodyBlk = some ( n.namePrefix ++ "body")
  nameStep : final.nameAt stepBlk = some ( n.namePrefix ++ "step")
  nameEnd : final.nameAt endBlk = some ( n.namePrefix ++ "end")
  termCond : final.termAt condBlk = some (.CondBr predicate bodyBlk endBlk)
  termBody : (final.termAt bodyBlk).isSome = true
  termStep : (final.termAt stepBlk).isSome = true
  termEnd : final.termAt endBlk = none
  current : final.CurrentBlock = some endBlk
  scope : final.Scope = prog.Scope
  kept : Program.BlocksKept prog final
  castResult : ∀ parentBlock : Nat, prog.CurrentBlock = some parentBlock →
    (n.condState prog parentBlock).CurrentBlock = some condBlk ∧
    (cast (n.Cond (n.condState prog parentBlock)).2
        (n.Cond (n.condState prog parentBlock)).1.1 types.I1).1 = (predicate, none)
  onlyFour : n.Init.AddsNoBlock → n.Cond.AddsNoBlock → cast.AddsNoBlock →
    n.Body.AddsNoBlock → n.Step.AddsNoBlock →
    final.Blocks.length = prog.Blocks.length + 4 ∧ condBlk = prog.Blocks.length ∧
    bodyBlk = prog.Blocks.length + 1 ∧ stepBlk = prog.Blocks.length + 2 ∧
    endBlk = prog.Blocks.length + 3

/-! # Theorems -/

/-! ## Joining with commas -/

theorem commaJoin_eq_intercalate (xs : List GoString) :
    commaJoin xs = (str ", ").intercalate xs := by
  have tail : ∀ ys : List GoString,
      commaTail ys = (ys.map (fun y => str ", " ++ y)).flatten := by
    intro ys
    induction ys with
    | nil => rfl
    | cons y ys ih => simp [commaTail, ih]
  cases xs with
  | nil => rfl
  | cons x xs =>
    rw [commaJoin, tail]
    clear tail
    induction xs generalizing x with
    | nil => simp [List.intercalate]
    | cons y ys ih =>
      have h := ih y
      simp only [List.intercalate, List.intersperse, List.map, List.flatten_cons] at h ⊢
      rw [← h, List.append_assoc]

/-! ## The loop of `Metadata.Def` -/

theorem Node.defLoop_written (node : Node) (buf1 : GoString) :
    WriteString
      (if !types.EqualMetadata node.Type then
        WriteString buf1 (types.Typ.String node.Type ++ str " ")
       else buf1) (Node.Ident node) = buf1 ++ childRendering node := by
  unfold childRendering WriteString
  cases h : types.EqualMetadata node.Type <;> simp

theorem Node.defLoop_succ (nodes : List Node) (buf : GoString) (i : Nat) :
    Node.defLoop buf (i + 1) nodes = buf ++ commaTail (nodes.map childRendering) := by
  induction nodes generalizing buf i with
  | nil => simp [Node.defLoop, commaTail]
  | cons node rest ih =>
    rw [Node.defLoop]
    rw [Node.defLoop_written, ih]
    simp [WriteString, commaTail]

theorem Node.defLoop_zero (nodes : List Node) (buf : GoString) :
    Node.defLoop buf 0 nodes = buf ++ commaJoin (nodes.map childRendering) := by
  cases nodes with
  | nil => simp [Node.defLoop, commaJoin]
  | cons node rest =>
    rw [Node.defLoop]
    rw [Node.defLoop_written, Node.defLoop_succ]
    simp [commaJoin]

theorem Metadata.def_eq (md : Metadata) :
    md.Def = str "!\x7b" ++ commaJoin (md.Nodes.map childRendering) ++ str "\x7d" := by
  simp [Metadata.Def, Node.defLoop_zero, WriteString]

theorem Metadata.toNode_ident (md : Metadata) : md.toNode.Ident = md.Ident := by
  simp [Metadata.toNode, Node.Ident, Metadata.Ident, Metadata.Def]

/-! ## The loop of `Named.Def` -/

theorem Named.namedLoop_succ (ms : MetadataSlice) (buf : GoString) (i : Nat) :
    Named.defLoop buf (i + 1) ms = buf ++ commaTail (ms.map Metadata.Ident) := by
  induction ms generalizing buf i with
  | nil => simp [Named.defLoop, commaTail]
  | cons m rest ih =>
    rw [Named.defLoop, ih]
    simp [WriteString, commaTail]

theorem Named.named_def_eq (nm : Named) :
    nm.Def = str "!\x7b" ++ commaJoin (nm.Metadata.map Metadata.Ident) ++ str "\x7d" := by
  unfold Named.Def
  cases nm.Metadata with
  | nil => simp [Named.defLoop, commaJoin, WriteString]
  | cons m rest =>
    rw [Named.defLoop, Named.namedLoop_succ]
    simp [WriteString, commaJoin]

theorem map_ident_of_identified (ms : MetadataSlice) (h : ∀ m ∈ ms, m.ID ≠ []) :
    ms.map Metadata.Ident = (ms.map (fun m => m.ID)).map (fun id => str "!" ++ id) := by
  induction ms with
  | nil => rfl
  | cons m rest ih =>
    have hm : m.ID ≠ [] := h m (List.mem_cons_self _ _)
    have hlen : m.ID.length > 0 := List.length_pos.mpr hm
    have hrest := ih (fun x hx => h x (List.mem_cons_of_mem _ hx))
    simp only [List.map_cons, hrest]
    simp [Metadata.Ident, hlen, enc.Metadata]

/-! ## Escaping -/

theorem enc.unhex_hexDigit (d : Fin 16) : enc.unhex (enc.hexDigit d.val) = some d.val := by
  revert d
  decide

theorem enc.hexDigit_plain (d : Fin 16) :
    enc.hexDigit d.val ≠ 34 ∧ enc.hexDigit d.val ≠ 92 := by
  revert d
  decide

theorem enc.unescape_plain (b : Fin 256) (tl : GoString) (hb : b ≠ 92) :
    enc.Unescape (b :: tl) = b :: enc.Unescape tl := by
  match tl with
  | [] => simp [enc.Unescape]
  | [_] => simp [enc.Unescape]
  | _ :: _ :: _ => simp [enc.Unescape, hb]

theorem enc.unescape_escaped (b : Fin 256) (rest : GoString) :
    enc.Unescape (92 :: enc.hexDigit (b.val / 16) :: enc.hexDigit (b.val % 16) :: rest)
      = b :: enc.Unescape rest := by
  have hhi : b.val / 16 < 16 := by omega
  have hlo : b.val % 16 < 16 := by omega
  have h1 := enc.unhex_hexDigit ⟨b.val / 16, hhi⟩
  have h2 := enc.unhex_hexDigit ⟨b.val % 16, hlo⟩
  simp only [] at h1 h2
  rw [enc.Unescape]
  simp only [h1, h2, if_true]
  congr 1
  apply Fin.ext
  simp only [Fin.ofNat, Fin.val_mk]
  omega

theorem enc.valid_ne_backslash (b : Fin 256) (h : enc.validStringByte b = true) :
    b ≠ 34 ∧ b ≠ 92 := by
  simp [enc.validStringByte] at h
  exact ⟨h.1.2, h.2⟩

theorem enc.unescape_escapeString (s : GoString) : enc.Unescape (enc.EscapeString s) = s := by
  induction s with
  | nil => rfl
  | cons b rest ih =>
    rw [enc.EscapeString]
    split
    · next h => rw [enc.unescape_plain _ _ (enc.valid_ne_backslash b h).2, ih]
    · rw [enc.unescape_escaped, ih]

theorem enc.quote_not_mem_escapeString (s : GoString) : (34 : Fin 256) ∉ enc.EscapeString s := by
  induction s with
  | nil => simp [enc.EscapeString]
  | cons b rest ih =>
    have hhi : b.val / 16 < 16 := by omega
    have hlo : b.val % 16 < 16 := by omega
    have h1 := (enc.hexDigit_plain ⟨b.val / 16, hhi⟩).1
    have h2 := (enc.hexDigit_plain ⟨b.val % 16, hlo⟩).1
    simp only [] at h1 h2
    rw [enc.EscapeString]
    split
    · next h =>
      have hb := (enc.valid_ne_backslash b h).1
      simp only [List.mem_cons, not_or]
      exact ⟨fun e => hb e.symm, ih⟩
    · simp only [List.mem_cons, not_or]
      exact ⟨by decide, fun e => h1 e.symm, fun e => h2 e.symm, ih⟩

/-! ## Containers and named collections -/

/-- C1: a container with an identifier has the short reference as identity:
`!` followed by the identifier, whatever its child nodes are; a container
without identifier has its full definition as identity.  The container with
identifier `3` and one string child `hi` has identity `!3` and definition
`!{!"hi"}`. -/
theorem Metadata.ident_reference_or_def (md : Metadata) :
    (md.ID ≠ [] →
      md.Ident = enc.Metadata md.ID ∧ md.Ident = str "!" ++ md.ID ∧
      ∀ nodes : List Node, Metadata.Ident { md with Nodes := nodes } = md.Ident) ∧
    (md.ID = [] → md.Ident = md.Def) ∧
    scenarioContainer.Ident = str "!3" ∧
    scenarioContainer.Def = str "!\x7b!\"hi\"\x7d" := by
  refine ⟨fun h => ?_, fun h => ?_, by decide, by decide⟩
  · have hlen : md.ID.length > 0 := List.length_pos.mpr h
    simp [Metadata.Ident, hlen, enc.Metadata]
  · simp [Metadata.Ident, h]

/-- The two cases of C1 at the container `3` and at a container without
identifier. -/
theorem Metadata.ident_reference_or_def_witness :
    scenarioContainer.Ident = str "!" ++ scenarioContainer.ID ∧
    anonymousMember.Ident = anonymousMember.Def :=
  ⟨((Metadata.ident_reference_or_def scenarioContainer).1 (by decide)).2.1,
   (Metadata.ident_reference_or_def anonymousMember).2.1 rfl⟩

/-- C2: the definition of a container is `!{`, the renderings of its children
in insertion order joined by a comma and a blank, and `}`; a child of metadata
type is rendered as its identity, any other child as its type name, a blank
and its identity.  Without children the definition is `!{}`. -/
theorem Metadata.def_comma_joined (md : Metadata) :
    md.Def = str "!\x7b" ++ commaJoin (md.Nodes.map childRendering) ++ str "\x7d" ∧
    md.Def = str "!\x7b" ++ (str ", ").intercalate (md.Nodes.map childRendering) ++ str "\x7d" ∧
    (∀ c : Node, childRendering c =
      if types.EqualMetadata c.Type then c.Ident
      else types.Typ.String c.Type ++ str " " ++ c.Ident) ∧
    (Metadata.mk md.ID []).Def = str "!\x7b\x7d" := by
  refine ⟨Metadata.def_eq md, ?_, fun _ => rfl, rfl⟩
  rw [← commaJoin_eq_intercalate]
  exact Metadata.def_eq md

/-- C3, refuted as stated: the named collection `dbg` whose one member has no
identifier renders that member as its full definition `!{!"hi"}`, not as a
short reference. -/
theorem Named.def_inlines_anonymous_member :
    anonymousMember ∈ namedWithAnonymous.Metadata ∧
    anonymousMember.ID = [] ∧
    anonymousMember.Def = str "!\x7b!\"hi\"\x7d" ∧
    namedWithAnonymous.Def = str "!\x7b!\x7b!\"hi\"\x7d\x7d" ∧
    namedWithAnonymous.Def = str "!\x7b" ++ anonymousMember.Def ++ str "\x7d" ∧
    occursIn anonymousMember.Def namedWithAnonymous.Def = true ∧
    namedWithAnonymous.Def ≠ str "!\x7b" ++ enc.Metadata anonymousMember.ID ++ str "\x7d" := by
  refine ⟨?_, rfl, by decide, by decide, by decide, by decide, by decide⟩
  simp [namedWithAnonymous]

/-- C3, amended: the definition of a named collection is `!{`, the renderings
of its members in order joined by a comma and a blank, and `}`; a member with
an identifier is rendered as its short reference, a member without identifier
as its full literal definition. -/
theorem Named.def_member_renderings (nm : Named) :
    nm.Def = str "!\x7b" ++ commaJoin (nm.Metadata.map memberRendering) ++ str "\x7d" := by
  have h : (fun m => Metadata.Ident m) = memberRendering := by
    funext m
    rfl
  rw [Named.named_def_eq, ← h]

/-- C4: a named collection `N` whose members all have identifiers has identity
`!N` and definition `!{!id1, ..., !idk}` in member order; the definition
depends on the members only through their identifiers. -/
theorem Named.def_of_identified (nm : Named) (h : ∀ m ∈ nm.Metadata, m.ID ≠ []) :
    nm.Ident = str "!" ++ nm.Name ∧
    nm.Def = str "!\x7b" ++
      commaJoin ((nm.Metadata.map (fun m => m.ID)).map (fun id => str "!" ++ id)) ++ str "\x7d" ∧
    ∀ other : Named, (∀ m ∈ other.Metadata, m.ID ≠ []) →
      other.Metadata.map (fun m => m.ID) = nm.Metadata.map (fun m => m.ID) →
      other.Def = nm.Def := by
  refine ⟨rfl, ?_, fun other ho hids => ?_⟩
  · rw [Named.named_def_eq, map_ident_of_identified _ h]
  · rw [Named.named_def_eq, Named.named_def_eq, map_ident_of_identified _ h,
      map_ident_of_identified _ ho, hids]

/-- C4 at the named collection `dbg` with members `1` and `2`: identity `!dbg`
and definition `!{!1, !2}`. -/
theorem Named.def_of_identified_witness :
    (∀ m ∈ scenarioNamed.Metadata, m.ID ≠ []) ∧
    scenarioNamed.Ident = str "!dbg" ∧
    scenarioNamed.Def = str "!\x7b!1, !2\x7d" :=
  have h : ∀ m ∈ scenarioNamed.Metadata, m.ID ≠ [] := by decide
  ⟨h, (Named.def_of_identified scenarioNamed h).1.trans (by decide),
   (Named.def_of_identified scenarioNamed h).2.1.trans (by decide)⟩

/-- C5: the identity of a metadata string is `!` followed by the escaped value
between double quotes; the escaped value holds no double quote, unescaping it
gives back the value, and two different values never have the same identity. -/
theorem Node.string_ident_roundtrip (s : GoString) :
    Node.Ident (.String s) = str "!" ++ (str "\"" ++ enc.EscapeString s ++ str "\"") ∧
    (34 : Fin 256) ∉ enc.EscapeString s ∧
    enc.Unescape (enc.EscapeString s) = s ∧
    ∀ s2 : GoString, Node.Ident (.String s2) = Node.Ident (.String s) → s2 = s := by
  have hsplit : str "!\"" = str "!" ++ str "\"" := by decide
  refine ⟨by simp [Node.Ident, hsplit], enc.quote_not_mem_escapeString s,
    enc.unescape_escapeString s, fun s2 h => ?_⟩
  simp only [Node.Ident, List.append_assoc, List.append_cancel_left_eq,
    List.append_cancel_right_eq] at h
  have h2 := congrArg enc.Unescape h
  rwa [enc.unescape_escapeString, enc.unescape_escapeString] at h2

/-- C5 at a value with a double quote and a backslash. -/
theorem Node.string_ident_roundtrip_witness :
    Node.Ident (.String (str "a\"b\\")) = str "!\"a\\22b\\5C\"" ∧
    enc.Unescape (enc.EscapeString (str "a\"b\\")) = str "a\"b\\" :=
  ⟨by decide, (Node.string_ident_roundtrip (str "a\"b\\")).2.2.1⟩

/-! ## The parser cursor -/

theorem Parser.cursor_next (ts : List lexer.Token) (i : Nat) :
    (Parser.cursor ts i).Next = Parser.cursor ts (i + 1) := rfl

theorem Parser.positioned_eq_cursor (pre : List lexer.Token) (tok : lexer.Token)
    (rest : List lexer.Token) :
    Parser.positioned pre tok rest = Parser.cursor (pre ++ tok :: rest) pre.length := by
  have h : (pre ++ tok :: rest)[pre.length]? = some tok := by
    rw [List.getElem?_append_right (Nat.le_refl _)]
    simp
  simp [Parser.positioned, Parser.cursor, List.getD_eq_getElem?_getD, h]

theorem Parser.next_eq_cursor (p : Parser) :
    p.Next = Parser.cursor p.tokens (p.tokenIndex + 1) := rfl

theorem Parser.cursor_token_of_drop (ts : List lexer.Token) (i : Nat) (m : lexer.Token)
    (tail : List lexer.Token) (h : ts.drop i = m :: tail) :
    (Parser.cursor ts i).token = m ∧ ts.drop (i + 1) = tail := by
  constructor
  · have : ts[i]? = some m := by
      rw [← List.head?_drop, h]; rfl
    simp [Parser.cursor, List.getD_eq_getElem?_getD, this]
  · rw [← List.drop_drop, h]
    rfl

theorem Parser.cursor_token_of_drop_nil (ts : List lexer.Token) (i : Nat)
    (h : ts.drop i = []) : (Parser.cursor ts i).token = lexer.Token.zero := by
  have : ts[i]? = none := by
    rw [← List.head?_drop, h]; rfl
  simp [Parser.cursor, List.getD_eq_getElem?_getD, this]

/-! ## One turn of the loop of `parseType` -/

theorem isPointerMarker_iff (tok : lexer.Token) :
    isPointerMarker tok = true ↔ tok.Kind = .TokOper ∧ tok.Value = "*" := by
  simp [isPointerMarker, lexer.Token.Is]

theorem isInferenceMarker_iff (tok : lexer.Token) :
    isInferenceMarker tok = true ↔ tok.Kind = .TokQuestionMark := by
  simp [isInferenceMarker, lexer.Token.Is]

theorem validTypeInfoTokens_iff (tok : lexer.Token) :
    validTypeInfoTokens tok = true ↔ tok.Value = "*" ∨ tok.Value = "?" := by
  unfold validTypeInfoTokens typeOperators
  simp only [List.any_cons, List.any_nil, Bool.or_false, Bool.or_eq_true, beq_iff_eq]
  constructor
  · rintro (h | h)
    · exact Or.inl h.symm
    · exact Or.inr h.symm
  · rintro (h | h)
    · exact Or.inl h.symm
    · exact Or.inr h.symm

theorem not_inference_of_pointer (tok : lexer.Token) (h : isPointerMarker tok = true) :
    isInferenceMarker tok = false := by
  rw [isPointerMarker_iff] at h
  simp [isInferenceMarker, lexer.Token.Is, h.1]

theorem parseTypeLoop_inference (fuel : Nat) (t : TypeNode) (p : Parser)
    (h : isInferenceMarker p.token = true) :
    parseTypeLoop (fuel + 1) t p =
      if t.Unknown then .fatal "Multiple Unknown Type operators for %q used.\n" [t.Name]
      else parseTypeLoop fuel
        { t with Unknown := true, Modifiers := t.Modifiers ++ [.ModifierUnknown] } p.Next := by
  simp only [isInferenceMarker] at h
  rw [parseTypeLoop]
  simp [h]

theorem parseTypeLoop_pointer (fuel : Nat) (t : TypeNode) (p : Parser)
    (h : isPointerMarker p.token = true) :
    parseTypeLoop (fuel + 1) t p =
      parseTypeLoop fuel
        { t with PointerLevel := t.PointerLevel + 1,
                 Modifiers := t.Modifiers ++ [.ModifierPointer] } p.Next := by
  have hq := not_inference_of_pointer _ h
  have hv : validTypeInfoTokens p.token = true := by
    rw [validTypeInfoTokens_iff]; exact Or.inl ((isPointerMarker_iff _).mp h).2
  have hk : p.token.Is .TokOper = true := by
    simp [lexer.Token.Is, ((isPointerMarker_iff _).mp h).1]
  have hval : p.token.Value.data = ['*'] := by
    rw [((isPointerMarker_iff _).mp h).2]
  simp only [isInferenceMarker] at hq
  rw [parseTypeLoop]
  simp [hq, hv, hk, hval, pointerRunes]

theorem parseTypeLoop_stop (fuel : Nat) (t : TypeNode) (p : Parser)
    (h : isModifierToken p.token = false) :
    parseTypeLoop (fuel + 1) t p = .ok (t, p) := by
  simp only [isModifierToken, Bool.or_eq_false_iff] at h
  rw [parseTypeLoop]
  simp [h.1, h.2]

/-! ## A run of markers -/

theorem parseTypeLoop_markers (ms : List lexer.Token) :
    ∀ (ts : List lexer.Token) (i : Nat) (t : TypeNode) (fuel : Nat) (rest : List lexer.Token),
      ts.drop i = ms ++ rest →
      (∀ m ∈ ms, isPointerMarker m = true ∨ isInferenceMarker m = true) →
      ms.length ≤ fuel →
      parseTypeLoop fuel t (Parser.cursor ts i) =
        match applyMarkers t ms with
        | none => .fatal "Multiple Unknown Type operators for %q used.\n" [t.Name]
        | some t2 => parseTypeLoop (fuel - ms.length) t2 (Parser.cursor ts (i + ms.length)) := by
  induction ms with
  | nil =>
    intro ts i t fuel rest _ _ _
    simp [applyMarkers]
  | cons m ms ih =>
    intro ts i t fuel rest hdrop hms hfuel
    obtain ⟨f, rfl⟩ : ∃ f, fuel = f + 1 := ⟨fuel - 1, by simp at hfuel; omega⟩
    have hf : ms.length ≤ f := by simp at hfuel; omega
    obtain ⟨htok, hdrop2⟩ := Parser.cursor_token_of_drop ts i m (ms ++ rest) hdrop
    have hms2 : ∀ x ∈ ms, isPointerMarker x = true ∨ isInferenceMarker x = true :=
      fun x hx => hms x (List.mem_cons_of_mem _ hx)
    have harith : f + 1 - (ms.length + 1) = f - ms.length := by omega
    have hidx : i + (ms.length + 1) = i + 1 + ms.length := by omega
    rcases hms m (List.mem_cons_self _ _) with hp | hq
    · have hq := not_inference_of_pointer m hp
      rw [parseTypeLoop_pointer _ _ _ (by rw [htok]; exact hp), Parser.cursor_next,
        ih ts (i + 1) _ f rest hdrop2 hms2 hf]
      simp only [applyMarkers, hq, List.length_cons, harith, hidx]
      rfl
    · rw [parseTypeLoop_inference _ _ _ (by rw [htok]; exact hq)]
      cases hu : t.Unknown
      · rw [Parser.cursor_next, ih ts (i + 1) _ f rest hdrop2 hms2 hf]
        simp only [applyMarkers, hq, hu, List.length_cons, harith, hidx]
        rfl
      · simp [applyMarkers, hq, hu]

theorem applyMarkers_at_most_one (ms : List lexer.Token) :
    ∀ t : TypeNode,
      (∀ m ∈ ms, isPointerMarker m = true ∨ isInferenceMarker m = true) →
      ms.countP isInferenceMarker + (if t.Unknown then 1 else 0) ≤ 1 →
      applyMarkers t ms = some
        { Name := t.Name,
          Modifiers := t.Modifiers ++ modifierTags ms,
          PointerLevel := t.PointerLevel + ms.countP isPointerMarker,
          Unknown := t.Unknown || ms.any isInferenceMarker } := by
  induction ms with
  | nil => intro t _ _; simp [applyMarkers, modifierTags]
  | cons m ms ih =>
    intro t hms hcount
    have hms2 : ∀ x ∈ ms, isPointerMarker x = true ∨ isInferenceMarker x = true :=
      fun x hx => hms x (List.mem_cons_of_mem _ hx)
    rcases hms m (List.mem_cons_self _ _) with hp | hq
    · have hq := not_inference_of_pointer m hp
      have hq2 : ¬ (isInferenceMarker m = true) := by simp [hq]
      rw [List.countP_cons_of_neg _ _ hq2] at hcount
      rw [applyMarkers]
      simp only [hq, Bool.false_eq_true, if_false]
      rw [ih _ hms2 (by simpa using hcount)]
      simp [modifierTags, hq, hp, List.countP_cons_of_pos, Nat.add_comm, Nat.add_left_comm]
    · have hp : isPointerMarker m = false := by
        cases h : isPointerMarker m
        · rfl
        · rw [not_inference_of_pointer m h] at hq; cases hq
      have hp2 : ¬ (isPointerMarker m = true) := by simp [hp]
      rw [List.countP_cons_of_pos _ _ hq] at hcount
      have hu : t.Unknown = false := by
        cases h : t.Unknown
        · rfl
        · rw [h] at hcount; simp at hcount
      have hzero : ms.countP isInferenceMarker = 0 := by omega
      rw [applyMarkers]
      simp only [hq, hu, if_true, Bool.false_eq_true, if_false]
      rw [ih _ hms2 (by simp [hzero])]
      simp [modifierTags, hq, List.countP_cons_of_neg _ _ hp2]

theorem applyMarkers_second_inference (ms : List lexer.Token) :
    ∀ t : TypeNode,
      (∀ m ∈ ms, isPointerMarker m = true ∨ isInferenceMarker m = true) →
      2 ≤ ms.countP isInferenceMarker + (if t.Unknown then 1 else 0) →
      applyMarkers t ms = none := by
  induction ms with
  | nil =>
    intro t _ h
    cases hu : t.Unknown <;> simp [hu] at h
  | cons m ms ih =>
    intro t hms hcount
    have hms2 : ∀ x ∈ ms, isPointerMarker x = true ∨ isInferenceMarker x = true :=
      fun x hx => hms x (List.mem_cons_of_mem _ hx)
    rcases hms m (List.mem_cons_self _ _) with hp | hq
    · have hq := not_inference_of_pointer m hp
      have hq2 : ¬ (isInferenceMarker m = true) := by simp [hq]
      rw [List.countP_cons_of_neg _ _ hq2] at hcount
      rw [applyMarkers]
      simp only [hq, Bool.false_eq_true, if_false]
      exact ih _ hms2 (by simpa using hcount)
    · rw [List.countP_cons_of_pos _ _ hq] at hcount
      rw [applyMarkers]
      cases hu : t.Unknown
      · simp only [hq, if_true, Bool.false_eq_true, if_false]
        apply ih _ hms2
        simp only [hu, Bool.false_eq_true, if_false] at hcount
        simp only [if_true]
        omega
      · simp [hq]

theorem Parser.parseType_eq_loop (pre : List lexer.Token) (name : lexer.Token)
    (rest : List lexer.Token) (hname : name.Is .TokType = true) :
    (Parser.positioned pre name rest).parseType =
      parseTypeLoop ((pre ++ name :: rest).length + 1)
        { Name := name.Value, Modifiers := [], PointerLevel := 0, Unknown := false }
        (Parser.cursor (pre ++ name :: rest) (pre.length + 1)) := by
  simp [Parser.parseType, Parser.requires, Parser.positioned, hname, Parser.parseName,
    Parser.next_eq_cursor, Parser.cursor]

theorem drop_after_name (pre : List lexer.Token) (name : lexer.Token)
    (rest : List lexer.Token) : (pre ++ name :: rest).drop (pre.length + 1) = rest := by
  rw [← List.drop_drop]
  simp

theorem parseTypeLoop_stop_at (ts : List lexer.Token) (j : Nat) (rest : List lexer.Token)
    (fuel : Nat) (t : TypeNode) (hdrop : ts.drop j = rest)
    (hstop : ∀ r, rest.head? = some r → isModifierToken r = false) :
    parseTypeLoop (fuel + 1) t (Parser.cursor ts j) = .ok (t, Parser.cursor ts j) := by
  apply parseTypeLoop_stop
  cases rest with
  | nil => rw [Parser.cursor_token_of_drop_nil ts j hdrop]; rfl
  | cons r tail =>
    rw [(Parser.cursor_token_of_drop ts j r tail hdrop).1]
    exact hstop r rfl

/-! ## `parseType` on a name followed by markers -/

theorem Parser.parseType_run (pre : List lexer.Token) (name : lexer.Token)
    (ms rest : List lexer.Token) (hname : name.Is .TokType = true)
    (hms : ∀ m ∈ ms, isPointerMarker m = true ∨ isInferenceMarker m = true) :
    ((∀ r, rest.head? = some r → isModifierToken r = false) →
      ms.countP isInferenceMarker ≤ 1 →
      (Parser.positioned pre name (ms ++ rest)).parseType =
        .ok ({ Name := name.Value,
               Modifiers := modifierTags ms,
               PointerLevel := ms.countP isPointerMarker,
               Unknown := ms.any isInferenceMarker },
             Parser.cursor (pre ++ name :: (ms ++ rest)) (pre.length + 1 + ms.length))) ∧
    (2 ≤ ms.countP isInferenceMarker →
      (Parser.positioned pre name (ms ++ rest)).parseType =
        .fatal "Multiple Unknown Type operators for %q used.\n" [name.Value]) := by
  have hloop := Parser.parseType_eq_loop pre name (ms ++ rest) hname
  have hrun := parseTypeLoop_markers ms (pre ++ name :: (ms ++ rest)) (pre.length + 1)
    { Name := name.Value, Modifiers := [], PointerLevel := 0, Unknown := false }
    ((pre ++ name :: (ms ++ rest)).length + 1) rest (drop_after_name pre name (ms ++ rest)) hms
    (by simp; omega)
  rw [hrun] at hloop
  constructor
  · intro hstop hcount
    have happly := applyMarkers_at_most_one ms
      { Name := name.Value, Modifiers := [], PointerLevel := 0, Unknown := false } hms
      (by simpa using hcount)
    rw [happly] at hloop
    rw [hloop]
    have hfuel : (pre ++ name :: (ms ++ rest)).length + 1 - ms.length
        = (pre.length + 1 + rest.length) + 1 := by
      simp; omega
    have hdrop : (pre ++ name :: (ms ++ rest)).drop (pre.length + 1 + ms.length) = rest := by
      rw [← List.drop_drop, drop_after_name]
      simp
    simp only [hfuel]
    rw [parseTypeLoop_stop_at _ _ rest _ _ hdrop hstop]
    simp
  · intro hcount
    have happly := applyMarkers_second_inference ms
      { Name := name.Value, Modifiers := [], PointerLevel := 0, Unknown := false } hms
      (by simpa using hcount)
    rw [happly] at hloop
    exact hloop

/-- C6: on a type name followed by pointer markers and inference markers, with
a token that is no modifier (or the end of the stream) after them, `parseType`
returns, when there is at most one inference marker, the annotation whose
`PointerLevel` is the number of pointer markers and whose `Unknown` says
whether an inference marker was there, and it leaves the parser right after
the markers; with two or more inference markers it ends in the fatal error
that reports the name. -/
theorem Parser.parseType_name_markers (pre : List lexer.Token) (name : lexer.Token)
    (ms rest : List lexer.Token) (hname : name.Is .TokType = true)
    (hms : ∀ m ∈ ms, isPointerMarker m = true ∨ isInferenceMarker m = true) :
    ((∀ r, rest.head? = some r → isModifierToken r = false) →
      ms.countP isInferenceMarker ≤ 1 →
      (Parser.positioned pre name (ms ++ rest)).parseType =
        .ok ({ Name := name.Value,
               Modifiers := modifierTags ms,
               PointerLevel := ms.countP isPointerMarker,
               Unknown := ms.any isInferenceMarker },
             Parser.cursor (pre ++ name :: (ms ++ rest)) (pre.length + 1 + ms.length))) ∧
    (2 ≤ ms.countP isInferenceMarker →
      (Parser.positioned pre name (ms ++ rest)).parseType =
        .fatal "Multiple Unknown Type operators for %q used.\n" [name.Value]) :=
  Parser.parseType_run pre name ms rest hname hms

/-- C6 at `int * ? * x` (two pointer markers around one inference marker) and
at `int ? * ? x` (a second inference marker). -/
theorem Parser.parseType_name_markers_witness :
    (Parser.positioned [] ⟨.TokType, "int"⟩
        [⟨.TokOper, "*"⟩, ⟨.TokQuestionMark, "?"⟩, ⟨.TokOper, "*"⟩, ⟨.TokIdent, "x"⟩]).parseType =
      .ok ({ Name := "int",
             Modifiers := [.ModifierPointer, .ModifierUnknown, .ModifierPointer],
             PointerLevel := 2, Unknown := true },
           Parser.cursor streamPointerInference 4) ∧
    (Parser.positioned [] ⟨.TokType, "int"⟩
        [⟨.TokQuestionMark, "?"⟩, ⟨.TokOper, "*"⟩, ⟨.TokQuestionMark, "?"⟩,
         ⟨.TokIdent, "x"⟩]).parseType =
      .fatal "Multiple Unknown Type operators for %q used.\n" ["int"] :=
  ⟨(Parser.parseType_name_markers [] ⟨.TokType, "int"⟩
      [⟨.TokOper, "*"⟩, ⟨.TokQuestionMark, "?"⟩, ⟨.TokOper, "*"⟩] [⟨.TokIdent, "x"⟩]
      (by decide) (by decide)).1 (by decide) (by decide),
   (Parser.parseType_name_markers [] ⟨.TokType, "int"⟩
      [⟨.TokQuestionMark, "?"⟩, ⟨.TokOper, "*"⟩, ⟨.TokQuestionMark, "?"⟩] [⟨.TokIdent, "x"⟩]
      (by decide) (by decide)).2 (by decide)⟩

/-! ## Operator tokens in modifier position -/

theorem modifierTags_append (a b : List lexer.Token) :
    modifierTags (a ++ b) = modifierTags a ++ modifierTags b := by
  induction a with
  | nil => rfl
  | cons x xs ih =>
    rw [List.cons_append, modifierTags, modifierTags, ih]
    split
    · rfl
    · split <;> rfl

theorem stars_not_valid (k : lexer.TokenType) (m : Nat) (hm : 2 ≤ m) :
    validTypeInfoTokens ⟨k, String.mk (List.replicate m '*')⟩ = false := by
  obtain ⟨n, rfl⟩ : ∃ n, m = n + 2 := ⟨m - 2, by omega⟩
  have h1 : String.mk (List.replicate (n + 2) '*') ≠ "*" := by
    intro h
    have := congrArg String.length h
    simp [String.length] at this
  have h2 : String.mk (List.replicate (n + 2) '*') ≠ "?" := by
    intro h
    have := congrArg String.length h
    simp [String.length] at this
  cases hv : validTypeInfoTokens ⟨k, String.mk (List.replicate (n + 2) '*')⟩
  · rfl
  · rcases (validTypeInfoTokens_iff _).mp hv with h | h
    · exact absurd h h1
    · exact absurd h h2

/-- C7 at `int ** x`, where `**` is one operator token: `parseType` returns
pointer level 0 and no tag, where the claim has level 2 and two `Pointer`
tags, and it stops at that token without consuming it.  The loop over the
characters of the token would count both, but the guard `validTypeInfoTokens`
in front of it admits only the texts `*` and `?`. -/
theorem Parser.parseType_double_star_unread :
    (Parser.positioned [] ⟨.TokType, "int"⟩ [⟨.TokOper, "**"⟩, ⟨.TokIdent, "x"⟩]).parseType =
      .ok ({ Name := "int", Modifiers := [], PointerLevel := 0, Unknown := false },
           Parser.cursor streamDoubleStar 1) ∧
    (Parser.cursor streamDoubleStar 1).token = ⟨.TokOper, "**"⟩ := by
  decide

/-- The operator branch of `parseType` on a token made of `*` characters,
after a type name and a run of markers with at most one inference marker: a
token whose text is exactly `*` raises `PointerLevel` by one and appends one
`Pointer` tag; a token whose text is a run of two or more `*` fails the guard
`validTypeInfoTokens`, so the loop over its characters is never reached and
`parseType` stops at the token with nothing added. -/
theorem Parser.parseType_operator_token (pre : List lexer.Token) (name : lexer.Token)
    (ms rest : List lexer.Token) (tok : lexer.Token) (hname : name.Is .TokType = true)
    (hms : ∀ m ∈ ms, isPointerMarker m = true ∨ isInferenceMarker m = true)
    (hcount : ms.countP isInferenceMarker ≤ 1) (hop : tok.Kind = .TokOper) :
    (tok.Value = "*" → (∀ r, rest.head? = some r → isModifierToken r = false) →
      (Parser.positioned pre name (ms ++ tok :: rest)).parseType =
        .ok ({ Name := name.Value,
               Modifiers := modifierTags ms ++ [.ModifierPointer],
               PointerLevel := ms.countP isPointerMarker + 1,
               Unknown := ms.any isInferenceMarker },
             Parser.cursor (pre ++ name :: (ms ++ tok :: rest))
               (pre.length + 1 + ms.length + 1))) ∧
    (∀ m : Nat, 2 ≤ m → tok.Value = String.mk (List.replicate m '*') →
      (Parser.positioned pre name (ms ++ tok :: rest)).parseType =
        .ok ({ Name := name.Value,
               Modifiers := modifierTags ms,
               PointerLevel := ms.countP isPointerMarker,
               Unknown := ms.any isInferenceMarker },
             Parser.cursor (pre ++ name :: (ms ++ tok :: rest))
               (pre.length + 1 + ms.length))) := by
  constructor
  · intro hval hstop
    have hptr : isPointerMarker tok = true := (isPointerMarker_iff tok).mpr ⟨hop, hval⟩
    have hinf : isInferenceMarker tok = false := not_inference_of_pointer tok hptr
    have hms2 : ∀ m ∈ ms ++ [tok], isPointerMarker m = true ∨ isInferenceMarker m = true := by
      intro m hm
      rcases List.mem_append.mp hm with h | h
      · exact hms m h
      · rw [List.mem_singleton.mp h]; exact Or.inl hptr
    have hrun := (Parser.parseType_run pre name (ms ++ [tok]) rest hname hms2).1 hstop
      (by simpa [List.countP_append, hinf] using hcount)
    simp only [List.append_assoc, List.singleton_append] at hrun
    rw [hrun]
    simp [modifierTags_append, modifierTags, hinf, hptr, List.countP_append,
      Nat.add_assoc]
  · intro m hm hval
    have hstop : ∀ r, (tok :: rest).head? = some r → isModifierToken r = false := by
      intro r hr
      simp only [List.head?_cons, Option.some.injEq] at hr
      subst hr
      have hv : validTypeInfoTokens tok = false := by
        have := stars_not_valid tok.Kind m hm
        rw [← hval] at this
        exact this
      simp [isModifierToken, lexer.Token.Is, hop, hv]
    exact (Parser.parseType_run pre name ms (tok :: rest) hname hms).1 hstop hcount

/-- The operator branch at `int * x` and at `int ** x`. -/
theorem Parser.parseType_operator_token_witness :
    (Parser.positioned [] ⟨.TokType, "int"⟩ [⟨.TokOper, "*"⟩, ⟨.TokIdent, "x"⟩]).parseType =
      .ok ({ Name := "int", Modifiers := [.ModifierPointer], PointerLevel := 1,
             Unknown := false },
           Parser.cursor [⟨.TokType, "int"⟩, ⟨.TokOper, "*"⟩, ⟨.TokIdent, "x"⟩] 2) ∧
    (Parser.positioned [] ⟨.TokType, "int"⟩ [⟨.TokOper, "**"⟩, ⟨.TokIdent, "x"⟩]).parseType =
      .ok ({ Name := "int", Modifiers := [], PointerLevel := 0, Unknown := false },
           Parser.cursor [⟨.TokType, "int"⟩, ⟨.TokOper, "**"⟩, ⟨.TokIdent, "x"⟩] 1) :=
  ⟨(Parser.parseType_operator_token [] ⟨.TokType, "int"⟩ [] [⟨.TokIdent, "x"⟩]
      ⟨.TokOper, "*"⟩ (by decide) (by decide) (by decide) rfl).1 rfl (by decide),
   (Parser.parseType_operator_token [] ⟨.TokType, "int"⟩ [] [⟨.TokIdent, "x"⟩]
      ⟨.TokOper, "**"⟩ (by decide) (by decide) (by decide) rfl).2 2 (by decide) rfl⟩

/-! ## The invariant of a returned annotation -/

theorem TypeNode.wellFormed_pointer (t : TypeNode) (h : t.WellFormed) :
    TypeNode.WellFormed
      { t with PointerLevel := t.PointerLevel + 1,
               Modifiers := t.Modifiers ++ [.ModifierPointer] } := by
  obtain ⟨h1, h2, h3⟩ := h
  refine ⟨?_, ?_, ?_⟩
  · simp [List.count_append, h1]
  · simpa [List.count_append] using h2
  · simpa using h3

theorem TypeNode.wellFormed_unknown (t : TypeNode) (h : t.WellFormed)
    (hu : t.Unknown = false) :
    TypeNode.WellFormed
      { t with Unknown := true, Modifiers := t.Modifiers ++ [.ModifierUnknown] } := by
  obtain ⟨h1, _, h3⟩ := h
  have hnot : TypeModifier.ModifierUnknown ∉ t.Modifiers := by
    intro hmem
    rw [h3.mpr hmem] at hu
    cases hu
  refine ⟨?_, ?_, ?_⟩
  · simp [List.count_append, h1]
  · simp [List.count_append, List.count_eq_zero_of_not_mem hnot]
  · simp

theorem pointerRunes_wellFormed (cs : List Char) :
    ∀ t : TypeNode, t.WellFormed → (pointerRunes t cs).WellFormed := by
  induction cs with
  | nil => intro t h; exact h
  | cons c cs ih =>
    intro t h
    rw [pointerRunes]
    split
    · exact ih _ (TypeNode.wellFormed_pointer t h)
    · exact ih _ h

theorem parseTypeLoop_wellFormed (fuel : Nat) :
    ∀ (t : TypeNode) (p : Parser) (t2 : TypeNode) (p2 : Parser),
      t.WellFormed → parseTypeLoop fuel t p = .ok (t2, p2) → t2.WellFormed := by
  induction fuel with
  | zero => intro t p t2 p2 _ h; simp [parseTypeLoop] at h
  | succ f ih =>
    intro t p t2 p2 hwf h
    rw [parseTypeLoop] at h
    split at h
    · split at h
      · cases h
      · next hu =>
        exact ih _ _ _ _ (TypeNode.wellFormed_unknown t hwf (by simpa using hu)) h
    · split at h
      · exact ih _ _ _ _ (pointerRunes_wellFormed _ t hwf) h
      · simp only [Outcome.ok.injEq, Prod.mk.injEq] at h
        rw [← h.1]
        exact hwf

theorem parseTypeLoop_fuel (fuel : Nat) :
    ∀ (ts : List lexer.Token) (i : Nat) (t : TypeNode),
      ts.length < fuel + i → 0 < fuel →
      parseTypeLoop fuel t (Parser.cursor ts i) ≠ .outOfFuel := by
  induction fuel with
  | zero => intro _ _ _ _ h; omega
  | succ f ih =>
    intro ts i t hlen _
    have hin : isModifierToken (Parser.cursor ts i).token = true → i < ts.length := by
      intro hm
      by_contra hge
      have hnil : ts.drop i = [] := List.drop_eq_nil_of_le (by omega)
      rw [Parser.cursor_token_of_drop_nil ts i hnil] at hm
      revert hm
      decide
    rw [parseTypeLoop]
    split
    · next hq =>
      have hi := hin (by simp [isModifierToken, hq])
      split
      · simp
      · rw [Parser.cursor_next]
        exact ih ts (i + 1) _ (by omega) (by omega)
    · split
      · next hq ho =>
        have hi := hin (by
          simp only [Bool.and_eq_true] at ho
          simp [isModifierToken, ho.1, ho.2])
        rw [Parser.cursor_next]
        exact ih ts (i + 1) _ (by omega) (by omega)
      · simp

theorem Parser.parseType_ne_outOfFuel (p : Parser) : p.parseType ≠ .outOfFuel := by
  unfold Parser.parseType Parser.requires
  split
  · simp
  · next h => split at h <;> simp at h
  · simp only [Parser.parseName, Parser.next_eq_cursor]
    exact parseTypeLoop_fuel _ _ _ _ (by simp [Parser.cursor]; omega) (by omega)

/-- C8: every annotation that `parseType` returns has `PointerLevel` equal to
the number of `Pointer` tags in `Modifiers`, holds the `Unknown` tag at most
once, and has `Unknown` set exactly when that tag occurs. -/
theorem Parser.parseType_wellFormed (p : Parser) (t : TypeNode) (p2 : Parser)
    (h : p.parseType = .ok (t, p2)) :
    t.PointerLevel = t.Modifiers.count .ModifierPointer ∧
    t.Modifiers.count .ModifierUnknown ≤ 1 ∧
    (t.Unknown = true ↔ TypeModifier.ModifierUnknown ∈ t.Modifiers) := by
  unfold Parser.parseType Parser.requires at h
  split at h
  · cases h
  · cases h
  · simp only [Parser.parseName] at h
    exact parseTypeLoop_wellFormed _ _ _ _ _ ⟨rfl, by simp, by simp⟩ h

/-- C8 at `int * ? * x`: the returned annotation has pointer level 2, two
`Pointer` tags and one `Unknown` tag. -/
theorem Parser.parseType_wellFormed_witness :
    (Parser.cursor streamPointerInference 0).parseType =
      .ok ({ Name := "int",
             Modifiers := [.ModifierPointer, .ModifierUnknown, .ModifierPointer],
             PointerLevel := 2, Unknown := true },
           Parser.cursor streamPointerInference 4) ∧
    (2 = [TypeModifier.ModifierPointer, .ModifierUnknown, .ModifierPointer].count
          .ModifierPointer ∧
     [TypeModifier.ModifierPointer, .ModifierUnknown, .ModifierPointer].count
          .ModifierUnknown ≤ 1 ∧
     (true = true ↔ TypeModifier.ModifierUnknown ∈
        [TypeModifier.ModifierPointer, .ModifierUnknown, .ModifierPointer])) :=
  have h : (Parser.cursor streamPointerInference 0).parseType =
      .ok ({ Name := "int",
             Modifiers := [.ModifierPointer, .ModifierUnknown, .ModifierPointer],
             PointerLevel := 2, Unknown := true },
           Parser.cursor streamPointerInference 4) := by decide
  ⟨h, Parser.parseType_wellFormed _ _ _ h⟩

/-! ## The lookahead `atType` -/

theorem Parser.peek_eq_head (p : Parser) (offset : Nat) :
    p.Peek offset = ((p.tokens.drop (p.tokenIndex + offset)).head?).getD lexer.Token.zero := by
  simp [Parser.Peek, List.getD_eq_getElem?_getD, List.head?_drop]

theorem atTypeLoop_eq (fuel : Nat) :
    ∀ (p : Parser) (offset : Nat),
      ((p.tokens.drop (p.tokenIndex + offset)).takeWhile validTypeInfoTokens).length < fuel →
      atTypeLoop fuel p offset =
        .ok (offset +
          ((p.tokens.drop (p.tokenIndex + offset)).takeWhile validTypeInfoTokens).length) := by
  induction fuel with
  | zero => intro _ _ h; omega
  | succ f ih =>
    intro p offset hlen
    rw [atTypeLoop, Parser.peek_eq_head]
    cases hl : p.tokens.drop (p.tokenIndex + offset) with
    | nil =>
      have hz : validTypeInfoTokens lexer.Token.zero = false := by decide
      simp [hz]
    | cons r tail =>
      have htail : p.tokens.drop (p.tokenIndex + (offset + 1)) = tail := by
        rw [← Nat.add_assoc, ← List.drop_drop, hl]
        rfl
      rw [hl] at hlen
      cases hv : validTypeInfoTokens r
      · simp [hv]
      · simp only [List.takeWhile_cons, hv, if_true, List.length_cons] at hlen
        have hrec := ih p (offset + 1) (by rw [htail]; omega)
        rw [htail] at hrec
        simp only [List.head?_cons, Option.getD_some, hv, if_true, List.takeWhile_cons,
          List.length_cons, hrec]
        congr 1
        omega

theorem drop_takeWhile_length {α : Type} (q : α → Bool) (l : List α) :
    l.drop (l.takeWhile q).length = l.dropWhile q := by
  induction l with
  | nil => rfl
  | cons x xs ih =>
    cases hx : q x
    · simp [List.takeWhile_cons, List.dropWhile_cons, hx]
    · simp [List.takeWhile_cons, List.dropWhile_cons, hx, ih]

/-- C9: `atType` returns, on every parser state, and leaves that state as it
was; its answer is true exactly when the current token is a type token and
the stream has, right after the maximal run of tokens with the text `*` or
`?` that follows the current token, an identifier token. -/
theorem Parser.atType_pure_lookahead (p : Parser) :
    p.atType = .ok (beginsType p, p) ∧
    (beginsType p = true ↔
      p.token.Kind = .TokType ∧
      ∃ tok, ((p.tokens.drop (p.tokenIndex + 1)).dropWhile validTypeInfoTokens).head?
          = some tok ∧ tok.Kind = .TokIdent) ∧
    (∀ tok : lexer.Token,
      validTypeInfoTokens tok = true ↔ tok.Value = "*" ∨ tok.Value = "?") := by
  refine ⟨?_, ?_, validTypeInfoTokens_iff⟩
  · unfold Parser.atType
    cases ht : p.token.Is .TokType
    · simp [beginsType, ht]
    · have hlen : ((p.tokens.drop (p.tokenIndex + 1)).takeWhile validTypeInfoTokens).length
          < p.tokens.length + 1 := by
        have h1 := congrArg List.length (List.takeWhile_append_dropWhile
          validTypeInfoTokens (p.tokens.drop (p.tokenIndex + 1)))
        rw [List.length_append] at h1
        have h2 : (p.tokens.drop (p.tokenIndex + 1)).length ≤ p.tokens.length := by
          simp
        omega
      rw [atTypeLoop_eq _ p 1 hlen]
      simp only [Bool.not_true, Bool.false_eq_true, if_false]
      rw [Parser.peek_eq_head, ← Nat.add_assoc, ← List.drop_drop, drop_takeWhile_length]
      simp only [beginsType, ht, tokenAfterModifiers, Bool.true_and]
      cases ((p.tokens.drop (p.tokenIndex + 1)).dropWhile validTypeInfoTokens).head? with
      | none => simp [lexer.Token.zero]
      | some tok =>
        cases hk : (tok.Kind == lexer.TokenType.TokIdent) <;> simp [hk]
  · simp only [beginsType, tokenAfterModifiers, Bool.and_eq_true, lexer.Token.Is,
      beq_iff_eq]
    constructor
    · rintro ⟨hk, hm⟩
      refine ⟨hk, ?_⟩
      cases hh : ((p.tokens.drop (p.tokenIndex + 1)).dropWhile validTypeInfoTokens).head? with
      | none => rw [hh] at hm; cases hm
      | some tok =>
        rw [hh] at hm
        exact ⟨tok, rfl, by simpa using hm⟩
    · rintro ⟨hk, tok, hh, hi⟩
      refine ⟨hk, ?_⟩
      rw [hh]
      simp [hi]

/-- C9 at `int * x` (a type annotation begins) and at `int * 5`-like streams
where no identifier follows the markers. -/
theorem Parser.atType_pure_lookahead_witness :
    (Parser.cursor streamPointerInference 0).atType =
      .ok (true, Parser.cursor streamPointerInference 0) ∧
    (Parser.cursor [⟨.TokType, "int"⟩, ⟨.TokOper, "*"⟩, ⟨.TokOther 0, "5"⟩] 0).atType =
      .ok (false, Parser.cursor [⟨.TokType, "int"⟩, ⟨.TokOper, "*"⟩, ⟨.TokOther 0, "5"⟩] 0) :=
  ⟨(Parser.atType_pure_lookahead (Parser.cursor streamPointerInference 0)).1.trans
      (by decide),
   (Parser.atType_pure_lookahead
      (Parser.cursor [⟨.TokType, "int"⟩, ⟨.TokOper, "*"⟩, ⟨.TokOther 0, "5"⟩] 0)).1.trans
      (by decide)⟩

/-! ## The slice type -/

/-- C10: for every element type, `NewSlice` returns a slice type whose struct
has exactly two fields, the pointer to the element type and then the 64-bit
integer type, whose `ElemType` is the element type itself and whose
`Underlying()` is that struct. -/
theorem NewSlice_layout (elem : types.Typ) :
    (NewSlice elem).StructType = types.NewStruct [types.NewPointer elem, types.I64] ∧
    (NewSlice elem).StructType.Fields = [types.Typ.Pointer elem, types.Typ.Int 64] ∧
    (NewSlice elem).StructType.Fields.length = 2 ∧
    (NewSlice elem).ElemType = elem ∧
    (NewSlice elem).Underlying = (NewSlice elem).StructType :=
  ⟨rfl, rfl, rfl, rfl, rfl⟩

/-! ## A child at a given position of a container -/

theorem commaTail_append (a b : List GoString) :
    commaTail (a ++ b) = commaTail a ++ commaTail b := by
  induction a with
  | nil => rfl
  | cons x xs ih => simp [commaTail, ih]

theorem commaJoin_split (before after : List GoString) (c : GoString) :
    commaJoin (before ++ c :: after) =
      (match before with
        | [] => []
        | b :: bs => b ++ commaTail bs ++ str ", ") ++ c ++ commaTail after := by
  cases before with
  | nil => simp [commaJoin]
  | cons b bs => simp [commaJoin, commaTail_append, commaTail]

theorem Metadata.def_at_position (id : GoString) (before after : List Node) (c : Node) :
    Metadata.Def ⟨id, before ++ c :: after⟩ =
      (str "!\x7b" ++
        (match before.map childRendering with
          | [] => []
          | b :: bs => b ++ commaTail bs ++ str ", ")) ++ childRendering c ++
      (commaTail (after.map childRendering) ++ str "\x7d") := by
  rw [Metadata.def_eq]
  simp only [List.map_append, List.map_cons, commaJoin_split, List.append_assoc]

theorem childRendering_value (x : Node) :
    childRendering (.Value x) = types.Typ.String x.Type ++ str " " ++ x.Ident := by
  simp [childRendering, Node.Type, types.EqualMetadata, Node.Ident]

/-- C20: the identity of a wrapper around `x` is the type name of `x`, a
blank and the identity of `x`.  When `x` has another type than the metadata
type, a container renders `x` and the wrapper around `x` alike, so the two
containers have the same definition; when `x` has the metadata type the
wrapper adds the type name that the direct child goes without, and the two
definitions differ. -/
theorem Node.value_wrapper_rendering (x : Node) :
    Node.Ident (.Value x) = types.Typ.String x.Type ++ str " " ++ x.Ident ∧
    (types.EqualMetadata x.Type = false →
      childRendering (.Value x) = childRendering x ∧
      ∀ (id : GoString) (before after : List Node),
        Metadata.Def ⟨id, before ++ x :: after⟩ =
          Metadata.Def ⟨id, before ++ Node.Value x :: after⟩) ∧
    (types.EqualMetadata x.Type = true →
      childRendering (.Value x) = str "metadata " ++ childRendering x ∧
      childRendering (.Value x) ≠ childRendering x ∧
      ∀ (id : GoString) (before after : List Node),
        Metadata.Def ⟨id, before ++ x :: after⟩ ≠
          Metadata.Def ⟨id, before ++ Node.Value x :: after⟩) := by
  refine ⟨by simp [Node.Ident], fun h => ?_, fun h => ?_⟩
  · have hc : childRendering (.Value x) = childRendering x := by
      rw [childRendering_value]
      simp [childRendering, h]
    refine ⟨hc, fun id before after => ?_⟩
    rw [Metadata.def_at_position, Metadata.def_at_position, hc]
  · have hty : x.Type = types.Typ.Metadata := by
      cases hx : x.Type <;> simp [hx, types.EqualMetadata] at h
      rfl
    have hc : childRendering (.Value x) = str "metadata " ++ childRendering x := by
      rw [childRendering_value, hty]
      have hm : types.Typ.String types.Typ.Metadata ++ str " " = str "metadata " := by decide
      rw [hm]
      simp [childRendering, h]
    have hne : childRendering (.Value x) ≠ childRendering x := by
      intro heq
      have hlen := congrArg List.length heq
      rw [hc, List.length_append] at hlen
      have h9 : (str "metadata ").length = 9 := by decide
      omega
    refine ⟨hc, hne, fun id before after heq => ?_⟩
    rw [Metadata.def_at_position, Metadata.def_at_position] at heq
    have h1 := List.append_cancel_right heq
    exact hne (List.append_cancel_left h1).symm

/-- C20 at the constant `i32 7` and at the string `hi`: the container with the
constant and the one with its wrapper both read `!{i32 7}`; the container with
the string reads `!{!"hi"}`, the one with its wrapper `!{metadata !"hi"}`. -/
theorem Node.value_wrapper_rendering_witness :
    Metadata.Def ⟨[], [] ++ Node.Other (.Int 32) (str "7") :: []⟩ =
      Metadata.Def ⟨[], [] ++ Node.Value (Node.Other (.Int 32) (str "7")) :: []⟩ ∧
    Metadata.Def ⟨[], [Node.Other (.Int 32) (str "7")]⟩ = str "!\x7bi32 7\x7d" ∧
    Metadata.Def ⟨[], [] ++ Node.String (str "hi") :: []⟩ ≠
      Metadata.Def ⟨[], [] ++ Node.Value (Node.String (str "hi")) :: []⟩ ∧
    Metadata.Def ⟨[], [Node.Value (Node.String (str "hi"))]⟩ =
      str "!\x7bmetadata !\"hi\"\x7d" :=
  ⟨((Node.value_wrapper_rendering (Node.Other (.Int 32) (str "7"))).2.1 rfl).2 [] [] [],
   by decide,
   ((Node.value_wrapper_rendering (Node.String (str "hi"))).2.2 rfl).2.2 [] [] [],
   by decide⟩

/-! ## The order of the modifier tags -/

theorem modifierTags_eq_map (ms : List lexer.Token)
    (hms : ∀ m ∈ ms, isPointerMarker m = true ∨ isInferenceMarker m = true) :
    modifierTags ms =
      ms.map (fun m =>
        if isInferenceMarker m then TypeModifier.ModifierUnknown
        else TypeModifier.ModifierPointer) := by
  induction ms with
  | nil => rfl
  | cons m ms ih =>
    have hrest := ih (fun x hx => hms x (List.mem_cons_of_mem _ hx))
    rw [modifierTags, hrest, List.map_cons]
    rcases hms m (List.mem_cons_self _ _) with hp | hq
    · simp [not_inference_of_pointer m hp, hp]
    · simp [hq]

theorem Parser.cursor_token_at (pre : List lexer.Token) (name : lexer.Token)
    (ms rest : List lexer.Token) :
    (Parser.cursor (pre ++ name :: (ms ++ rest)) (pre.length + 1 + ms.length)).token =
      rest.headD lexer.Token.zero := by
  have hdrop : (pre ++ name :: (ms ++ rest)).drop (pre.length + 1 + ms.length) = rest := by
    rw [← List.drop_drop, drop_after_name]
    simp
  cases rest with
  | nil => rw [Parser.cursor_token_of_drop_nil _ _ hdrop]; rfl
  | cons r tail => rw [(Parser.cursor_token_of_drop _ _ r tail hdrop).1]; rfl

theorem not_modifier_of_neither (r : lexer.Token) (hp : isPointerMarker r = false)
    (hi : isInferenceMarker r = false) (hq : ¬ (r.Kind = .TokOper ∧ r.Value = "?")) :
    isModifierToken r = false := by
  have hi2 : r.Is .TokQuestionMark = false := hi
  cases hop : r.Is .TokOper
  · simp [isModifierToken, hi2, hop]
  · have hkind : r.Kind = .TokOper := by
      simpa [lexer.Token.Is] using hop
    cases hv : validTypeInfoTokens r
    · simp [isModifierToken, hi2, hop, hv]
    · rcases (validTypeInfoTokens_iff r).mp hv with h | h
      · have : isPointerMarker r = true := (isPointerMarker_iff r).mpr ⟨hkind, h⟩
        rw [hp] at this
        cases this
      · exact absurd ⟨hkind, h⟩ hq

/-- The order of the tags away from operator tokens with the text `?`: on a
type name followed by pointer markers and inference markers in any order (at
most one inference marker, so that the run is accepted) and then the end of
the stream or a token that is neither marker nor an operator token with the
text `?`, `parseType` returns an annotation whose `Modifiers` lists one tag
for each marker, in the order of the tokens (`Pointer` for a pointer marker,
`Unknown` for an inference marker), and it leaves the parser on the first
token after the markers, which it has not consumed. -/
theorem Parser.parseType_modifiers_in_order (pre : List lexer.Token) (name : lexer.Token)
    (ms rest : List lexer.Token) (hname : name.Is .TokType = true)
    (hms : ∀ m ∈ ms, isPointerMarker m = true ∨ isInferenceMarker m = true)
    (hcount : ms.countP isInferenceMarker ≤ 1)
    (hstop : ∀ r, rest.head? = some r →
      isPointerMarker r = false ∧ isInferenceMarker r = false ∧
        ¬ (r.Kind = .TokOper ∧ r.Value = "?")) :
    ∃ (t : TypeNode) (p : Parser),
      (Parser.positioned pre name (ms ++ rest)).parseType = .ok (t, p) ∧
      t.Modifiers =
        ms.map (fun m =>
          if isInferenceMarker m then TypeModifier.ModifierUnknown
          else TypeModifier.ModifierPointer) ∧
      t.Modifiers.length = ms.length ∧
      p.tokens = pre ++ name :: (ms ++ rest) ∧
      p.tokenIndex = pre.length + 1 + ms.length ∧
      p.token = rest.headD lexer.Token.zero := by
  have hstop2 : ∀ r, rest.head? = some r → isModifierToken r = false :=
    fun r hr => not_modifier_of_neither r (hstop r hr).1 (hstop r hr).2.1 (hstop r hr).2.2
  refine ⟨_, _, (Parser.parseType_run pre name ms rest hname hms).1 hstop2 hcount, ?_, ?_,
    rfl, rfl, Parser.cursor_token_at pre name ms rest⟩
  · exact modifierTags_eq_map ms hms
  · simp [modifierTags_eq_map ms hms]

/-- The order of the tags at `int * ? * x`: the tags are `Pointer`, `Unknown`,
`Pointer` in this order, and the parser is left on `x`. -/
theorem Parser.parseType_modifiers_in_order_witness :
    ∃ (t : TypeNode) (p : Parser),
      (Parser.positioned [] ⟨.TokType, "int"⟩
        ([⟨.TokOper, "*"⟩, ⟨.TokQuestionMark, "?"⟩, ⟨.TokOper, "*"⟩] ++
          [⟨.TokIdent, "x"⟩])).parseType = .ok (t, p) ∧
      t.Modifiers = [.ModifierPointer, .ModifierUnknown, .ModifierPointer] ∧
      t.Modifiers.length = 3 ∧
      p.tokens = streamPointerInference ∧
      p.tokenIndex = 4 ∧
      p.token = ⟨.TokIdent, "x"⟩ :=
  Parser.parseType_modifiers_in_order [] ⟨.TokType, "int"⟩
    [⟨.TokOper, "*"⟩, ⟨.TokQuestionMark, "?"⟩, ⟨.TokOper, "*"⟩] [⟨.TokIdent, "x"⟩]
    (by decide) (by decide) (by decide) (by decide)

/-- C19 at `int ? x`, where `?` is a token of the operator kind: it is
neither a pointer marker nor an inference marker, yet `parseType` consumes it
and adds no tag for it, so the parser is left on `x`, not on the first token
that is neither marker, and the consumed token has no tag.  The branch for
tokens of the kind `TokQuestionMark` appends the `Unknown` tag on the same
text: at `int ? x` with that kind the tag is there. -/
theorem Parser.parseType_question_operator_untagged :
    isPointerMarker ⟨.TokOper, "?"⟩ = false ∧
    isInferenceMarker ⟨.TokOper, "?"⟩ = false ∧
    (Parser.cursor streamQuestionOperator 0).parseType =
      .ok ({ Name := "int", Modifiers := [], PointerLevel := 0, Unknown := false },
           Parser.cursor streamQuestionOperator 2) ∧
    (Parser.cursor streamQuestionOperator 2).token = ⟨.TokIdent, "x"⟩ ∧
    (Parser.cursor streamInference 0).parseType =
      .ok ({ Name := "int", Modifiers := [.ModifierUnknown], PointerLevel := 0,
             Unknown := true },
           Parser.cursor streamInference 2) := by
  decide

/-! ## `Metadata.Add` -/

theorem Metadata.def_add (md : Metadata) (n : Node) (h : md.Nodes ≠ []) :
    (md.Add n).Def = md.Def.dropLast ++ str ", " ++ childRendering n ++ str "\x7d" := by
  have hlast : ∀ l : GoString, (l ++ str "\x7d").dropLast = l := by
    intro l
    have : str "\x7d" = [125] := by decide
    rw [this, List.dropLast_concat]
  rw [Metadata.def_eq, Metadata.def_eq, hlast]
  obtain ⟨c, cs, hc⟩ := List.exists_cons_of_ne_nil h
  simp [Metadata.Add, hc, commaJoin, commaTail_append, commaTail]

theorem takeDrop_set_outside {α : Type} (l : List α) (k o m : Nat) (v : α)
    (hk : k < o ∨ o + m ≤ k) :
    ((l.set k v).drop o).take m = (l.drop o).take m := by
  apply List.ext_getElem?
  intro i
  simp only [List.getElem?_take, List.getElem?_drop, List.getElem?_set]
  by_cases hi : i < m
  · simp only [hi, if_true]
    have : k ≠ o + i := by omega
    simp [this]
  · simp [hi]

theorem takeDrop_set_next {α : Type} (l : List α) (o m : Nat) (v : α)
    (hlen : o + m < l.length) :
    ((l.set (o + m) v).drop o).take (m + 1) = (l.drop o).take m ++ [v] := by
  rw [List.take_succ, takeDrop_set_outside l (o + m) o m v (Or.inr (Nat.le_refl _))]
  simp [List.getElem?_drop, List.getElem?_set, hlen]

theorem Store.defLoop_congr (f g : StoredNode → Option GoString)
    (l : List (Option StoredNode)) (h : ∀ x, some x ∈ l → f x = g x) (buf : GoString) (i : Nat) :
    Store.defLoop f buf i l = Store.defLoop g buf i l := by
  induction l generalizing buf i with
  | nil => rfl
  | cons o rest ih =>
    cases o with
    | none => rfl
    | some node =>
      have hx := h node (List.mem_cons_self _ _)
      have hrest : ∀ x, some x ∈ rest → f x = g x :=
        fun x hx => h x (List.mem_cons_of_mem _ hx)
      simp only [Store.defLoop, hx]
      cases g node with
      | none => rfl
      | some id => exact ih hrest _ _

theorem Store.defOf_congr (f g : StoredNode → Option GoString)
    (l : List (Option StoredNode)) (h : ∀ x, some x ∈ l → f x = g x) :
    Store.defOf f l = Store.defOf g l := by
  unfold Store.defOf
  rw [Store.defLoop_congr f g l h]

theorem Store.add_containers_other (h : Store) (addr other : Nat) (n : StoredNode)
    (newCap : Nat) (hne : other ≠ addr) :
    (h.Add addr n newCap).containers[other]? = h.containers[other]? := by
  unfold Store.Add
  cases hmd : h.containers[addr]? with
  | none => rfl
  | some md =>
    simp only [Store.append]
    split <;> simp [List.getElem?_set, Ne.symm hne]

theorem Store.elems_add (h : Store) (addr : Nat) (n : StoredNode) (newCap : Nat) (s : Slice)
    (hvalid : s.len = 0 ∨ s.array < h.arrays.length)
    (hnot : ∀ cell, h.writtenCell addr = some cell → ¬ s.covers cell) :
    (h.Add addr n newCap).elems s = h.elems s := by
  unfold Store.Add
  cases hmd : h.containers[addr]? with
  | none => rfl
  | some md =>
    simp only [Store.append]
    by_cases hcap : md.Nodes.len < md.Nodes.cap
    · simp only [hcap, if_true, Store.elems]
      have hcell := hnot (md.Nodes.array, md.Nodes.offset + md.Nodes.len)
        (by simp [Store.writtenCell, hmd, hcap])
      by_cases harr : s.array = md.Nodes.array
      · have hk : md.Nodes.offset + md.Nodes.len < s.offset ∨
            s.offset + s.len ≤ md.Nodes.offset + md.Nodes.len := by
          by_contra hno
          exact hcell ⟨harr, by simp only [] ; omega, by simp only []; omega⟩
        rw [harr]
        by_cases hlt : md.Nodes.array < h.arrays.length
        · simp only [List.getD_eq_getElem?_getD, List.getElem?_set, hlt, if_true]
          simp only [Option.getD_some]
          exact takeDrop_set_outside _ _ _ _ _ hk
        · have hnone : h.arrays[md.Nodes.array]? = none :=
            List.getElem?_eq_none (by omega)
          simp [List.getD_eq_getElem?_getD, List.getElem?_set, hlt, hnone]
      · simp [List.getD_eq_getElem?_getD, List.getElem?_set, Ne.symm harr]
    · simp only [hcap, if_false, Store.elems]
      rcases hvalid with h0 | hlt
      · simp [h0]
      · simp [List.getD_eq_getElem?_getD, List.getElem?_append_left hlt]

theorem Store.WellFormed.valid (h : Store) (hwf : h.WellFormed) (b : Nat) (md : StoredMetadata)
    (hmd : h.containers[b]? = some md) :
    md.Nodes.len = 0 ∨ md.Nodes.array < h.arrays.length := by
  have hmem : md ∈ h.containers := List.mem_iff_getElem?.2 ⟨b, hmd⟩
  obtain ⟨hle, hcap⟩ := hwf md hmem
  by_cases h0 : md.Nodes.len = 0
  · exact Or.inl h0
  · right
    rcases hcap with hc | hc
    · omega
    · by_contra hge
      have hnone : h.arrays[md.Nodes.array]? = none := List.getElem?_eq_none (by omega)
      simp [List.getD_eq_getElem?_getD, hnone] at hc
      omega

theorem Store.Apart.of_child (h : Store) (parent addr : Nat) (md : StoredMetadata)
    (c : StoredNode) (hmd : h.containers[parent]? = some md) (hc : some c ∈ h.elems md.Nodes)
    (hap : h.Apart (.Container parent) addr) : h.Apart c addr :=
  ⟨fun hcc => hap.1 (Store.Contains.child parent addr md c hmd hc hcc),
   fun b md2 cell hb hmd2 hcell =>
     hap.2 b md2 cell (Store.Contains.child parent b md c hmd hc hb) hmd2 hcell⟩

theorem Store.Apart.of_wrapped (h : Store) (X : StoredNode) (addr : Nat)
    (hap : h.Apart (.Value X) addr) : h.Apart X addr :=
  ⟨fun hcc => hap.1 (Store.Contains.wrapped X addr hcc),
   fun b md2 cell hb hmd2 hcell =>
     hap.2 b md2 cell (Store.Contains.wrapped X b hb) hmd2 hcell⟩

theorem Store.ident_add (fuel : Nat) :
    ∀ (h : Store) (addr : Nat) (n : StoredNode) (newCap : Nat) (c : StoredNode),
      h.WellFormed → h.Apart c addr →
      Store.Ident fuel (h.Add addr n newCap) c = Store.Ident fuel h c := by
  induction fuel with
  | zero => intro h addr n newCap c _ _; rfl
  | succ f ih =>
    intro h addr n newCap c hwf hap
    cases c with
    | Container parent =>
      have hne : parent ≠ addr := by
        intro heq
        exact hap.1 (heq ▸ Store.Contains.self parent)
      rw [Store.Ident, Store.Ident, Store.add_containers_other h addr parent n newCap hne]
      cases hmd : h.containers[parent]? with
      | none => rfl
      | some md =>
        have helems : (h.Add addr n newCap).elems md.Nodes = h.elems md.Nodes :=
          Store.elems_add h addr n newCap md.Nodes (Store.WellFormed.valid h hwf parent md hmd)
            (fun cell hcell => hap.2 parent md cell (Store.Contains.self parent) hmd hcell)
        simp only [helems]
        rw [Store.defOf_congr (Store.Ident f (h.Add addr n newCap)) (Store.Ident f h) _
          (fun x hx => ih h addr n newCap x hwf
            (Store.Apart.of_child h parent addr md x hmd hx hap))]
    | String v => rfl
    | Value x =>
      rw [Store.Ident, Store.Ident,
        ih h addr n newCap x hwf (Store.Apart.of_wrapped h x addr hap)]
    | Raw v => rfl
    | Other t i => rfl

theorem Store.def_add_other (fuel : Nat) (h : Store) (addr other : Nat) (n : StoredNode)
    (newCap : Nat) (hwf : h.WellFormed) (hap : h.Apart (.Container other) addr) :
    Store.Def fuel (h.Add addr n newCap) other = Store.Def fuel h other := by
  have hne : other ≠ addr := by
    intro heq
    exact hap.1 (heq ▸ Store.Contains.self other)
  rw [Store.Def, Store.Def, Store.add_containers_other h addr other n newCap hne]
  cases hmd : h.containers[other]? with
  | none => rfl
  | some md =>
    have helems : (h.Add addr n newCap).elems md.Nodes = h.elems md.Nodes :=
      Store.elems_add h addr n newCap md.Nodes (Store.WellFormed.valid h hwf other md hmd)
        (fun cell hcell => hap.2 other md cell (Store.Contains.self other) hmd hcell)
    simp only [helems]
    exact Store.defOf_congr _ _ _ (fun x hx => Store.ident_add fuel h addr n newCap x hwf
      (Store.Apart.of_child h other addr md x hmd hx hap))

theorem take_length_succ_append {α : Type} (E pad : List α) (v : α) :
    ((E ++ [v]) ++ pad).take (E.length + 1) = E ++ [v] := by
  have hl : (E ++ [v]).length = E.length + 1 := by simp
  rw [← hl, List.take_left]

theorem Store.elems_length (h : Store) (hwf : h.WellFormed) (b : Nat) (md : StoredMetadata)
    (hmd : h.containers[b]? = some md) : (h.elems md.Nodes).length = md.Nodes.len := by
  have hmem : md ∈ h.containers := List.mem_iff_getElem?.2 ⟨b, hmd⟩
  obtain ⟨hle, hcap⟩ := hwf md hmem
  simp only [Store.elems, List.length_take, List.length_drop]
  rcases hcap with hc | hc <;> omega

theorem Store.add_self (h : Store) (addr : Nat) (n : StoredNode) (newCap : Nat)
    (hwf : h.WellFormed) (md : StoredMetadata) (hmd : h.containers[addr]? = some md) :
    ∃ s2 : Slice,
      (h.Add addr n newCap).containers[addr]? = some ⟨md.ID, s2⟩ ∧
      (h.Add addr n newCap).elems s2 = h.elems md.Nodes ++ [some n] := by
  have hlt : addr < h.containers.length := by
    by_contra hge
    rw [List.getElem?_eq_none (by omega)] at hmd
    cases hmd
  have hmem : md ∈ h.containers := List.mem_iff_getElem?.2 ⟨addr, hmd⟩
  obtain ⟨hle, hcapOk⟩ := hwf md hmem
  have hlen := Store.elems_length h hwf addr md hmd
  unfold Store.Add
  simp only [hmd, Store.append]
  by_cases hcap : md.Nodes.len < md.Nodes.cap
  · simp only [hcap, if_true]
    refine ⟨{ md.Nodes with len := md.Nodes.len + 1 }, by simp [List.getElem?_set, hlt], ?_⟩
    have hin : md.Nodes.offset + md.Nodes.cap ≤ (h.arrays.getD md.Nodes.array []).length := by
      rcases hcapOk with hc | hc
      · omega
      · exact hc
    have harr : md.Nodes.array < h.arrays.length := by
      by_contra hge
      have hnone : h.arrays[md.Nodes.array]? = none := List.getElem?_eq_none (by omega)
      simp [List.getD_eq_getElem?_getD, hnone] at hin
      omega
    simp only [Store.elems, List.getD_eq_getElem?_getD, List.getElem?_set, harr, if_true,
      Option.getD_some]
    exact takeDrop_set_next _ _ _ _ (by
      simp only [List.getD_eq_getElem?_getD] at hin
      omega)
  · simp only [hcap, if_false]
    refine ⟨{ array := h.arrays.length, offset := 0, len := md.Nodes.len + 1,
              cap := max newCap (md.Nodes.len + 1) },
      by simp [List.getElem?_set, hlt], ?_⟩
    have hnew : ({ containers := h.containers.set addr
                     { ID := md.ID,
                       Nodes := { array := h.arrays.length, offset := 0,
                                  len := md.Nodes.len + 1,
                                  cap := max newCap (md.Nodes.len + 1) } },
                   arrays := h.arrays ++
                     [h.elems md.Nodes ++ [some n] ++
                       List.replicate (max newCap (md.Nodes.len + 1) - (md.Nodes.len + 1))
                         none] } : Store).elems
          { array := h.arrays.length, offset := 0, len := md.Nodes.len + 1,
            cap := max newCap (md.Nodes.len + 1) } =
        ((h.elems md.Nodes ++ [some n]) ++
          List.replicate (max newCap (md.Nodes.len + 1) - (md.Nodes.len + 1)) none).take
          ((h.elems md.Nodes).length + 1) := by
      rw [hlen]
      simp only [Store.elems, List.getD_eq_getElem?_getD, List.getElem?_concat_length,
        Option.getD_some, List.drop_zero]
    exact hnew.trans (take_length_succ_append _ _ _)

theorem Store.add_wellFormed (h : Store) (addr : Nat) (n : StoredNode) (newCap : Nat)
    (hwf : h.WellFormed) : (h.Add addr n newCap).WellFormed := by
  unfold Store.Add
  cases hmd : h.containers[addr]? with
  | none => exact hwf
  | some md =>
    have hmem : md ∈ h.containers := List.mem_iff_getElem?.2 ⟨addr, hmd⟩
    obtain ⟨hle, hcapOk⟩ := hwf md hmem
    have hlen := Store.elems_length h hwf addr md hmd
    simp only [Store.append]
    by_cases hcap : md.Nodes.len < md.Nodes.cap
    · simp only [hcap, if_true]
      intro m hm
      have hsame : ∀ a : Nat,
          ((h.arrays.set md.Nodes.array
            ((h.arrays.getD md.Nodes.array []).set (md.Nodes.offset + md.Nodes.len)
              (some n))).getD a []).length = (h.arrays.getD a []).length := by
        intro a
        simp only [List.getD_eq_getElem?_getD, List.getElem?_set]
        by_cases ha : md.Nodes.array = a
        · subst ha
          by_cases hlt : md.Nodes.array < h.arrays.length
          · simp [hlt]
          · have hnone : h.arrays[md.Nodes.array]? = none := List.getElem?_eq_none (by omega)
            simp [hlt, hnone]
        · simp [ha]
      rcases List.mem_or_eq_of_mem_set hm with hold | hnew
      · obtain ⟨h1, h2⟩ := hwf m hold
        exact ⟨h1, by rw [hsame]; exact h2⟩
      · subst hnew
        refine ⟨by simp only []; omega, ?_⟩
        rw [hsame]
        simp only []
        rcases hcapOk with hc | hc
        · omega
        · exact Or.inr hc
    · simp only [hcap, if_false]
      intro m hm
      rcases List.mem_or_eq_of_mem_set hm with hold | hnew
      · obtain ⟨h1, h2⟩ := hwf m hold
        refine ⟨h1, ?_⟩
        rcases h2 with hc | hc
        · exact Or.inl hc
        · right
          by_cases hlt : m.Nodes.array < h.arrays.length
          · simpa [List.getD_eq_getElem?_getD, List.getElem?_append_left hlt] using hc
          · have hnone : h.arrays[m.Nodes.array]? = none := List.getElem?_eq_none (by omega)
            simp only [List.getD_eq_getElem?_getD, hnone, Option.getD_none,
              List.length_nil] at hc
            have h0 : m.Nodes.offset + m.Nodes.cap = 0 := by omega
            rw [h0]
            exact Nat.zero_le _
      · subst hnew
        have hmax : md.Nodes.len + 1 ≤ max newCap (md.Nodes.len + 1) := le_max_right _ _
        refine ⟨hmax, Or.inr ?_⟩
        simp only [List.getD_eq_getElem?_getD, List.getElem?_concat_length,
          Option.getD_some, List.length_append, hlen, List.length_singleton,
          List.length_replicate, Nat.zero_add]
        omega

theorem Store.defLoop_append (ident : StoredNode → Option GoString)
    (xs ys : List (Option StoredNode)) (buf : GoString) (i : Nat) :
    Store.defLoop ident buf i (xs ++ ys) =
      (Store.defLoop ident buf i xs).bind (fun b => Store.defLoop ident b (i + xs.length) ys) := by
  induction xs generalizing buf i with
  | nil => simp [Store.defLoop]
  | cons o rest ih =>
    cases o with
    | none => simp [Store.defLoop]
    | some node =>
      rw [List.cons_append]
      simp only [Store.defLoop, List.length_cons]
      cases ident node with
      | none => rfl
      | some id =>
        simp only []
        rw [ih]
        have : i + 1 + rest.length = i + (rest.length + 1) := by omega
        rw [this]

theorem Store.defLoop_last (ident : StoredNode → Option GoString) (node : StoredNode)
    (id : GoString) (buf : GoString) (i : Nat) (hid : ident node = some id) :
    Store.defLoop ident buf (i + 1) [some node] =
      some (buf ++ str ", " ++ Store.childRendering node id) := by
  simp only [Store.defLoop, hid, Store.childRendering, WriteString]
  cases types.EqualMetadata node.Type <;> simp

theorem Store.defOf_append (ident : StoredNode → Option GoString)
    (xs : List (Option StoredNode)) (node : StoredNode) (id d : GoString)
    (hne : xs ≠ []) (hold : Store.defOf ident xs = some d) (hid : ident node = some id) :
    Store.defOf ident (xs ++ [some node]) =
      some (d.dropLast ++ str ", " ++ Store.childRendering node id ++ str "\x7d") := by
  have hlast : ∀ l : GoString, (l ++ str "\x7d").dropLast = l := by
    intro l
    have : str "\x7d" = [125] := by decide
    rw [this, List.dropLast_concat]
  unfold Store.defOf at hold ⊢
  rw [Store.defLoop_append]
  cases hb : Store.defLoop ident (WriteString [] (str "!\x7b")) 0 xs with
  | none => simp [hb] at hold
  | some b =>
    simp only [hb, Option.some.injEq] at hold
    subst hold
    obtain ⟨x, rest, hx⟩ := List.exists_cons_of_ne_nil hne
    have hpos : 0 + xs.length = rest.length + 1 := by simp [hx]
    simp only [Option.some_bind, hpos, Store.defLoop_last ident node id b _ hid, WriteString,
      hlast]

theorem Store.def_add_self (fuel : Nat) (h : Store) (addr : Nat) (sn : StoredNode)
    (newCap : Nat) (hwf : h.WellFormed) (stored : StoredMetadata) (d id : GoString)
    (hmd : h.containers[addr]? = some stored)
    (hne : h.elems stored.Nodes ≠ [])
    (hkids : ∀ c, some c ∈ h.elems stored.Nodes → h.Apart c addr)
    (hsn : h.Apart sn addr)
    (hdef : Store.Def fuel h addr = some d)
    (hid : Store.Ident fuel h sn = some id) :
    Store.Def fuel (h.Add addr sn newCap) addr =
      some (d.dropLast ++ str ", " ++ Store.childRendering sn id ++ str "\x7d") := by
  obtain ⟨s2, hc2, he2⟩ := Store.add_self h addr sn newCap hwf stored hmd
  simp only [Store.Def, hmd] at hdef
  simp only [Store.Def, hc2, he2]
  rw [Store.defOf_congr (Store.Ident fuel (h.Add addr sn newCap)) (Store.Ident fuel h) _
    (fun x hx => by
      rcases List.mem_append.1 hx with hx1 | hx2
      · exact Store.ident_add fuel h addr sn newCap x hwf (hkids x hx1)
      · simp only [List.mem_singleton, Option.some.injEq] at hx2
        rw [hx2]
        exact Store.ident_add fuel h addr sn newCap sn hwf hsn)]
  exact Store.defOf_append _ _ sn id d hne hdef hid

theorem Store.ident_anonymous (fuel : Nat) (h : Store) (addr : Nat) (md : StoredMetadata)
    (hmd : h.containers[addr]? = some md) (hid : md.ID = []) :
    Store.Ident (fuel + 1) h (.Container addr) = Store.Def fuel h addr := by
  simp [Store.Ident, Store.Def, hmd, hid]

/-- C18, as stated, fails where two containers lie on one backing array:
in `sharedStore` container 1 does not contain container 0, and `Add` of the
string `z` to container 0, whose slice has spare capacity, writes the cell
that is the second child of container 1, so the definition of container 1
changes from `!{!"a", !"b"}` to `!{!"a", !"z"}`. -/
theorem Metadata.add_rewrites_shared_array :
    ¬ Store.Contains sharedStore (.Container 1) 0 ∧
    sharedStore.WellFormed ∧
    Store.Def 2 sharedStore 1 = some (str "!\x7b!\"a\", !\"b\"\x7d") ∧
    Store.Def 2 (sharedStore.Add 0 (.String (str "z")) 0) 1 =
      some (str "!\x7b!\"a\", !\"z\"\x7d") ∧
    Store.Def 2 (sharedStore.Add 0 (.String (str "z")) 0) 0 =
      some (str "!\x7b!\"a\", !\"z\"\x7d") := by
  refine ⟨?_, ?_, by decide, by decide, by decide⟩
  · intro hc
    cases hc with
    | child _ _ md c hmd hmem hcc =>
      simp only [sharedStore, List.getElem?_cons_succ, List.getElem?_cons_zero,
        Option.some.injEq] at hmd
      subst hmd
      have hmem2 : some c ∈
          [some (StoredNode.String (str "a")), some (StoredNode.String (str "b"))] := hmem
      simp only [List.mem_cons, Option.some.injEq, List.mem_nil_iff, or_false] at hmem2
      rcases hmem2 with hm | hm <;> subst hm <;> cases hcc
  · intro md hmd
    simp only [sharedStore, List.mem_cons, List.mem_nil_iff, or_false] at hmd
    rcases hmd with hm | hm <;> subst hm <;> decide

theorem exampleStore_wellFormed : exampleStore.WellFormed := by
  intro md hmd
  simp only [exampleStore, List.mem_cons, List.mem_nil_iff, or_false] at hmd
  rcases hmd with hm | hm | hm <;> subst hm <;> decide

theorem exampleStore_one_apart : exampleStore.Apart (.Container 1) 0 := by
  have hall : ∀ b, Store.Contains exampleStore (.Container 1) b → b = 1 := by
    intro b hc
    cases hc with
    | self => rfl
    | child _ _ md c hmd hmem hcc =>
      simp only [exampleStore, List.getElem?_cons_succ, List.getElem?_cons_zero,
        Option.some.injEq] at hmd
      subst hmd
      have hmem2 : some c ∈ [some (StoredNode.Other (.Int 32) (str "1"))] := hmem
      simp only [List.mem_singleton, Option.some.injEq] at hmem2
      subst hmem2
      cases hcc
  refine ⟨fun hc => absurd (hall 0 hc) (by decide), ?_⟩
  intro b md cell hb hmd hcell
  have hb1 := hall b hb
  subst hb1
  simp only [exampleStore, List.getElem?_cons_succ, List.getElem?_cons_zero,
    Option.some.injEq] at hmd
  subst hmd
  simp only [Store.writtenCell, exampleStore, List.getElem?_cons_zero, Option.some.injEq] at hcell
  have hcell2 : cell = (0, 1) := by
    simpa using hcell.symm
  subst hcell2
  intro hcov
  exact absurd hcov.1 (by decide)

theorem cyclicStore_wellFormed : cyclicStore.WellFormed := by
  intro md hmd
  simp only [cyclicStore, List.mem_cons, List.mem_nil_iff, or_false] at hmd
  rcases hmd with hm | hm | hm <;> subst hm <;> decide

theorem cyclicStore_cycle_contains :
    ∀ (c : StoredNode) (b : Nat), Store.Contains cyclicStore c b →
      (c = .Container 0 ∨ c = .Container 1) → b = 0 ∨ b = 1 := by
  intro c b hc
  induction hc with
  | self addr =>
    intro hcase
    rcases hcase with h0 | h1
    · left; injection h0
    · right; injection h1
  | child parent addr md c hmd hmem _ ih =>
    intro hcase
    apply ih
    rcases hcase with h0 | h1
    · injection h0 with hp
      subst hp
      simp only [cyclicStore, List.getElem?_cons_zero, Option.some.injEq] at hmd
      subst hmd
      have hmem2 : some c ∈ [some (StoredNode.Container 1)] := hmem
      simp only [List.mem_singleton, Option.some.injEq] at hmem2
      exact Or.inr hmem2
    · injection h1 with hp
      subst hp
      simp only [cyclicStore, List.getElem?_cons_succ, List.getElem?_cons_zero,
        Option.some.injEq] at hmd
      subst hmd
      have hmem2 : some c ∈ [some (StoredNode.Container 0)] := hmem
      simp only [List.mem_singleton, Option.some.injEq] at hmem2
      exact Or.inl hmem2
  | wrapped X addr _ _ =>
    intro hcase
    rcases hcase with h0 | h1
    · cases h0
    · cases h1

theorem cyclicStore_one_apart : cyclicStore.Apart (.Container 1) 2 := by
  have hall := fun b hc => cyclicStore_cycle_contains (.Container 1) b hc (Or.inr rfl)
  refine ⟨fun hc => ?_, ?_⟩
  · rcases hall 2 hc with h0 | h1
    · exact absurd h0 (by decide)
    · exact absurd h1 (by decide)
  · intro b md cell hb hmd hcell
    simp only [Store.writtenCell, cyclicStore, List.getElem?_cons_succ, List.getElem?_cons_zero,
      Option.some.injEq] at hcell
    have hcell2 : cell = (2, 1) := by
      simpa using hcell.symm
    subst hcell2
    intro hcov
    rcases hall b hb with h0 | h1
    · subst h0
      simp only [cyclicStore, List.getElem?_cons_zero, Option.some.injEq] at hmd
      subst hmd
      exact absurd hcov.1 (by decide)
    · subst h1
      simp only [cyclicStore, List.getElem?_cons_succ, List.getElem?_cons_zero,
        Option.some.injEq] at hmd
      subst hmd
      exact absurd hcov.1 (by decide)

/-- C18, amended: on a store whose slices lie within their arrays, `Add` on
the container at `addr` leaves its identifier and makes its children the old
ones, in their order, followed by the new node.  When the container had
children and neither they nor the new node reach it or a slice over the cell
that `append` writes, its new definition is the old one with `, `, the
rendering of the new node and `}` in place of the closing brace, and so is
the identity of an anonymous one.  Every other container is kept, and the
identity and the definition of every node that does not contain the container
at `addr`, and contains no container whose slice extends over the cell that
`append` writes in place, are unchanged.  The slices still lie within their
arrays afterwards.  On containers as values, `Add` appends the node and the
definition changes in the same way. -/
theorem Metadata.add_appends_and_frames (h : Store) (addr : Nat) (sn : StoredNode)
    (newCap : Nat) (hwf : h.WellFormed) :
    (∀ stored : StoredMetadata, h.containers[addr]? = some stored →
      ∃ s2 : Slice,
        (h.Add addr sn newCap).containers[addr]? = some ⟨stored.ID, s2⟩ ∧
        (h.Add addr sn newCap).elems s2 = h.elems stored.Nodes ++ [some sn]) ∧
    (∀ (fuel : Nat) (stored : StoredMetadata) (d id : GoString),
      h.containers[addr]? = some stored →
      h.elems stored.Nodes ≠ [] →
      (∀ c, some c ∈ h.elems stored.Nodes → h.Apart c addr) →
      h.Apart sn addr →
      Store.Def fuel h addr = some d →
      Store.Ident fuel h sn = some id →
      Store.Def fuel (h.Add addr sn newCap) addr =
        some (d.dropLast ++ str ", " ++ Store.childRendering sn id ++ str "\x7d") ∧
      (stored.ID = [] →
        Store.Ident (fuel + 1) h (.Container addr) = some d ∧
        Store.Ident (fuel + 1) (h.Add addr sn newCap) (.Container addr) =
          some (d.dropLast ++ str ", " ++ Store.childRendering sn id ++ str "\x7d"))) ∧
    (∀ other : Nat, other ≠ addr →
      (h.Add addr sn newCap).containers[other]? = h.containers[other]?) ∧
    (∀ (fuel : Nat) (c : StoredNode), h.Apart c addr →
      Store.Ident fuel (h.Add addr sn newCap) c = Store.Ident fuel h c) ∧
    (∀ (fuel other : Nat), h.Apart (.Container other) addr →
      Store.Def fuel (h.Add addr sn newCap) other = Store.Def fuel h other) ∧
    (h.Add addr sn newCap).WellFormed ∧
    (∀ (md : Metadata) (n : Node),
      (md.Add n).Nodes = md.Nodes ++ [n] ∧
      (md.Add n).ID = md.ID ∧
      (md.Nodes ≠ [] →
        (md.Add n).Def = md.Def.dropLast ++ str ", " ++ childRendering n ++ str "\x7d") ∧
      (md.Nodes ≠ [] → md.ID = [] →
        (md.Add n).Ident =
          md.Ident.dropLast ++ str ", " ++ childRendering n ++ str "\x7d")) := by
  refine ⟨fun stored hmd => Store.add_self h addr sn newCap hwf stored hmd, ?_,
    fun other hne => Store.add_containers_other h addr other sn newCap hne,
    fun fuel c hap => Store.ident_add fuel h addr sn newCap c hwf hap,
    fun fuel other hap => Store.def_add_other fuel h addr other sn newCap hwf hap,
    Store.add_wellFormed h addr sn newCap hwf, ?_⟩
  · intro fuel stored d id hmd hne hkids hsn hdef hid
    have hnew := Store.def_add_self fuel h addr sn newCap hwf stored d id hmd hne hkids hsn
      hdef hid
    refine ⟨hnew, fun hanon => ⟨?_, ?_⟩⟩
    · rw [Store.ident_anonymous fuel h addr stored hmd hanon]
      exact hdef
    · obtain ⟨s2, hc2, _⟩ := Store.add_self h addr sn newCap hwf stored hmd
      rw [Store.ident_anonymous fuel (h.Add addr sn newCap) addr ⟨stored.ID, s2⟩ hc2 hanon]
      exact hnew
  · intro md n
    refine ⟨rfl, rfl, Metadata.def_add md n, fun hne hid => ?_⟩
    have h1 : (md.Add n).Ident = (md.Add n).Def := by
      simp [Metadata.Ident, Metadata.Add, hid]
    have h2 : md.Ident = md.Def := by simp [Metadata.Ident, hid]
    rw [h1, h2, Metadata.def_add md n hne]

/-- C18 in the example stores.  Adding the string `b` to container 0 of
`exampleStore`, in place, leaves the definition `!{i32 1}` of container 1,
on another array, while container 2, which holds container 0, reads
`!{!{!"a", !"b"}}` afterwards.  In `cyclicStore` the identity `!{!3}` of
container 1, which lies on a cycle through the identified container 0, stays
when a string is added to container 2. -/
theorem Metadata.add_appends_and_frames_witness :
    exampleStore.WellFormed ∧
    Store.Def 3 (exampleStore.Add 0 (.String (str "b")) 0) 1 = some (str "!\x7bi32 1\x7d") ∧
    Store.Def 3 exampleStore 2 = some (str "!\x7b!\x7b!\"a\"\x7d\x7d") ∧
    Store.Def 3 (exampleStore.Add 0 (.String (str "b")) 0) 2 =
      some (str "!\x7b!\x7b!\"a\", !\"b\"\x7d\x7d") ∧
    Store.Ident 2 (cyclicStore.Add 2 (.String (str "t")) 0) (.Container 1) =
      some (str "!\x7b!3\x7d") :=
  ⟨exampleStore_wellFormed,
   ((Metadata.add_appends_and_frames exampleStore 0 (.String (str "b")) 0
      exampleStore_wellFormed).2.2.2.2.1 3 1 exampleStore_one_apart).trans (by decide),
   by decide, by decide,
   ((Metadata.add_appends_and_frames cyclicStore 2 (.String (str "t")) 0
      cyclicStore_wellFormed).2.2.2.1 2 (.Container 1) cyclicStore_one_apart).trans (by decide)⟩

/-! ## The idempotent terminator -/

theorem ir.Block.branch_twice (blk : ir.Block) (s s2 : Nat) :
    (blk.BranchIfNoTerminator s).BranchIfNoTerminator s2 = blk.BranchIfNoTerminator s := by
  unfold ir.Block.BranchIfNoTerminator
  cases h : blk.Term <;> simp [h]

theorem Program.updateBlock_get (prog : Program) (blk : Nat) (f : ir.Block → ir.Block)
    (i : Nat) :
    (prog.updateBlock blk f).Blocks[i]? =
      if i = blk then (prog.Blocks[i]?).map f else prog.Blocks[i]? := by
  unfold Program.updateBlock
  cases hb : prog.Blocks[blk]? with
  | none =>
    by_cases hi : i = blk
    · subst hi; simp [hb]
    · simp [hi]
  | some b =>
    by_cases hi : i = blk
    · subst hi
      have hlt : i < prog.Blocks.length := by
        by_contra hge
        rw [List.getElem?_eq_none (by omega)] at hb
        cases hb
      simp [hb, List.getElem?_set, hlt]
    · simp [hi, List.getElem?_set, Ne.symm hi]

theorem Program.updateBlock_twice (prog : Program) (blk : Nat) (f g : ir.Block → ir.Block) :
    (prog.updateBlock blk f).updateBlock blk g = prog.updateBlock blk (fun b => g (f b)) := by
  unfold Program.updateBlock
  cases hb : prog.Blocks[blk]? with
  | none => simp [hb]
  | some b =>
    have hlt : blk < prog.Blocks.length := by
      by_contra hge
      rw [List.getElem?_eq_none (by omega)] at hb
      cases hb
    simp [hb, List.getElem?_set, hlt, List.set_set]

/-- C15: the idempotent-terminator operation, applied a second time to the
block it was applied to, changes nothing, whatever the successor of the second
call; after it the block has a terminator, the branch to the successor when it
had none before; and a block that has a terminator already, such as a body
that ends in a return, is left as it is. -/
theorem BranchIfNoTerminator_idempotent (prog : Program) (addr s : Nat) :
    (∀ s2 : Nat,
      BranchIfNoTerminator (BranchIfNoTerminator prog addr s) addr s2 =
        BranchIfNoTerminator prog addr s) ∧
    (∀ blk : ir.Block, prog.Blocks[addr]? = some blk →
      ((BranchIfNoTerminator prog addr s).Blocks[addr]?
        = some (blk.BranchIfNoTerminator s)) ∧
      (blk.BranchIfNoTerminator s).Term.isSome = true ∧
      (blk.Term = none → (blk.BranchIfNoTerminator s).Term = some (.Br s)) ∧
      (∀ t, blk.Term = some t →
        blk.BranchIfNoTerminator s = blk ∧ BranchIfNoTerminator prog addr s = prog)) ∧
    (∀ other : Nat, other ≠ addr →
      (BranchIfNoTerminator prog addr s).Blocks[other]? = prog.Blocks[other]?) := by
  refine ⟨fun s2 => ?_, fun blk hblk => ⟨?_, ?_, ?_, ?_⟩, fun other hne => ?_⟩
  · unfold BranchIfNoTerminator
    rw [Program.updateBlock_twice]
    simp only [ir.Block.branch_twice]
  · unfold BranchIfNoTerminator
    rw [Program.updateBlock_get]
    simp [hblk]
  · unfold ir.Block.BranchIfNoTerminator
    cases h : blk.Term <;> simp [h]
  · intro h
    simp [ir.Block.BranchIfNoTerminator, h]
  · intro t ht
    have hsame : blk.BranchIfNoTerminator s = blk := by
      simp [ir.Block.BranchIfNoTerminator, ht]
    refine ⟨hsame, ?_⟩
    unfold BranchIfNoTerminator Program.updateBlock
    simp only [hblk, hsame]
    have hset : prog.Blocks.set addr blk = prog.Blocks := by
      apply List.ext_getElem?
      intro i
      rw [List.getElem?_set]
      by_cases hi : addr = i
      · subst hi
        simp [hblk]
        by_contra hge
        rw [List.getElem?_eq_none (by omega)] at hblk
        cases hblk
      · simp [hi]
    rw [hset]
  · unfold BranchIfNoTerminator
    rw [Program.updateBlock_get]
    simp [hne]

/-- C15 at a block without terminator and at a block that ends in a return:
two calls leave the one branch of the first call, and the return stays. -/
theorem BranchIfNoTerminator_idempotent_witness :
    BranchIfNoTerminator (BranchIfNoTerminator exampleProgram 0 7) 0 7 =
      BranchIfNoTerminator exampleProgram 0 7 ∧
    (BranchIfNoTerminator exampleProgram 0 7).Blocks =
      [{ Name := "entry", Insts := [], Term := some (.Br 7) }] ∧
    (ir.Block.mk "body" [] (some (.Ret .Nil))).BranchIfNoTerminator 7 =
      ir.Block.mk "body" [] (some (.Ret .Nil)) :=
  ⟨(BranchIfNoTerminator_idempotent exampleProgram 0 7).1 7, by decide,
   ((BranchIfNoTerminator_idempotent
      { exampleProgram with Blocks := [ir.Block.mk "body" [] (some (.Ret .Nil))] } 0 7).2.1
      (ir.Block.mk "body" [] (some (.Ret .Nil))) rfl).2.2.2 (.Ret .Nil) rfl |>.1⟩

/-! ## The names of the blocks of a loop -/

theorem upperHexDigit_value (d : Fin 16) :
    upperHexValue (upperHexDigit d.val) = d.val ∧
    upperHexDigit d.val ≠ '_' ∧ upperHexDigit d.val ≠ '-' := by
  revert d
  decide

theorem decodeUpperHex_concat (ds : List Char) (c : Char) :
    decodeUpperHex (ds ++ [c]) = 16 * decodeUpperHex ds + upperHexValue c := by
  simp [decodeUpperHex, List.foldl_append]

theorem upperHexCore_spec (fuel : Nat) :
    ∀ (n : Nat) (acc : List Char), n < fuel →
      ∃ ds : List Char, upperHexCore fuel n acc = ds ++ acc ∧ ds ≠ [] ∧
        decodeUpperHex ds = n ∧ ∀ c ∈ ds, c ≠ '_' ∧ c ≠ '-' := by
  induction fuel with
  | zero => intro n acc h; omega
  | succ f ih =>
    intro n acc hn
    have hlo : n % 16 < 16 := Nat.mod_lt _ (by decide)
    have hd := upperHexDigit_value ⟨n % 16, hlo⟩
    simp only [] at hd
    rw [upperHexCore]
    by_cases hz : n / 16 = 0
    · refine ⟨[upperHexDigit (n % 16)], by simp [hz], by simp, ?_, ?_⟩
      · simp only [decodeUpperHex, List.foldl_cons, List.foldl_nil, hd.1]
        omega
      · intro c hc
        rw [List.mem_singleton.mp hc]
        exact hd.2
    · have hsmall : n / 16 < f := by omega
      obtain ⟨ds, hds, _, hdec, hchars⟩ := ih (n / 16) (upperHexDigit (n % 16) :: acc) hsmall
      refine ⟨ds ++ [upperHexDigit (n % 16)], by simp [hz, hds], by simp, ?_, ?_⟩
      · rw [decodeUpperHex_concat, hdec, hd.1]
        omega
      · intro c hc
        rcases List.mem_append.mp hc with h | h
        · exact hchars c h
        · rw [List.mem_singleton.mp h]
          exact hd.2

theorem upperHexNat_spec (n : Nat) :
    upperHexNat n ≠ [] ∧ decodeUpperHex (upperHexNat n) = n ∧
    ∀ c ∈ upperHexNat n, c ≠ '_' ∧ c ≠ '-' := by
  obtain ⟨ds, hds, hne, hdec, hchars⟩ := upperHexCore_spec (n + 1) n [] (by omega)
  have h : upperHexNat n = ds := by simp [upperHexNat, hds]
  rw [h]
  exact ⟨hne, hdec, hchars⟩

theorem formatUpperHex_injective (i j : Int)
    (h : (formatUpperHex i).data = (formatUpperHex j).data) : i = j := by
  obtain ⟨hine, hidec, hichars⟩ := upperHexNat_spec i.natAbs
  obtain ⟨hjne, hjdec, hjchars⟩ := upperHexNat_spec j.natAbs
  have hhead : ∀ (n : Nat) (tl : List Char), upperHexNat n ≠ '-' :: tl := by
    intro n tl heq
    have := (upperHexNat_spec n).2.2 '-' (by rw [heq]; simp)
    exact this.2 rfl
  unfold formatUpperHex at h
  by_cases hi : i < 0 <;> by_cases hj : j < 0 <;>
    simp only [hi, hj, if_true, if_false, List.cons.injEq, true_and] at h
  · have hab : i.natAbs = j.natAbs := by rw [← hidec, ← hjdec, h]
    omega
  · exact absurd h.symm (hhead _ _)
  · exact absurd h (hhead _ _)
  · have hab : i.natAbs = j.natAbs := by rw [← hidec, ← hjdec, h]
    omega

theorem formatUpperHex_no_underscore (i : Int) : '_' ∉ (formatUpperHex i).data := by
  intro hmem
  unfold formatUpperHex at hmem
  by_cases hi : i < 0
  · simp only [hi, if_true, List.mem_cons] at hmem
    rcases hmem with h | h
    · revert h; decide
    · exact ((upperHexNat_spec i.natAbs).2.2 '_' h).1 rfl
  · simp only [hi, if_false] at hmem
    exact ((upperHexNat_spec i.natAbs).2.2 '_' hmem).1 rfl

theorem split_at_first {α : Type} (c : α) :
    ∀ (a b x y : List α), c ∉ a → c ∉ b → a ++ c :: x = b ++ c :: y → a = b ∧ x = y := by
  intro a
  induction a with
  | nil =>
    intro b x y _ hb h
    cases b with
    | nil => simpa using h
    | cons b0 bs =>
      simp only [List.nil_append, List.cons_append, List.cons.injEq] at h
      exact absurd (by rw [h.1]; simp) hb
  | cons a0 as ih =>
    intro b x y ha hb h
    cases b with
    | nil =>
      simp only [List.nil_append, List.cons_append, List.cons.injEq] at h
      exact absurd (by rw [← h.1]; simp) ha
    | cons b0 bs =>
      simp only [List.cons_append, List.cons.injEq] at h
      have hrec := ih bs x y (fun hm => ha (List.mem_cons_of_mem _ hm))
        (fun hm => hb (List.mem_cons_of_mem _ hm)) h.2
      exact ⟨by rw [h.1, hrec.1], hrec.2⟩

theorem loopBlockName_injective (i j : Int) (s1 s2 : String)
    (h : loopBlockName i s1 = loopBlockName j s2) : i = j ∧ s1 = s2 := by
  have hdata := congrArg String.data h
  simp only [loopBlockName, String.data_append, List.append_assoc] at hdata
  simp only [List.singleton_append, List.cons.injEq, true_and] at hdata
  obtain ⟨h1, h2⟩ := split_at_first '_' _ _ _ _ (formatUpperHex_no_underscore i)
    (formatUpperHex_no_underscore j) hdata
  exact ⟨formatUpperHex_injective i j h1, String.ext h2⟩

theorem loopBlockNames_eq_map (i : Int) :
    loopBlockNames i = ["cond", "body", "step", "end"].map (loopBlockName i) := rfl

theorem loopBlockNames_nodup (i : Int) : (loopBlockNames i).Nodup := by
  rw [loopBlockNames_eq_map]
  apply List.Nodup.map
  · intro s1 s2 h
    exact (loopBlockName_injective i i s1 s2 h).2
  · decide

/-- C17: for two different loop indexes the four block names of the one loop
(`F`, the upper-case hexadecimal digits of the index, `_`, then `cond`,
`body`, `step` or `end`) and the four of the other are eight different names;
these are the names that `Codegen` gives its blocks. -/
theorem loopBlockNames_distinct (i j : Int) (h : i ≠ j) :
    (loopBlockNames i).Nodup ∧
    (loopBlockNames j).Nodup ∧
    (∀ x ∈ loopBlockNames i, x ∉ loopBlockNames j) ∧
    (loopBlockNames i ++ loopBlockNames j).Nodup ∧
    (∀ n : ForNode, n.Index = i →
      loopBlockNames i =
        [ n.namePrefix ++ "cond", n.namePrefix ++ "body", n.namePrefix ++ "step",
          n.namePrefix ++ "end"]) := by
  have hdisj : ∀ x ∈ loopBlockNames i, x ∉ loopBlockNames j := by
    intro x hx hxj
    rw [loopBlockNames_eq_map, List.mem_map] at hx hxj
    obtain ⟨s1, _, h1⟩ := hx
    obtain ⟨s2, _, h2⟩ := hxj
    exact h (loopBlockName_injective i j s1 s2 (h1.trans h2.symm)).1
  refine ⟨loopBlockNames_nodup i, loopBlockNames_nodup j, hdisj, ?_, ?_⟩
  · exact List.nodup_append.mpr ⟨loopBlockNames_nodup i, loopBlockNames_nodup j,
      fun x hx hxj => hdisj x hx hxj⟩
  · intro n hn
    subst hn
    rfl

/-- C17 at the indexes 5 and 10: the names are `F5_cond` to `F5_end` and
`FA_cond` to `FA_end`. -/
theorem loopBlockNames_distinct_witness :
    loopBlockNames 5 = ["F5_cond", "F5_body", "F5_step", "F5_end"] ∧
    loopBlockNames 10 = ["FA_cond", "FA_body", "FA_step", "FA_end"] ∧
    (loopBlockNames 5 ++ loopBlockNames 10).Nodup :=
  ⟨by decide, by decide, (loopBlockNames_distinct 5 10 (by decide)).2.2.2.1⟩

/-! ## Function definitions in `AST.go` -/

theorem act.parseFnDefn_missing_arrow (p : act.Parser)
    (hparen : p.next.next.token.Kind ≠ .LEFT_PAREN)
    (harrow : p.next.next.token.Kind ≠ .ACTARROW) :
    p.parseFnDefn =
      .fatal "Token Error: Syntax Error, function %s missing \x27->\x27\n"
        [p.next.token.Value] := by
  simp [act.Parser.parseFnDefn, hparen, harrow, act.Error]

theorem act.parseFnDefn_type_without_name (p : act.Parser)
    (hparen : p.next.next.token.Kind = .LEFT_PAREN)
    (htype : p.next.next.next.token.Kind = .TYPE)
    (hname : p.next.next.next.next.token.Kind ≠ .IDENTIFIER) :
    p.parseFnDefn =
      .fatal "Token Error: Syntax error, invalid parameters to function %s\n"
        [p.next.token.Value] := by
  simp [act.Parser.parseFnDefn, hparen, act.paramLoop, htype, hname, act.Error]

/-- C16 at `func f ( x ) -> { }`, whose parameter list holds an identifier
without a type: `parseFnDefn` skips the entry and returns the function node
`f` without parameters, and no fatal error. -/
theorem act.parseFnDefn_untyped_parameter :
    (act.Parser.mk act.untypedParameter ⟨.ACT_DEFN, "func"⟩).parseFnDefn =
      .ok ({ name := "f", args := [], body := {} },
           { tokens := [], token := act.Token.zero }) ∧
    (act.Parser.mk act.typeWithoutName ⟨.ACT_DEFN, "func"⟩).parseFnDefn =
      .fatal "Token Error: Syntax error, invalid parameters to function %s\n" ["f"] := by
  decide

/-! ## Errors and scopes on the exits of `Codegen` -/

/-- C13 at the example loop with an initializer, or a condition, whose
lowering returns an error: `Codegen` goes on and returns the end block and no
error, as it does when they lower without error; an error of the body, of the
step or of the cast is returned. -/
theorem ForNode.codegen_drops_init_error :
    exampleLoop.Codegen TypeCast.succeeding exampleProgram =
      .returned (.BlockRef 4) none exampleLowered ∧
    ({ exampleLoop with Init := Lowering.failing "init" }).Codegen TypeCast.succeeding
      exampleProgram = .returned (.BlockRef 4) none exampleLowered ∧
    ({ exampleLoop with Cond := Lowering.failing "cond" }).Codegen TypeCast.succeeding
      exampleProgram = .returned (.BlockRef 4) none exampleLowered ∧
    ({ exampleLoop with Body := Lowering.failing "body" }).Codegen TypeCast.succeeding
      exampleProgram =
        .returned .Nil (some "body") (exampleAborted
          [{ Name := "entry", Insts := [], Term := some (.Br 1) },
           { Name := "F5_cond", Insts := [], Term := none },
           { Name := "F5_body", Insts := [], Term := none },
           { Name := "F5_step", Insts := [], Term := none }]) := by
  decide

/-- C14 at the example loop with a cast that fails, and with a body that
fails: `Codegen` returns the error while the frame that it pushed at entry is
still the active scope (scope 1, not scope 0 as at the call); without error it
returns with scope 0 active. -/
theorem ForNode.codegen_error_leaves_scope :
    exampleProgram.Scope = 0 ∧
    exampleLoop.Codegen TypeCast.failing exampleProgram =
      .returned .Nil (some "invalid cast") (exampleAborted
        [{ Name := "entry", Insts := [], Term := some (.Br 1) },
         { Name := "F5_cond", Insts := [], Term := none }]) ∧
    (exampleAborted
        [{ Name := "entry", Insts := [], Term := some (.Br 1) },
         { Name := "F5_cond", Insts := [], Term := none }]).Scope = 1 ∧
    ({ exampleLoop with Body := Lowering.failing "body" }).Codegen TypeCast.succeeding
      exampleProgram =
        .returned .Nil (some "body") (exampleAborted
          [{ Name := "entry", Insts := [], Term := some (.Br 1) },
           { Name := "F5_cond", Insts := [], Term := none },
           { Name := "F5_body", Insts := [], Term := none },
           { Name := "F5_step", Insts := [], Term := none }]) ∧
    exampleLowered.Scope = 0 := by
  decide

/-! ## Blocks and scopes that are kept -/

theorem Program.BlocksKept.refl (s : Program) : Program.BlocksKept s s :=
  ⟨List.prefix_refl _, fun _ h => h⟩

theorem Program.BlocksKept.trans {a b c : Program} (h1 : Program.BlocksKept a b)
    (h2 : Program.BlocksKept b c) : Program.BlocksKept a c :=
  ⟨h1.1.trans h2.1, fun i h => h2.2 i (h1.2 i h)⟩

theorem Program.BlocksKept.of_blocks_eq {a b : Program} (h : b.Blocks = a.Blocks) :
    Program.BlocksKept a b := by
  refine ⟨by simp [Program.names, h], fun i hi => ?_⟩
  simpa [Program.termAt, h] using hi

theorem Program.ScopesKept.scopes_refl (s : Program) : Program.ScopesKept s s :=
  ⟨rfl, fun _ f h => ⟨f, h, rfl⟩⟩

theorem Program.ScopesKept.scopes_trans {a b c : Program} (h1 : Program.ScopesKept a b)
    (h2 : Program.ScopesKept b c) : Program.ScopesKept a c := by
  refine ⟨h2.1.trans h1.1, fun i f hf => ?_⟩
  obtain ⟨f2, hf2, hp2⟩ := h1.2 i f hf
  obtain ⟨f3, hf3, hp3⟩ := h2.2 i f2 hf2
  exact ⟨f3, hf3, hp3.trans hp2⟩

theorem Program.ScopesKept.of_scopes_eq {a b : Program} (h1 : b.Scopes = a.Scopes)
    (h2 : b.Scope = a.Scope) : Program.ScopesKept a b :=
  ⟨h2, fun i f hf => ⟨f, by rw [h1]; exact hf, rfl⟩⟩

theorem Program.BlocksKept.length_le {a b : Program} (h : Program.BlocksKept a b) :
    a.Blocks.length ≤ b.Blocks.length := by
  have := h.1.length_le
  simpa [Program.names] using this

theorem Program.BlocksKept.nameAt {a b : Program} (h : Program.BlocksKept a b) (i : Nat)
    (name : String) (hn : a.nameAt i = some name) : b.nameAt i = some name := by
  obtain ⟨extra, hextra⟩ := h.1
  have ha : a.names[i]? = some name := by
    simpa [Program.names, Program.nameAt, List.getElem?_map] using hn
  have hlt : i < a.names.length := by
    by_contra hge
    rw [List.getElem?_eq_none (by omega)] at ha
    cases ha
  have hb : b.names[i]? = some name := by
    rw [← hextra, List.getElem?_append_left hlt]
    exact ha
  simpa [Program.names, Program.nameAt, List.getElem?_map] using hb

theorem Program.newBlock_names (s : Program) (name : String) :
    (s.NewBlock name).2.names = s.names ++ [name] ∧
    (s.NewBlock name).1 = s.Blocks.length ∧
    (s.NewBlock name).2.Blocks.length = s.Blocks.length + 1 ∧
    (s.NewBlock name).2.nameAt s.Blocks.length = some name ∧
    (s.NewBlock name).2.termAt s.Blocks.length = none ∧
    (s.NewBlock name).2.Scopes = s.Scopes ∧
    (s.NewBlock name).2.Scope = s.Scope ∧
    (s.NewBlock name).2.blockStack = s.blockStack := by
  simp [Program.NewBlock, Program.names, Program.nameAt, Program.termAt]

theorem Program.newBlock_kept (s : Program) (name : String) :
    Program.BlocksKept s (s.NewBlock name).2 ∧ Program.ScopesKept s (s.NewBlock name).2 := by
  refine ⟨⟨?_, fun i hi => ?_⟩, Program.ScopesKept.of_scopes_eq rfl rfl⟩
  · rw [(Program.newBlock_names s name).1]
    exact List.prefix_append _ _
  · have hlt : i < s.Blocks.length := by
      by_contra hge
      simp [Program.termAt, List.getElem?_eq_none (show s.Blocks.length ≤ i by omega)] at hi
    simpa [Program.NewBlock, Program.termAt, List.getElem?_append_left hlt] using hi

theorem Program.updateBlock_termAt (s : Program) (blk : Nat) (f : ir.Block → ir.Block)
    (i : Nat) :
    (s.updateBlock blk f).termAt i =
      if i = blk then (s.Blocks[i]?).bind (fun b => (f b).Term) else s.termAt i := by
  unfold Program.termAt
  rw [Program.updateBlock_get]
  by_cases hi : i = blk
  · simp only [hi, if_true]
    cases s.Blocks[blk]? <;> rfl
  · simp [hi]

theorem Program.updateBlock_fields (s : Program) (blk : Nat) (f : ir.Block → ir.Block) :
    (s.updateBlock blk f).Scopes = s.Scopes ∧
    (s.updateBlock blk f).Scope = s.Scope ∧
    (s.updateBlock blk f).blockStack = s.blockStack ∧
    (s.updateBlock blk f).Blocks.length = s.Blocks.length := by
  unfold Program.updateBlock
  cases s.Blocks[blk]? <;> simp

theorem Program.updateBlock_names (s : Program) (blk : Nat) (f : ir.Block → ir.Block)
    (hname : ∀ b, (f b).Name = b.Name) : (s.updateBlock blk f).names = s.names := by
  apply List.ext_getElem?
  intro i
  simp only [Program.names, List.getElem?_map, Program.updateBlock_get]
  by_cases hi : i = blk
  · simp only [hi, if_true]
    cases s.Blocks[blk]? <;> simp [hname]
  · simp [hi]

theorem Program.updateBlock_kept (s : Program) (blk : Nat) (f : ir.Block → ir.Block)
    (hname : ∀ b, (f b).Name = b.Name)
    (hterm : ∀ b, b.Term.isSome = true → (f b).Term.isSome = true) :
    Program.BlocksKept s (s.updateBlock blk f) ∧ Program.ScopesKept s (s.updateBlock blk f) := by
  refine ⟨⟨?_, fun i hi => ?_⟩, Program.ScopesKept.of_scopes_eq
    (Program.updateBlock_fields s blk f).1 (Program.updateBlock_fields s blk f).2.1⟩
  · rw [Program.updateBlock_names s blk f hname]
  · rw [Program.updateBlock_termAt]
    by_cases hib : i = blk
    · simp only [hib, if_true]
      rw [hib] at hi
      unfold Program.termAt at hi
      cases hb : s.Blocks[blk]? with
      | none => simp [hb] at hi
      | some b =>
        simp only [hb, Option.some_bind] at hi ⊢
        exact hterm b hi
    · simpa [hib] using hi

/-! ## The writes of `Codegen` to blocks -/

theorem Program.BlocksKept.congr_right {a b c : Program} (h : Program.BlocksKept a b)
    (hc : c.Blocks = b.Blocks) : Program.BlocksKept a c :=
  h.trans (Program.BlocksKept.of_blocks_eq hc)

theorem Program.ScopesKept.scopes_congr {a b c : Program} (h : Program.ScopesKept a b)
    (h1 : c.Scopes = b.Scopes) (h2 : c.Scope = b.Scope) : Program.ScopesKept a c :=
  h.scopes_trans (Program.ScopesKept.of_scopes_eq h1 h2)

theorem branchIfNoTerminator_kept (s : Program) (blk target : Nat) :
    Program.BlocksKept s (BranchIfNoTerminator s blk target) ∧
    Program.ScopesKept s (BranchIfNoTerminator s blk target) := by
  apply Program.updateBlock_kept
  · intro b
    unfold ir.Block.BranchIfNoTerminator
    split <;> rfl
  · intro b hb
    unfold ir.Block.BranchIfNoTerminator
    split
    · rfl
    · exact hb

theorem branchIfNoTerminator_terminated (s : Program) (blk target : Nat)
    (hlt : blk < s.Blocks.length) :
    ((BranchIfNoTerminator s blk target).termAt blk).isSome = true := by
  unfold BranchIfNoTerminator
  rw [Program.updateBlock_termAt]
  simp only [if_true]
  rw [List.getElem?_eq_getElem hlt]
  simp only [Option.some_bind]
  unfold ir.Block.BranchIfNoTerminator
  cases h : (s.Blocks[blk]).Term <;> simp [h]

theorem newBr_kept (s : Program) (blk target : Nat) :
    Program.BlocksKept s (s.NewBr blk target) ∧ Program.ScopesKept s (s.NewBr blk target) :=
  Program.updateBlock_kept s blk _ (fun _ => rfl) (fun _ _ => rfl)

theorem newCondBr_kept (s : Program) (blk : Nat) (cond : ir.Value) (t f : Nat) :
    Program.BlocksKept s (s.NewCondBr blk cond t f) ∧
    Program.ScopesKept s (s.NewCondBr blk cond t f) :=
  Program.updateBlock_kept s blk _ (fun _ => rfl) (fun _ _ => rfl)

theorem newCondBr_termAt (s : Program) (blk : Nat) (cond : ir.Value) (t f i : Nat)
    (hlt : blk < s.Blocks.length) :
    (s.NewCondBr blk cond t f).termAt i =
      if i = blk then some (.CondBr cond t f) else s.termAt i := by
  unfold Program.NewCondBr
  rw [Program.updateBlock_termAt]
  by_cases hi : i = blk
  · subst hi
    simp [List.getElem?_eq_getElem hlt]
  · simp [hi]

theorem genInBlock_fields {β : Type} (s : Program) (blk : Nat) (fn : Program → β × Program) :
    (s.genInBlock blk fn).1 = (fn (s.PushBlock blk)).1 ∧
    (s.genInBlock blk fn).2.Blocks = (fn (s.PushBlock blk)).2.Blocks ∧
    (s.genInBlock blk fn).2.Scopes = (fn (s.PushBlock blk)).2.Scopes ∧
    (s.genInBlock blk fn).2.Scope = (fn (s.PushBlock blk)).2.Scope ∧
    (s.genInBlock blk fn).2.blockStack = s.blockStack :=
  ⟨rfl, rfl, rfl, rfl, rfl⟩

theorem genInBlock_kept {β : Type} (s : Program) (blk : Nat) (fn : Program → β × Program)
    (h : ∀ x, Program.BlocksKept x (fn x).2 ∧ Program.ScopesKept x (fn x).2) :
    Program.BlocksKept s (s.genInBlock blk fn).2 ∧
    Program.ScopesKept s (s.genInBlock blk fn).2 := by
  have hp := h (s.PushBlock blk)
  have hb : Program.BlocksKept s (s.PushBlock blk) := Program.BlocksKept.of_blocks_eq rfl
  have hs : Program.ScopesKept s (s.PushBlock blk) := Program.ScopesKept.of_scopes_eq rfl rfl
  exact ⟨(hb.trans hp.1).congr_right rfl, (hs.scopes_trans hp.2).scopes_congr rfl rfl⟩

theorem ForNode.condClosure_fields (cast : TypeCast) (n : ForNode) (s : Program) :
    (n.condClosure cast s).2 = (cast (n.Cond s).2 (n.Cond s).1.1 types.I1).2 ∧
    (n.condClosure cast s).1.1 = (cast (n.Cond s).2 (n.Cond s).1.1 types.I1).1.2 ∧
    ((n.condClosure cast s).1.1 = none →
      (n.condClosure cast s).1.2 = (cast (n.Cond s).2 (n.Cond s).1.1 types.I1).1.1) := by
  unfold ForNode.condClosure
  cases h : (cast (n.Cond s).2 (n.Cond s).1.1 types.I1).1.2 <;> simp [h]

theorem ForNode.condClosure_kept (cast : TypeCast) (n : ForNode) (hCond : n.Cond.Keeps)
    (hCast : cast.Keeps) (s : Program) :
    Program.BlocksKept s (n.condClosure cast s).2 ∧
    Program.ScopesKept s (n.condClosure cast s).2 := by
  rw [(ForNode.condClosure_fields cast n s).1]
  have h1 := hCond s
  have h2 := hCast (n.Cond s).2 (n.Cond s).1.1 types.I1
  exact ⟨h1.1.trans h2.1, h1.2.scopes_trans h2.2⟩

theorem ForNode.stepClosure_kept (n : ForNode) (hStep : n.Step.Keeps) (s : Program) :
    Program.BlocksKept s (n.stepClosure s).2 ∧ Program.ScopesKept s (n.stepClosure s).2 := by
  have h := hStep s
  exact ⟨h.1.congr_right rfl, ⟨rfl, h.2.2⟩⟩

theorem ForNode.bodyClosure_kept (n : ForNode) (hBody : n.Body.Keeps) (bodyBlk stepBlk : Nat)
    (s : Program) :
    Program.BlocksKept s (n.bodyClosure bodyBlk stepBlk s).2 ∧
    Program.ScopesKept s (n.bodyClosure bodyBlk stepBlk s).2 ∧
    ((n.bodyClosure bodyBlk stepBlk s).1 = .done none → bodyBlk < s.Blocks.length →
      ((n.bodyClosure bodyBlk stepBlk s).2.termAt bodyBlk).isSome = true) := by
  have h := hBody s
  rcases hb : n.Body s with ⟨⟨gen, err⟩, s1⟩
  rw [hb] at h
  simp only at h
  have hscoped : Program.BlocksKept s { s1 with Scope := s.Scope } ∧
      Program.ScopesKept s { s1 with Scope := s.Scope } :=
    ⟨h.1.congr_right rfl, ⟨rfl, h.2.2⟩⟩
  cases err with
  | some e =>
    simp only [ForNode.bodyClosure, hb]
    exact ⟨h.1, h.2, fun hx => by cases hx⟩
  | none =>
    cases gen with
    | Nil =>
      simp only [ForNode.bodyClosure, hb]
      exact ⟨hscoped.1, hscoped.2, fun hx => by cases hx⟩
    | Named x =>
      simp only [ForNode.bodyClosure, hb]
      exact ⟨hscoped.1, hscoped.2, fun hx => by cases hx⟩
    | BlockRef g =>
      simp only [ForNode.bodyClosure, hb]
      have k1 := branchIfNoTerminator_kept { s1 with Scope := s.Scope } g stepBlk
      have k2 := branchIfNoTerminator_kept
        (BranchIfNoTerminator { s1 with Scope := s.Scope } g stepBlk) bodyBlk stepBlk
      refine ⟨(hscoped.1.trans k1.1).trans k2.1, (hscoped.2.scopes_trans k1.2).scopes_trans k2.2,
        fun _ hlt => ?_⟩
      apply branchIfNoTerminator_terminated
      have := (hscoped.1.trans k1.1).length_le
      omega

theorem Program.termAt_congr {a b : Program} (h : b.Blocks = a.Blocks) (i : Nat) :
    b.termAt i = a.termAt i := by
  simp [Program.termAt, h]

theorem Program.scopeUp_fields (s : Program) :
    (s.ScopeUp).2.Blocks = s.Blocks ∧ (s.ScopeUp).2.blockStack = s.blockStack ∧
    ((s.ScopeUp).1 = none →
      ∃ f : ScopeFrame, s.Scopes[s.Scope]? = some f ∧ f.Parent = some (s.ScopeUp).2.Scope) ∧
    (∀ f : ScopeFrame, ∀ parent : Nat, s.Scopes[s.Scope]? = some f → f.Parent = some parent →
      s.ScopeUp = (none, { s with Scope := parent })) := by
  unfold Program.ScopeUp
  cases hf : s.Scopes[s.Scope]? with
  | none => simp
  | some f =>
    cases hp : f.Parent with
    | none =>
      simp [hp]
      intro f1 parent h1 h2
      subst h1
      rw [hp] at h2
      cases h2
    | some p =>
      simp [hp]
      intro f1 parent h1 h2
      subst h1
      rw [hp] at h2
      exact Option.some.inj h2

theorem Program.names_eq_of_length {a b : Program} (h : Program.BlocksKept a b)
    (hlen : b.Blocks.length = a.Blocks.length) : b.names = a.names := by
  have hl : a.names.length = b.names.length := by simp [Program.names, hlen]
  exact (List.IsPrefix.eq_of_length h.1 hl).symm

theorem Program.scopeDown_frame (s : Program) (token : String) :
    (s.ScopeDown token).Blocks = s.Blocks ∧
    (s.ScopeDown token).blockStack = s.blockStack ∧
    (s.ScopeDown token).Scopes[(s.ScopeDown token).Scope]? =
      some { Parent := some s.Scope, Tag := token, Vars := [] } := by
  simp [Program.ScopeDown]

/-! ## A lowering of a loop that returns without error -/

theorem ForNode.condClosure_length (cast : TypeCast) (n : ForNode) (s : Program)
    (hCond : n.Cond.AddsNoBlock) (hCast : cast.AddsNoBlock) :
    (n.condClosure cast s).2.Blocks.length = s.Blocks.length := by
  rw [(ForNode.condClosure_fields cast n s).1, hCast, hCond]

theorem branchIfNoTerminator_length (s : Program) (blk target : Nat) :
    (BranchIfNoTerminator s blk target).Blocks.length = s.Blocks.length :=
  (Program.updateBlock_fields s blk _).2.2.2

theorem ForNode.bodyClosure_length (n : ForNode) (bodyBlk stepBlk : Nat) (s : Program)
    (hBody : n.Body.AddsNoBlock) :
    (n.bodyClosure bodyBlk stepBlk s).2.Blocks.length = s.Blocks.length := by
  have h := hBody s
  rcases hb : n.Body s with ⟨⟨gen, err⟩, s1⟩
  rw [hb] at h
  simp only at h
  cases err with
  | some e => simpa [ForNode.bodyClosure, hb] using h
  | none =>
    cases gen with
    | Nil => simpa [ForNode.bodyClosure, hb] using h
    | Named x => simpa [ForNode.bodyClosure, hb] using h
    | BlockRef g =>
      simp only [ForNode.bodyClosure, hb, branchIfNoTerminator_length]
      exact h

theorem ForNode.stepClosure_length (n : ForNode) (s : Program) (hStep : n.Step.AddsNoBlock) :
    (n.stepClosure s).2.Blocks.length = s.Blocks.length := hStep s

theorem ForNode.codegen_returned (cast : TypeCast) (n : ForNode) (prog : Program)
    (v : ir.Value) (final : Program)
    (hInit : n.Init.Keeps) (hCond : n.Cond.Keeps) (hCast : cast.Keeps)
    (hBody : n.Body.Keeps) (hStep : n.Step.Keeps)
    (hrun : n.Codegen cast prog = .returned v none final) :
    ∃ (condBlk bodyBlk stepBlk endBlk : Nat) (predicate : ir.Value),
      ForNode.Lowers cast n prog final v condBlk bodyBlk stepBlk endBlk predicate := by
  cases hcur : prog.CurrentBlock with
  | none => simp [ForNode.Codegen, hcur] at hrun
  | some parent =>
    unfold ForNode.Codegen at hrun
    simp only [hcur] at hrun
    split at hrun
    · cases hrun
    · next e1 pred s5 h5 =>
      split at hrun
      · cases hrun
      · cases hrun
      · next s8 h8 =>
        split at hrun
        · cases hrun
        · next s9 h9 =>
          split at hrun
          · cases hrun
          · next s14 h14 =>
            simp only [Lowered.returned.injEq, true_and] at hrun
            obtain ⟨hv, hfinal⟩ := hrun
            subst hfinal
            -- entry
            have D1 := Program.scopeDown_frame prog n.Token
            set s1 := prog.ScopeDown n.Token with hs1
            have N2 := Program.newBlock_names s1 ( n.namePrefix ++ "cond")
            have K2 := Program.newBlock_kept s1 ( n.namePrefix ++ "cond")
            set r2 := s1.NewBlock ( n.namePrefix ++ "cond") with hr2
            have K3 := hInit r2.2
            set s3 := (n.Init r2.2).2 with hs3
            have K4 := newBr_kept s3 parent r2.1
            set s4 := s3.NewBr parent r2.1 with hs4
            -- cond
            have K5 := genInBlock_kept s4 r2.1 (n.condClosure cast)
              (ForNode.condClosure_kept cast n hCond hCast)
            have C5 := ForNode.condClosure_fields cast n (s4.PushBlock r2.1)
            have L5 : n.Cond.AddsNoBlock → cast.AddsNoBlock →
                (s4.genInBlock r2.1 (n.condClosure cast)).2.Blocks.length = s4.Blocks.length :=
              fun a b => ForNode.condClosure_length cast n (s4.PushBlock r2.1) a b
            have G5 := genInBlock_fields s4 r2.1 (n.condClosure cast)
            rw [h5] at K5 G5 L5
            simp only at K5 G5 L5
            -- body
            have N6 := Program.newBlock_names s5 ( n.namePrefix ++ "body")
            have K6 := Program.newBlock_kept s5 ( n.namePrefix ++ "body")
            set r6 := s5.NewBlock ( n.namePrefix ++ "body") with hr6
            have N7 := Program.newBlock_names r6.2 ( n.namePrefix ++ "step")
            have K7 := Program.newBlock_kept r6.2 ( n.namePrefix ++ "step")
            set r7 := r6.2.NewBlock ( n.namePrefix ++ "step") with hr7
            have K8 := genInBlock_kept r7.2 r6.1 (n.bodyClosure r6.1 r7.1)
              (fun x => ⟨(ForNode.bodyClosure_kept n hBody r6.1 r7.1 x).1,
                (ForNode.bodyClosure_kept n hBody r6.1 r7.1 x).2.1⟩)
            have T8 := (ForNode.bodyClosure_kept n hBody r6.1 r7.1 (r7.2.PushBlock r6.1)).2.2
            have L8 : n.Body.AddsNoBlock →
                (r7.2.genInBlock r6.1 (n.bodyClosure r6.1 r7.1)).2.Blocks.length
                  = r7.2.Blocks.length :=
              fun a => ForNode.bodyClosure_length n r6.1 r7.1 (r7.2.PushBlock r6.1) a
            have G8 := genInBlock_fields r7.2 r6.1 (n.bodyClosure r6.1 r7.1)
            rw [h8] at K8 G8 L8
            simp only at K8 G8 L8
            -- step
            have K9 := genInBlock_kept s8 r7.1 n.stepClosure (ForNode.stepClosure_kept n hStep)
            have L9 : n.Step.AddsNoBlock →
                (s8.genInBlock r7.1 n.stepClosure).2.Blocks.length = s8.Blocks.length :=
              fun a => ForNode.stepClosure_length n (s8.PushBlock r7.1) a
            rw [h9] at K9 L9
            simp only at K9 L9
            -- exit
            have K10 := branchIfNoTerminator_kept s9 r7.1 r2.1
            have L10 := branchIfNoTerminator_length s9 r7.1 r2.1
            set s10 := BranchIfNoTerminator s9 r7.1 r2.1 with hs10
            have N11 := Program.newBlock_names s10 ( n.namePrefix ++ "end")
            have K11 := Program.newBlock_kept s10 ( n.namePrefix ++ "end")
            set r11 := s10.NewBlock ( n.namePrefix ++ "end") with hr11
            set s12 := r11.2.PushBlock r11.1 with hs12
            have K13 := newCondBr_kept s12 r2.1 pred r6.1 r11.1
            set s13 := s12.NewCondBr r2.1 pred r6.1 r11.1 with hs13
            have U14 := Program.scopeUp_fields s13
            rw [h14] at U14
            simp only at U14
            -- what is kept from each state to the last
            have B12 : Program.BlocksKept r11.2 s12 := Program.BlocksKept.of_blocks_eq rfl
            have B14 : Program.BlocksKept s13 s14 := Program.BlocksKept.of_blocks_eq U14.1
            have X11 : Program.BlocksKept r11.2 s14 := (B12.trans K13.1).trans B14
            have X10 : Program.BlocksKept s10 s14 := K11.1.trans X11
            have X8 : Program.BlocksKept s8 s14 := (K9.1.trans K10.1).trans X10
            have X7 : Program.BlocksKept r7.2 s14 := K8.1.trans X8
            have X6 : Program.BlocksKept r6.2 s14 := K7.1.trans X7
            have X2 : Program.BlocksKept r2.2 s14 :=
              (((K3.1.trans K4.1).trans K5.1).trans K6.1).trans X6
            have X0 : Program.BlocksKept prog s14 :=
              ((Program.BlocksKept.of_blocks_eq D1.1).trans K2.1).trans X2
            -- the addresses
            have hc : r2.1 = prog.Blocks.length := by rw [N2.2.1, D1.1]
            have hlen2 : r2.2.Blocks.length = r2.1 + 1 := by rw [N2.2.2.1, N2.2.1]
            have hlen5 : r2.2.Blocks.length ≤ s5.Blocks.length :=
              ((K3.1.trans K4.1).trans K5.1).length_le
            have hb : r6.1 = s5.Blocks.length := N6.2.1
            have hlen6 : r6.2.Blocks.length = r6.1 + 1 := by rw [N6.2.2.1, N6.2.1]
            have hst : r7.1 = r6.1 + 1 := by rw [N7.2.1, hlen6]
            have hlen7 : r7.2.Blocks.length = r7.1 + 1 := by rw [N7.2.2.1, N7.2.1]
            have hlen8 : r7.2.Blocks.length ≤ s8.Blocks.length := K8.1.length_le
            have hlen9 : s8.Blocks.length ≤ s9.Blocks.length := K9.1.length_le
            have he : r11.1 = s9.Blocks.length := by rw [N11.2.1, L10]
            have hlen11 : r11.2.Blocks.length = r11.1 + 1 := by rw [N11.2.2.1, N11.2.1]
            have hlen12 : s12.Blocks.length = r11.1 + 1 := hlen11
            have hlen14 : r11.2.Blocks.length ≤ s14.Blocks.length := X11.length_le
            have hce : r11.1 ≠ r2.1 := by omega
            -- the cast
            have hcl1 : (n.condClosure cast (s4.PushBlock r2.1)).1.1 = none := by
              rw [← G5.1]
            have hcl2 : (n.condClosure cast (s4.PushBlock r2.1)).1.2 = pred := by
              rw [← G5.1]
            -- the scopes
            have S13 : Program.ScopesKept s1 s13 :=
              (((((((((K2.2.scopes_trans K3.2).scopes_trans K4.2).scopes_trans K5.2).scopes_trans
                K6.2).scopes_trans K7.2).scopes_trans K8.2).scopes_trans K9.2).scopes_trans
                K10.2).scopes_trans K11.2).scopes_trans
                ((Program.ScopesKept.of_scopes_eq rfl rfl).scopes_trans K13.2)
            obtain ⟨f2, hf2, hp2⟩ := S13.2 _ _ D1.2.2
            rw [← S13.1] at hf2
            obtain ⟨f, hf, hp⟩ := U14.2.2.1 trivial
            rw [hf2] at hf
            simp only [Option.some.injEq] at hf
            rw [← hf, hp2] at hp
            simp only [Option.some.injEq] at hp
            refine ⟨r2.1, r6.1, r7.1, r11.1, pred, ?_⟩
            refine
              { value := hv.symm
                condNew := by omega
                condBody := by omega
                bodyStep := by omega
                stepEnd := by omega
                endThere := by omega
                nameCond := ?_
                nameBody := ?_
                nameStep := ?_
                nameEnd := ?_
                termCond := ?_
                termBody := ?_
                termStep := ?_
                termEnd := ?_
                current := ?_
                scope := hp.symm
                kept := X0
                castResult := ?_
                onlyFour := ?_ }
            · exact X2.nameAt _ _ (by rw [N2.2.1]; exact N2.2.2.2.1)
            · exact X6.nameAt _ _ (by rw [N6.2.1]; exact N6.2.2.2.1)
            · exact X7.nameAt _ _ (by rw [N7.2.1]; exact N7.2.2.2.1)
            · exact X11.nameAt _ _ (by rw [N11.2.1]; exact N11.2.2.2.1)
            · rw [Program.termAt_congr U14.1,
                newCondBr_termAt s12 r2.1 pred r6.1 r11.1 r2.1 (by omega)]
              simp
            · apply X8.2
              rw [Program.termAt_congr G8.2.1]
              exact T8 G8.1.symm (by
                show r6.1 < r7.2.Blocks.length
                omega)
            · apply X10.2
              exact branchIfNoTerminator_terminated s9 r7.1 r2.1 (by omega)
            · rw [Program.termAt_congr U14.1,
                newCondBr_termAt s12 r2.1 pred r6.1 r11.1 r11.1 (by omega)]
              simp only [hce, if_false]
              have : s12.termAt r11.1 = r11.2.termAt r11.1 := Program.termAt_congr rfl _
              rw [this, N11.2.1]
              exact N11.2.2.2.2.1
            · have hbs : s13.blockStack = s12.blockStack :=
                (Program.updateBlock_fields s12 r2.1
                  (fun b => { b with Term := some (.CondBr pred r6.1 r11.1) })).2.2.1
              show s14.blockStack.head? = some r11.1
              rw [U14.2.1, hbs]
              rfl
            · intro parent2 hp2cur
              rw [hcur] at hp2cur
              simp only [Option.some.injEq] at hp2cur
              subst hp2cur
              exact ⟨rfl, Prod.ext ((C5.2.2 hcl1).symm.trans hcl2) (C5.2.1.symm.trans hcl1)⟩
            · intro aInit aCond aCast aBody aStep
              have l3 : s3.Blocks.length = r2.2.Blocks.length := aInit r2.2
              have l4 : s4.Blocks.length = s3.Blocks.length :=
                (Program.updateBlock_fields s3 parent _).2.2.2
              have l5 := L5 aCond aCast
              have l8 := L8 aBody
              have l9 := L9 aStep
              have l13 : s13.Blocks.length = s12.Blocks.length :=
                (Program.updateBlock_fields s12 r2.1 _).2.2.2
              have l14 : s14.Blocks.length = s13.Blocks.length := by rw [U14.1]
              omega

theorem ForNode.bodyClosure_exit (n : ForNode) (bodyBlk stepBlk g : Nat) (s : Program)
    (h : (n.Body s).1 = (.BlockRef g, none)) :
    (n.bodyClosure bodyBlk stepBlk s).1 = .done none := by
  rcases hb : n.Body s with ⟨⟨gen, err⟩, s1⟩
  rw [hb] at h
  simp only [Prod.mk.injEq] at h
  simp [ForNode.bodyClosure, hb, h.1, h.2]

theorem ForNode.stepClosure_exit (n : ForNode) (s : Program) :
    (n.stepClosure s).1 = (n.Step s).1.2 := rfl

theorem ForNode.codegen_returns (cast : TypeCast) (n : ForNode) (prog : Program) (parent : Nat)
    (hcur : prog.CurrentBlock = some parent)
    (hInit : n.Init.Keeps) (hCond : n.Cond.Keeps) (hCast : cast.Keeps)
    (hBody : n.Body.Keeps) (hStep : n.Step.Keeps)
    (hcastOk : ∀ (s : Program) (x : ir.Value), (cast s x types.I1).1.2 = none)
    (hbodyOk : ∀ s : Program, ∃ g : Nat, (n.Body s).1 = (.BlockRef g, none))
    (hstepOk : ∀ s : Program, (n.Step s).1.2 = none) :
    ∃ (v : ir.Value) (final : Program), n.Codegen cast prog = .returned v none final := by
  have hcondExit : ∀ (s : Program) (blk : Nat),
      (s.genInBlock blk (n.condClosure cast)).1.1 = none := by
    intro s blk
    show (n.condClosure cast (s.PushBlock blk)).1.1 = none
    rw [(ForNode.condClosure_fields cast n _).2.1, hcastOk]
  have hbodyExit : ∀ (s : Program) (blk b st : Nat),
      (s.genInBlock blk (n.bodyClosure b st)).1 = .done none := by
    intro s blk b st
    obtain ⟨g, hg⟩ := hbodyOk (s.PushBlock blk)
    exact ForNode.bodyClosure_exit n b st g _ hg
  have hstepExit : ∀ (s : Program) (blk : Nat),
      (s.genInBlock blk n.stepClosure).1 = none := by
    intro s blk
    show (n.stepClosure (s.PushBlock blk)).1 = none
    rw [ForNode.stepClosure_exit, hstepOk]
  unfold ForNode.Codegen
  simp only [hcur]
  split
  · next e1 e x s5 h5 =>
    have h := congrArg (fun r => r.1.1) h5
    simp only at h
    rw [hcondExit] at h
    cases h
  · next e1 pred s5 h5 =>
    split
    · next ex s8 h8 =>
      have h := congrArg (fun r => r.1) h8
      simp only at h
      rw [hbodyExit] at h
      cases h
    · next ex e s8 h8 =>
      have h := congrArg (fun r => r.1) h8
      simp only at h
      rw [hbodyExit] at h
      cases h
    · next ex s8 h8 =>
      split
      · next ex2 e s9 h9 =>
        have h := congrArg (fun r => r.1) h9
        simp only at h
        rw [hstepExit] at h
        cases h
      · next ex2 s9 h9 =>
        have D1 := Program.scopeDown_frame prog n.Token
        set s1 := prog.ScopeDown n.Token with hs1
        have K2 := Program.newBlock_kept s1 ( n.namePrefix ++ "cond")
        set r2 := s1.NewBlock ( n.namePrefix ++ "cond") with hr2
        have K3 := hInit r2.2
        set s3 := (n.Init r2.2).2 with hs3
        have K4 := newBr_kept s3 parent r2.1
        set s4 := s3.NewBr parent r2.1 with hs4
        have K5 := genInBlock_kept s4 r2.1 (n.condClosure cast)
          (ForNode.condClosure_kept cast n hCond hCast)
        rw [h5] at K5
        simp only at K5
        have K6 := Program.newBlock_kept s5 ( n.namePrefix ++ "body")
        set r6 := s5.NewBlock ( n.namePrefix ++ "body") with hr6
        have K7 := Program.newBlock_kept r6.2 ( n.namePrefix ++ "step")
        set r7 := r6.2.NewBlock ( n.namePrefix ++ "step") with hr7
        have K8 := genInBlock_kept r7.2 r6.1 (n.bodyClosure r6.1 r7.1)
          (fun x => ⟨(ForNode.bodyClosure_kept n hBody r6.1 r7.1 x).1,
            (ForNode.bodyClosure_kept n hBody r6.1 r7.1 x).2.1⟩)
        rw [h8] at K8
        simp only at K8
        have K9 := genInBlock_kept s8 r7.1 n.stepClosure (ForNode.stepClosure_kept n hStep)
        rw [h9] at K9
        simp only at K9
        have K10 := branchIfNoTerminator_kept s9 r7.1 r2.1
        set s10 := BranchIfNoTerminator s9 r7.1 r2.1 with hs10
        have K11 := Program.newBlock_kept s10 ( n.namePrefix ++ "end")
        set r11 := s10.NewBlock ( n.namePrefix ++ "end") with hr11
        set s12 := r11.2.PushBlock r11.1 with hs12
        have K13 := newCondBr_kept s12 r2.1 pred r6.1 r11.1
        set s13 := s12.NewCondBr r2.1 pred r6.1 r11.1 with hs13
        have S13 : Program.ScopesKept s1 s13 :=
          (((((((((K2.2.scopes_trans K3.2).scopes_trans K4.2).scopes_trans K5.2).scopes_trans
            K6.2).scopes_trans K7.2).scopes_trans K8.2).scopes_trans K9.2).scopes_trans
            K10.2).scopes_trans K11.2).scopes_trans
            ((Program.ScopesKept.of_scopes_eq rfl rfl).scopes_trans K13.2)
        obtain ⟨f2, hf2, hp2⟩ := S13.2 _ _ D1.2.2
        rw [← S13.1] at hf2
        rw [(Program.scopeUp_fields s13).2.2.2 f2 prog.Scope hf2 hp2]
        exact ⟨_, _, rfl⟩

/-! ## The four blocks of a loop -/

theorem Program.names_of_four (a f : Program) (n0 n1 n2 n3 : String)
    (hkept : Program.BlocksKept a f) (hlen : f.Blocks.length = a.Blocks.length + 4)
    (h0 : f.nameAt a.Blocks.length = some n0)
    (h1 : f.nameAt (a.Blocks.length + 1) = some n1)
    (h2 : f.nameAt (a.Blocks.length + 2) = some n2)
    (h3 : f.nameAt (a.Blocks.length + 3) = some n3) :
    f.names = a.names ++ [n0, n1, n2, n3] := by
  obtain ⟨extra, hextra⟩ := hkept.1
  have hla : a.names.length = a.Blocks.length := by simp [Program.names]
  have hlf : f.names.length = a.Blocks.length + 4 := by simp [Program.names, hlen]
  have hle : extra.length = 4 := by
    have := congrArg List.length hextra
    rw [List.length_append] at this
    omega
  have hget : ∀ k name, f.nameAt (a.Blocks.length + k) = some name → extra[k]? = some name := by
    intro k name hk
    have hf : f.names[a.Blocks.length + k]? = some name := by
      simpa [Program.names, Program.nameAt, List.getElem?_map] using hk
    rw [← hextra, List.getElem?_append_right (by omega), hla] at hf
    simpa using hf
  have g0 := hget 0 n0 h0
  have g1 := hget 1 n1 h1
  have g2 := hget 2 n2 h2
  have g3 := hget 3 n3 h3
  rw [← hextra]
  congr 1
  match extra, hle, g0, g1, g2, g3 with
  | [x0, x1, x2, x3], _, g0, g1, g2, g3 =>
    simp only [List.getElem?_cons_zero, List.getElem?_cons_succ, Option.some.injEq] at g0 g1 g2 g3
    rw [g0, g1, g2, g3]

theorem Lowering.value_keeps (v : ir.Value) :
    (Lowering.value v).Keeps ∧ (Lowering.value v).AddsNoBlock :=
  ⟨fun s => ⟨Program.BlocksKept.refl s, Program.ScopesKept.scopes_refl s⟩, fun _ => rfl⟩

theorem Lowering.block_keeps : Lowering.block.Keeps ∧ Lowering.block.AddsNoBlock :=
  ⟨fun s => ⟨Program.BlocksKept.refl s, Program.ScopesKept.scopes_refl s⟩, fun _ => rfl⟩

theorem TypeCast.succeeding_keeps :
    TypeCast.succeeding.Keeps ∧ TypeCast.succeeding.AddsNoBlock :=
  ⟨fun s _ _ => ⟨Program.BlocksKept.refl s, Program.ScopesKept.scopes_refl s⟩, fun _ _ _ => rfl⟩

theorem TypeCast.refusingNil_keeps :
    TypeCast.refusingNil.Keeps ∧ TypeCast.refusingNil.AddsNoBlock := by
  constructor
  · intro s x t
    cases x <;> exact ⟨Program.BlocksKept.refl s, Program.ScopesKept.scopes_refl s⟩
  · intro s x t
    cases x <;> rfl

theorem ForNode.bodyClosure_done (n : ForNode) (bodyBlk stepBlk : Nat) (s : Program)
    (h : (n.bodyClosure bodyBlk stepBlk s).1 = .done none) :
    ∃ g : Nat, (n.Body s).1 = (.BlockRef g, none) := by
  rcases hb : n.Body s with ⟨⟨gen, err⟩, s1⟩
  cases err with
  | some e => simp [ForNode.bodyClosure, hb] at h
  | none =>
    cases gen with
    | BlockRef g => exact ⟨g, rfl⟩
    | Nil => simp [ForNode.bodyClosure, hb] at h
    | Named i => simp [ForNode.bodyClosure, hb] at h

theorem ForNode.succeeds_of_returned (cast : TypeCast) (n : ForNode) (prog : Program)
    (parent : Nat) (hcur : prog.CurrentBlock = some parent) (v : ir.Value) (final : Program)
    (hrun : n.Codegen cast prog = .returned v none final) :
    n.Succeeds cast prog parent := by
  unfold ForNode.Codegen at hrun
  simp only [hcur] at hrun
  split at hrun
  · cases hrun
  · next e1 pred s5 h5 =>
    have e5 : n.afterCond cast prog parent = s5 := congrArg (fun r => r.2) h5
    have hcast : (n.condClosure cast (n.condState prog parent)).1.1 = none :=
      congrArg (fun r => r.1.1) h5
    split at hrun
    · cases hrun
    · cases hrun
    · next s8 h8 =>
      have eb : n.bodyState cast prog parent =
          ((s5.NewBlock ( n.namePrefix ++ "body")).2.NewBlock ( n.namePrefix ++ "step")).2.PushBlock
            (s5.NewBlock ( n.namePrefix ++ "body")).1 := by
        simp only [ForNode.bodyState, e5]
      have e8 : n.afterBody cast prog parent = s8 := by
        simp only [ForNode.afterBody, e5]
        exact congrArg (fun r => r.2) h8
      have hbody : (n.bodyClosure (s5.NewBlock ( n.namePrefix ++ "body")).1
          ((s5.NewBlock ( n.namePrefix ++ "body")).2.NewBlock ( n.namePrefix ++ "step")).1
          (n.bodyState cast prog parent)).1 = .done none := by
        rw [eb]
        exact congrArg (fun r => r.1) h8
      split at hrun
      · cases hrun
      · next s9 h9 =>
        have es : n.stepState cast prog parent =
            s8.PushBlock
              ((s5.NewBlock ( n.namePrefix ++ "body")).2.NewBlock ( n.namePrefix ++ "step")).1 := by
          simp only [ForNode.stepState, e5, e8]
        have hstep : (n.stepClosure (n.stepState cast prog parent)).1 = none := by
          rw [es]
          exact congrArg (fun r => r.1) h9
        exact ⟨((ForNode.condClosure_fields cast n _).2.1).symm.trans hcast,
          ForNode.bodyClosure_done n _ _ _ hbody, hstep⟩

theorem ForNode.returns_of_succeeds (cast : TypeCast) (n : ForNode) (prog : Program)
    (parent : Nat) (hcur : prog.CurrentBlock = some parent)
    (hInit : n.Init.Keeps) (hCond : n.Cond.Keeps) (hCast : cast.Keeps)
    (hBody : n.Body.Keeps) (hStep : n.Step.Keeps)
    (hok : n.Succeeds cast prog parent) :
    ∃ (v : ir.Value) (final : Program), n.Codegen cast prog = .returned v none final := by
  obtain ⟨hcastOk, ⟨g, hbodyOk⟩, hstepOk⟩ := hok
  have hcondExit : (n.condClosure cast (n.condState prog parent)).1.1 = none :=
    ((ForNode.condClosure_fields cast n _).2.1).trans hcastOk
  have hbodyExit : ∀ b st : Nat,
      (n.bodyClosure b st (n.bodyState cast prog parent)).1 = .done none :=
    fun b st => ForNode.bodyClosure_exit n b st g _ hbodyOk
  have hstepExit : (n.stepClosure (n.stepState cast prog parent)).1 = none := hstepOk
  unfold ForNode.Codegen
  simp only [hcur]
  split
  · next e1 e x s5 h5 =>
    have h : (n.condClosure cast (n.condState prog parent)).1.1 = some e :=
      congrArg (fun r => r.1.1) h5
    rw [hcondExit] at h
    cases h
  · next e1 pred s5 h5 =>
    have e5 : n.afterCond cast prog parent = s5 := congrArg (fun r => r.2) h5
    have eb : n.bodyState cast prog parent =
        ((s5.NewBlock ( n.namePrefix ++ "body")).2.NewBlock ( n.namePrefix ++ "step")).2.PushBlock
          (s5.NewBlock ( n.namePrefix ++ "body")).1 := by
      simp only [ForNode.bodyState, e5]
    rw [eb] at hbodyExit
    split
    · next ex s8 h8 =>
      have h := (congrArg (fun r => r.1) h8).symm.trans (hbodyExit _ _)
      cases h
    · next ex e s8 h8 =>
      have h := (congrArg (fun r => r.1) h8).symm.trans (hbodyExit _ _)
      cases h
    · next ex s8 h8 =>
      have e8 : n.afterBody cast prog parent = s8 := by
        simp only [ForNode.afterBody, e5]
        exact congrArg (fun r => r.2) h8
      have es : n.stepState cast prog parent =
          s8.PushBlock
            ((s5.NewBlock ( n.namePrefix ++ "body")).2.NewBlock ( n.namePrefix ++ "step")).1 := by
        simp only [ForNode.stepState, e5, e8]
      rw [es] at hstepExit
      split
      · next ex2 e s9 h9 =>
        have h := (congrArg (fun r => r.1) h9).symm.trans hstepExit
        cases h
      · next ex2 s9 h9 =>
        have D1 := Program.scopeDown_frame prog n.Token
        set s1 := prog.ScopeDown n.Token with hs1
        have K2 := Program.newBlock_kept s1 ( n.namePrefix ++ "cond")
        set r2 := s1.NewBlock ( n.namePrefix ++ "cond") with hr2
        have K3 := hInit r2.2
        set s3 := (n.Init r2.2).2 with hs3
        have K4 := newBr_kept s3 parent r2.1
        set s4 := s3.NewBr parent r2.1 with hs4
        have K5 := genInBlock_kept s4 r2.1 (n.condClosure cast)
          (ForNode.condClosure_kept cast n hCond hCast)
        rw [h5] at K5
        simp only at K5
        have K6 := Program.newBlock_kept s5 ( n.namePrefix ++ "body")
        set r6 := s5.NewBlock ( n.namePrefix ++ "body") with hr6
        have K7 := Program.newBlock_kept r6.2 ( n.namePrefix ++ "step")
        set r7 := r6.2.NewBlock ( n.namePrefix ++ "step") with hr7
        have K8 := genInBlock_kept r7.2 r6.1 (n.bodyClosure r6.1 r7.1)
          (fun x => ⟨(ForNode.bodyClosure_kept n hBody r6.1 r7.1 x).1,
            (ForNode.bodyClosure_kept n hBody r6.1 r7.1 x).2.1⟩)
        rw [h8] at K8
        simp only at K8
        have K9 := genInBlock_kept s8 r7.1 n.stepClosure (ForNode.stepClosure_kept n hStep)
        rw [h9] at K9
        simp only at K9
        have K10 := branchIfNoTerminator_kept s9 r7.1 r2.1
        set s10 := BranchIfNoTerminator s9 r7.1 r2.1 with hs10
        have K11 := Program.newBlock_kept s10 ( n.namePrefix ++ "end")
        set r11 := s10.NewBlock ( n.namePrefix ++ "end") with hr11
        set s12 := r11.2.PushBlock r11.1 with hs12
        have K13 := newCondBr_kept s12 r2.1 pred r6.1 r11.1
        set s13 := s12.NewCondBr r2.1 pred r6.1 r11.1 with hs13
        have S13 : Program.ScopesKept s1 s13 :=
          (((((((((K2.2.scopes_trans K3.2).scopes_trans K4.2).scopes_trans K5.2).scopes_trans
            K6.2).scopes_trans K7.2).scopes_trans K8.2).scopes_trans K9.2).scopes_trans
            K10.2).scopes_trans K11.2).scopes_trans
            ((Program.ScopesKept.of_scopes_eq rfl rfl).scopes_trans K13.2)
        obtain ⟨f2, hf2, hp2⟩ := S13.2 _ _ D1.2.2
        rw [← S13.1] at hf2
        rw [(Program.scopeUp_fields s13).2.2.2 f2 prog.Scope hf2 hp2]
        exact ⟨_, _, rfl⟩

/-- C11: let the loop be lowered where there is a current block, by
sub-lowerings that keep the blocks and are balanced on the scopes.  The run
returns without error exactly when its own three fallible calls succeed: the
cast of the lowered condition, the lowering of the body (to a block) and the
lowering of the step.  When they do, `Codegen` has made four blocks after the
blocks that were there, in the order cond, body, step, end, named by the name
prefix of the loop (`F`, the index in upper-case hexadecimal, `_`); the
condition is lowered with the cond block current, and the cond block ends in
the conditional branch, on the value that the cast returns for the lowered
condition, to the body block and the end block; the end block is the value
returned and the current block.  When the sub-lowerings add no block, the
function has these four blocks more and no other. -/
theorem ForNode.codegen_four_blocks (cast : TypeCast) (n : ForNode) (prog : Program)
    (parent : Nat) (hcur : prog.CurrentBlock = some parent)
    (hInit : n.Init.Keeps) (hCond : n.Cond.Keeps) (hCast : cast.Keeps)
    (hBody : n.Body.Keeps) (hStep : n.Step.Keeps) :
    (n.Succeeds cast prog parent ↔
      ∃ (v : ir.Value) (final : Program), n.Codegen cast prog = .returned v none final) ∧
    (∀ (v : ir.Value) (final : Program), n.Codegen cast prog = .returned v none final →
      ∃ (condBlk bodyBlk stepBlk endBlk : Nat) (predicate : ir.Value),
        v = .BlockRef endBlk ∧
        prog.Blocks.length ≤ condBlk ∧ condBlk < bodyBlk ∧ bodyBlk < stepBlk ∧
        stepBlk < endBlk ∧ endBlk < final.Blocks.length ∧
        n.namePrefix = "F" ++ formatUpperHex n.Index ++ "_" ∧
        final.nameAt condBlk = some ( n.namePrefix ++ "cond") ∧
        final.nameAt bodyBlk = some ( n.namePrefix ++ "body") ∧
        final.nameAt stepBlk = some ( n.namePrefix ++ "step") ∧
        final.nameAt endBlk = some ( n.namePrefix ++ "end") ∧
        final.termAt condBlk = some (.CondBr predicate bodyBlk endBlk) ∧
        (n.condState prog parent).CurrentBlock = some condBlk ∧
        (cast (n.Cond (n.condState prog parent)).2
            (n.Cond (n.condState prog parent)).1.1 types.I1).1 = (predicate, none) ∧
        final.CurrentBlock = some endBlk ∧
        (n.Init.AddsNoBlock → n.Cond.AddsNoBlock → cast.AddsNoBlock →
          n.Body.AddsNoBlock → n.Step.AddsNoBlock →
          final.names = prog.names ++
            [ n.namePrefix ++ "cond", n.namePrefix ++ "body", n.namePrefix ++ "step",
              n.namePrefix ++ "end"])) := by
  refine ⟨⟨fun hok => ForNode.returns_of_succeeds cast n prog parent hcur hInit hCond hCast
      hBody hStep hok,
    fun ⟨v, final, hrun⟩ => ForNode.succeeds_of_returned cast n prog parent hcur v final hrun⟩,
    ?_⟩
  intro v final hrun
  obtain ⟨c, b, st, e, pred, L⟩ := ForNode.codegen_returned cast n prog v final hInit hCond
    hCast hBody hStep hrun
  refine ⟨c, b, st, e, pred, L.value, L.condNew, L.condBody, L.bodyStep, L.stepEnd,
    L.endThere, rfl, L.nameCond, L.nameBody, L.nameStep, L.nameEnd, L.termCond,
    (L.castResult parent hcur).1, (L.castResult parent hcur).2, L.current, ?_⟩
  intro a1 a2 a3 a4 a5
  obtain ⟨hlen, hc, hb, hst, he⟩ := L.onlyFour a1 a2 a3 a4 a5
  apply Program.names_of_four prog final _ _ _ _ L.kept hlen
  · rw [← hc]; exact L.nameCond
  · rw [← hb]; exact L.nameBody
  · rw [← hst]; exact L.nameStep
  · rw [← he]; exact L.nameEnd

/-- C11 at the loop with index 5 in a function that has the entry block, with
a cast that fails on the nil value only: the three calls of the run succeed,
the blocks `F5_cond`, `F5_body`, `F5_step` and `F5_end` are made at 1, 2, 3
and 4, the cond block ends in the conditional branch on the result of the
cast to 2 and 4, and block 4 is returned and current. -/
theorem ForNode.codegen_four_blocks_witness :
    exampleProgram.CurrentBlock = some 0 ∧
    exampleLoop.Succeeds TypeCast.refusingNil exampleProgram 0 ∧
    exampleLoop.Codegen TypeCast.refusingNil exampleProgram =
      .returned (.BlockRef 4) none exampleLowered ∧
    (∃ (condBlk bodyBlk stepBlk endBlk : Nat) (predicate : ir.Value),
      ir.Value.BlockRef 4 = .BlockRef endBlk ∧
      exampleProgram.Blocks.length ≤ condBlk ∧ condBlk < bodyBlk ∧ bodyBlk < stepBlk ∧
      stepBlk < endBlk ∧ endBlk < exampleLowered.Blocks.length ∧
      exampleLoop.namePrefix = "F" ++ formatUpperHex exampleLoop.Index ++ "_" ∧
      exampleLowered.nameAt condBlk = some ( exampleLoop.namePrefix ++ "cond") ∧
      exampleLowered.nameAt bodyBlk = some ( exampleLoop.namePrefix ++ "body") ∧
      exampleLowered.nameAt stepBlk = some ( exampleLoop.namePrefix ++ "step") ∧
      exampleLowered.nameAt endBlk = some ( exampleLoop.namePrefix ++ "end") ∧
      exampleLowered.termAt condBlk = some (.CondBr predicate bodyBlk endBlk) ∧
      (exampleLoop.condState exampleProgram 0).CurrentBlock = some condBlk ∧
      (TypeCast.refusingNil (exampleLoop.Cond (exampleLoop.condState exampleProgram 0)).2
          (exampleLoop.Cond (exampleLoop.condState exampleProgram 0)).1.1 types.I1).1 =
        (predicate, none) ∧
      exampleLowered.CurrentBlock = some endBlk ∧
      (exampleLoop.Init.AddsNoBlock → exampleLoop.Cond.AddsNoBlock →
        TypeCast.refusingNil.AddsNoBlock →
        exampleLoop.Body.AddsNoBlock → exampleLoop.Step.AddsNoBlock →
        exampleLowered.names = exampleProgram.names ++
          [ exampleLoop.namePrefix ++ "cond", exampleLoop.namePrefix ++ "body",
            exampleLoop.namePrefix ++ "step", exampleLoop.namePrefix ++ "end"])) ∧
    exampleLowered.names = ["entry", "F5_cond", "F5_body", "F5_step", "F5_end"] ∧
    exampleLowered.termAt 1 = some (.CondBr (.Named "cast") 2 4) ∧
    exampleLowered.CurrentBlock = some 4 :=
  ⟨rfl,
   ((ForNode.codegen_four_blocks TypeCast.refusingNil exampleLoop exampleProgram 0 rfl
      (Lowering.value_keeps _).1 (Lowering.value_keeps _).1 TypeCast.refusingNil_keeps.1
      Lowering.block_keeps.1 (Lowering.value_keeps _).1).1).2
      ⟨.BlockRef 4, exampleLowered, by decide⟩,
   by decide,
   (ForNode.codegen_four_blocks TypeCast.refusingNil exampleLoop exampleProgram 0 rfl
      (Lowering.value_keeps _).1 (Lowering.value_keeps _).1 TypeCast.refusingNil_keeps.1
      Lowering.block_keeps.1 (Lowering.value_keeps _).1).2 (.BlockRef 4) exampleLowered
      (by decide),
   by decide, by decide, by decide⟩

/-- C12, refuted as stated: after the example loop is lowered without error,
its end block `F5_end` at 4 has no terminator. -/
theorem ForNode.codegen_end_block_open :
    exampleLoop.Codegen TypeCast.succeeding exampleProgram =
      .returned (.BlockRef 4) none exampleLowered ∧
    exampleLowered.nameAt 4 = some "F5_end" ∧
    exampleLowered.termAt 4 = none := by
  decide

/-- C12, amended: when `Codegen` returns without error, with sub-lowerings
that keep the blocks and are balanced on the scopes, the cond block has its
one terminator, the conditional branch to the body block and the end block;
the body block and the step block each have their terminator; and the end
block, which is the value returned and the current block, has none. -/
theorem ForNode.codegen_terminators (cast : TypeCast) (n : ForNode) (prog : Program)
    (v : ir.Value) (final : Program)
    (hInit : n.Init.Keeps) (hCond : n.Cond.Keeps) (hCast : cast.Keeps)
    (hBody : n.Body.Keeps) (hStep : n.Step.Keeps)
    (hrun : n.Codegen cast prog = .returned v none final) :
    ∃ (condBlk bodyBlk stepBlk endBlk : Nat) (predicate : ir.Value),
      final.nameAt condBlk = some ( n.namePrefix ++ "cond") ∧
      final.nameAt bodyBlk = some ( n.namePrefix ++ "body") ∧
      final.nameAt stepBlk = some ( n.namePrefix ++ "step") ∧
      final.nameAt endBlk = some ( n.namePrefix ++ "end") ∧
      final.termAt condBlk = some (.CondBr predicate bodyBlk endBlk) ∧
      (final.termAt bodyBlk).isSome = true ∧
      (final.termAt stepBlk).isSome = true ∧
      final.termAt endBlk = none ∧
      v = .BlockRef endBlk ∧
      final.CurrentBlock = some endBlk := by
  obtain ⟨c, b, st, e, pred, L⟩ := ForNode.codegen_returned cast n prog v final hInit hCond
    hCast hBody hStep hrun
  exact ⟨c, b, st, e, pred, L.nameCond, L.nameBody, L.nameStep, L.nameEnd, L.termCond,
    L.termBody, L.termStep, L.termEnd, L.value, L.current⟩

/-- C12, amended, at the example loop: cond ends in the conditional branch,
body and step in a branch each, and end is open. -/
theorem ForNode.codegen_terminators_witness :
    (∃ (condBlk bodyBlk stepBlk endBlk : Nat) (predicate : ir.Value),
      exampleLowered.nameAt condBlk = some ( exampleLoop.namePrefix ++ "cond") ∧
      exampleLowered.nameAt bodyBlk = some ( exampleLoop.namePrefix ++ "body") ∧
      exampleLowered.nameAt stepBlk = some ( exampleLoop.namePrefix ++ "step") ∧
      exampleLowered.nameAt endBlk = some ( exampleLoop.namePrefix ++ "end") ∧
      exampleLowered.termAt condBlk = some (.CondBr predicate bodyBlk endBlk) ∧
      (exampleLowered.termAt bodyBlk).isSome = true ∧
      (exampleLowered.termAt stepBlk).isSome = true ∧
      exampleLowered.termAt endBlk = none ∧
      ir.Value.BlockRef 4 = .BlockRef endBlk ∧
      exampleLowered.CurrentBlock = some endBlk) ∧
    exampleLowered.termAt 2 = some (.Br 3) ∧
    exampleLowered.termAt 3 = some (.Br 1) :=
  ⟨ForNode.codegen_terminators TypeCast.succeeding exampleLoop exampleProgram (.BlockRef 4)
      exampleLowered (Lowering.value_keeps _).1 (Lowering.value_keeps _).1
      TypeCast.succeeding_keeps.1 Lowering.block_keeps.1 (Lowering.value_keeps _).1
      (by decide),
   by decide, by decide⟩
